import Mathlib

/-!
# A verification development for the pmemkv hybrid B+-tree engine

Shallow embedding of the `KVTree` engine from `src/pmemkv.cc`: byte strings,
C-string comparison semantics (`strcmp` on `c_str()` pointers), the modified
Pearson hash, persistent slots and leaves, the volatile leaf descriptors and
inner nodes, and the operations `Get`, `Put`, `Remove`, `LeafSearch`,
`LeafSplitFull`, `InnerUpdateAfterSplit` and `Recover`.

Machine integers are modelled as `Nat` (a byte is a `Nat`; `uint8_t` casts are
`% 256`).  Persistent memory is a heap of leaves indexed by `Nat` identifiers;
persistent pointers are identifiers into that heap, so that aliasing between
the `root.head` chain and the descriptors' `leaf` references is explicit.
-/

namespace Pmemkv

/-- Byte strings (C++ `std::string` contents / `(char*, size)` pairs). -/
abbrev Bytes := List Nat

/-- The C-string view of a byte string: the bytes before the first zero byte.
`s.c_str()` handed to `strcmp`/`std::string(const char*)` exposes exactly this
prefix of the stored bytes. -/
def cstr (s : Bytes) : Bytes := s.takeWhile (fun b => b != 0)

/-- Byte-lexicographic three-way comparison on full byte strings
(`std::char_traits<char>::compare` over the common length, then the sizes):
this is `std::string::compare` as used in `InnerUpdateAfterSplit`. -/
def bytesCmp : Bytes → Bytes → Ordering
  | [], [] => Ordering.eq
  | [], _ :: _ => Ordering.lt
  | _ :: _, [] => Ordering.gt
  | a :: as, b :: bs =>
    if a < b then Ordering.lt else if b < a then Ordering.gt else bytesCmp as bs

/-- `strcmp(a.c_str(), b.c_str())` as a three-way comparison: byte comparison
of the zero-terminated prefixes. -/
def cstrcmp (a b : Bytes) : Ordering := bytesCmp (cstr a) (cstr b)

/-- Pearson hashing lookup table from RFC 3074 (`PEARSON_LOOKUP_TABLE`). -/
def PEARSON_LOOKUP_TABLE : List Nat := [
  251, 175, 119, 215, 81, 14, 79, 191, 103, 49, 181, 143, 186, 157, 0,
  232, 31, 32, 55, 60, 152, 58, 17, 237, 174, 70, 160, 144, 220, 90, 57,
  223, 59, 3, 18, 140, 111, 166, 203, 196, 134, 243, 124, 95, 222, 179,
  197, 65, 180, 48, 36, 15, 107, 46, 233, 130, 165, 30, 123, 161, 209, 23,
  97, 16, 40, 91, 219, 61, 100, 10, 210, 109, 250, 127, 22, 138, 29, 108,
  244, 67, 207, 9, 178, 204, 74, 98, 126, 249, 167, 116, 34, 77, 193,
  200, 121, 5, 20, 113, 71, 35, 128, 13, 182, 94, 25, 226, 227, 199, 75,
  27, 41, 245, 230, 224, 43, 225, 177, 26, 155, 150, 212, 142, 218, 115,
  241, 73, 88, 105, 39, 114, 62, 255, 192, 201, 145, 214, 168, 158, 221,
  148, 154, 122, 12, 84, 82, 163, 44, 139, 228, 236, 205, 242, 217, 11,
  187, 146, 159, 64, 86, 239, 195, 42, 106, 198, 118, 112, 184, 172, 87,
  2, 173, 117, 176, 229, 247, 253, 137, 185, 99, 164, 102, 147, 45, 66,
  231, 52, 141, 211, 194, 206, 246, 238, 56, 110, 78, 248, 63, 240, 189,
  93, 92, 51, 53, 183, 19, 171, 72, 50, 33, 104, 101, 69, 8, 252, 83, 120,
  76, 135, 85, 54, 202, 125, 188, 213, 96, 235, 136, 208, 162, 129, 190,
  132, 156, 38, 47, 1, 7, 254, 24, 4, 216, 131, 89, 21, 28, 133, 37, 153,
  149, 80, 170, 68, 6, 169, 234, 151]

/-- One lookup in the Pearson table. -/
def ptab (i : Nat) : Nat := PEARSON_LOOKUP_TABLE.getD i 0

/-- The loop of `KVTree::PearsonHash`:
`for (size_t i = size; i > 0;) hash = PEARSON_LOOKUP_TABLE[hash ^ data[--i]];`
`pearsonLoop data i h` runs the iterations that process indices
`i-1, i-2, ..., 0` starting from running hash `h`. -/
def pearsonLoop (data : Bytes) : Nat → Nat → Nat
  | 0, h => h
  | i + 1, h => pearsonLoop data i (ptab (h ^^^ data.getD i 0))

/-- `KVTree::PearsonHash(data, size)`: running hash initialized to
`(uint8_t) size`, table loop back-to-front, then the `0 → 1` remap
("0 reserved for null"). -/
def PearsonHash (data : Bytes) : Nat :=
  let h := pearsonLoop data data.length (data.length % 256)
  if h = 0 then 1 else h

/-- Modelled from the spec: the `KVStatus` result enumeration of the missing
`pmemkv.h` header — `OK`, `NOT_FOUND`, and a failure status (`FAILED`) used
when a transactional write fails or a fixed-size output buffer is too small. -/
inductive KVStatus where
  | FAILED
  | NOT_FOUND
  | OK
deriving DecidableEq

/-- Modelled from the spec: `LEAF_KEYS`, the leaf fan-out (nominally 48),
from the missing `pmemkv.h` header. -/
def LEAF_KEYS : Nat := 48

/-- Modelled from the spec: `LEAF_KEYS_MIDPOINT`, the lower-median index of
the `LEAF_KEYS + 1` split candidates. -/
def LEAF_KEYS_MIDPOINT : Nat := LEAF_KEYS / 2

/-- Modelled from the spec: `INNER_KEYS`, the inner-node fan-out
(nominally 4), from the missing `pmemkv.h` header. -/
def INNER_KEYS : Nat := 4

/-- Modelled from the spec: `INNER_KEYS_MIDPOINT`, half the inner keys
(each side retains this many keys after an inner split). -/
def INNER_KEYS_MIDPOINT : Nat := INNER_KEYS / 2

/-- Modelled from the spec: `INNER_KEYS_UPPER`, the index of the first key
moved to the new inner node on an inner split. -/
def INNER_KEYS_UPPER : Nat := INNER_KEYS / 2 + 1

/-- A persistent slot (`KVSlot`): Pearson hash `ph` (`0` = empty), key size
`ks`, value size `vs`, and the persistent buffer `kv` (`none` = null). -/
structure KVSlot where
  ph : Nat
  ks : Nat
  vs : Nat
  kv : Option Bytes
deriving DecidableEq

/-- The all-zero slot (a cleared / freshly allocated slot). -/
def KVSlot.empty : KVSlot := ⟨0, 0, 0, none⟩

/-- `KVSlot::clear()`: free the buffer and zero all fields. -/
def KVSlot.clear (_ : KVSlot) : KVSlot := KVSlot.empty

/-- `KVSlot::set(hash, key, value)`: record hash and sizes, allocate a
`ks + vs + 2` byte zero-initialized buffer, copy the key bytes at offset `0`
and the value bytes at offset `ks + 1`, leaving one zero byte after each. -/
def KVSlot.set (_ : KVSlot) (hash : Nat) (key value : Bytes) : KVSlot :=
  { ph := hash
    ks := key.length
    vs := value.length
    kv := some (key ++ [0] ++ value ++ [0]) }

/-- Modelled from the spec: the `hash()` accessor of `KVSlot` from the
missing `pmemkv.h` header. -/
def KVSlot.hash (s : KVSlot) : Nat := s.ph

/-- Modelled from the spec: the `key()` accessor returns the `char*` at the
start of the buffer; every consumer reads it as a C string, so this is the
zero-terminated prefix of the buffer. -/
def KVSlot.keyCStr (s : KVSlot) : Bytes := cstr (s.kv.getD [])

/-- Modelled from the spec: the `val()` accessor returns the `char*` at
offset `ks + 1` of the buffer (the start of the value region). -/
def KVSlot.valRegion (s : KVSlot) : Bytes := (s.kv.getD []).drop (s.ks + 1)

/-- Modelled from the spec: the `valsize()` accessor of `KVSlot`. -/
def KVSlot.valsize (s : KVSlot) : Nat := s.vs

/-- A persistent leaf (`KVLeaf`): `LEAF_KEYS` slots.  The `next` link is
represented by the position of the leaf identifier in the chain list of the
engine state. -/
structure KVLeaf where
  slots : List KVSlot
deriving DecidableEq

/-- A freshly allocated persistent leaf: all slots zeroed. -/
def KVLeaf.empty : KVLeaf := ⟨List.replicate LEAF_KEYS KVSlot.empty⟩

/-- A volatile leaf descriptor (`KVLeafNode`): mirrored hashes and keys plus
the persistent pointer (heap identifier) of the backing leaf.  The `parent`
back-pointer of the source is represented by search paths (`Frame` lists). -/
structure KVLeafNode where
  hashes : List Nat
  keys : List Bytes
  leaf : Nat
deriving DecidableEq

/-- A volatile tree node: a leaf descriptor or an inner node with separator
keys and `key_count + 1` children (`KVInnerNode`). -/
inductive KVNode where
  | leafn : KVLeafNode → KVNode
  | inner : List Bytes → List KVNode → KVNode

/-- One step of a root-to-node path: an inner node with a distinguished child
position.  A list of frames (innermost parent first) plays the role of the
`parent` pointer chain of the source. -/
structure Frame where
  keys : List Bytes
  children : List KVNode
  idx : Nat

/-- Rebuild the inner node of a frame with the distinguished child replaced. -/
def plugFrame (n : KVNode) (f : Frame) : KVNode :=
  KVNode.inner f.keys (f.children.set f.idx n)

/-- Rebuild the whole tree from a node and its path (innermost frame first).
This models returning from a chain of in-place updates through `parent`
pointers. -/
def plugPath (n : KVNode) (path : List Frame) : KVNode :=
  path.foldl plugFrame n

/-! ## Leaf-level operations -/

/-- The reverse slot scan shared by `KVTree::Get` and `KVTree::Remove`:
`for (int slot = LEAF_KEYS; slot--;)`, returning the first slot (scanning in
decreasing index order) whose mirrored hash equals `h` and whose mirrored key
is `strcmp`-equal to `key`.  `slotMatchScan … n` scans slots `n-1, …, 0`. -/
def slotMatchScan (hashes : List Nat) (keys : List Bytes) (h : Nat) (key : Bytes) :
    Nat → Option Nat
  | 0 => none
  | n + 1 =>
    if hashes.getD n 0 = h ∧ cstrcmp (keys.getD n []) key = Ordering.eq then some n
    else slotMatchScan hashes keys h key n

/-- The volatile-mirror half of `KVTree::LeafFillSpecificSlot`: if the slot
was empty, record the hash and the key in the descriptor (this runs before
`KVSlot::set`). -/
def lfssMirror (ln : KVLeafNode) (h : Nat) (key : Bytes) (slot : Nat) : KVLeafNode :=
  if ln.hashes.getD slot 0 = 0 then
    { ln with hashes := ln.hashes.set slot h, keys := ln.keys.set slot key }
  else ln

/-- The persistent half of `KVTree::LeafFillSpecificSlot`:
`leafnode->leaf->slots[slot].get_rw().set(hash, key, value)`. -/
def lfssPersist (pl : KVLeaf) (h : Nat) (key value : Bytes) (slot : Nat) : KVLeaf :=
  ⟨pl.slots.set slot ((pl.slots.getD slot KVSlot.empty).set h key value)⟩

/-- `KVTree::LeafFillSpecificSlot` acting on the descriptor and its backing
persistent leaf. -/
def leafFillSpecificSlot (ln : KVLeafNode) (pl : KVLeaf) (h : Nat) (key value : Bytes)
    (slot : Nat) : KVLeafNode × KVLeaf :=
  (lfssMirror ln h key slot, lfssPersist pl h key value slot)

/-- The scan of `KVTree::LeafFillEmptySlot`: the first slot with mirrored
hash `0`, scanning slots in decreasing index order. -/
def findEmptySlotScan (hashes : List Nat) : Nat → Option Nat
  | 0 => none
  | n + 1 => if hashes.getD n 0 = 0 then some n else findEmptySlotScan hashes n

/-- `KVTree::LeafFillEmptySlot`: fill the first empty slot found in the
reverse scan; if no slot is empty the loop falls through and nothing is
written. -/
def leafFillEmptySlot (ln : KVLeafNode) (pl : KVLeaf) (h : Nat) (key value : Bytes) :
    KVLeafNode × KVLeaf :=
  match findEmptySlotScan ln.hashes LEAF_KEYS with
  | some slot => leafFillSpecificSlot ln pl h key value slot
  | none => (ln, pl)

/-- The volatile-mirror half of `leafFillEmptySlot` (what has happened to the
descriptor by the time `KVSlot::set` runs). -/
def leafFillEmptySlotMirror (ln : KVLeafNode) (h : Nat) (key : Bytes) : KVLeafNode :=
  match findEmptySlotScan ln.hashes LEAF_KEYS with
  | some slot => lfssMirror ln h key slot
  | none => ln

/-- The scan of `KVTree::LeafFillSlotForKey`: slots in decreasing index
order; an empty slot updates `last_empty_slot`; a slot whose hash equals `h`
and whose key is `strcmp`-equal to `key` becomes `key_match_slot` and breaks.
Returns `(last_empty_slot, key_match_slot)`. -/
def leafScanForKey (hashes : List Nat) (keys : List Bytes) (h : Nat) (key : Bytes) :
    Nat → Option Nat → Option Nat × Option Nat
  | 0, le => (le, none)
  | n + 1, le =>
    let sh := hashes.getD n 0
    if sh = 0 then leafScanForKey hashes keys h key n (some n)
    else if sh = h ∧ cstrcmp (keys.getD n []) key = Ordering.eq then (le, some n)
    else leafScanForKey hashes keys h key n le

/-- The slot chosen by `KVTree::LeafFillSlotForKey`:
`key_match_slot >= 0 ? key_match_slot : last_empty_slot` (or none, in which
case the caller splits the leaf). -/
def leafChooseSlot (ln : KVLeafNode) (h : Nat) (key : Bytes) : Option Nat :=
  let r := leafScanForKey ln.hashes ln.keys h key LEAF_KEYS none
  match r.2 with
  | some slot => some slot
  | none => r.1

/-! ## Leaf split -/

/-- Insert `a` into a sorted list, after every element `b` with `le b a`
(the stable insertion position). -/
def insertSorted {α : Type} (le : α → α → Bool) (a : α) : List α → List α
  | [] => [a]
  | b :: bs => if le b a then b :: insertSorted le a bs else a :: b :: bs

/-- A stable sort (insertion sort).  It models `std::sort` (which may return
any permutation sorted under the comparator) and `std::list::sort` (which is
guaranteed stable). -/
def stableSort {α : Type} (le : α → α → Bool) (l : List α) : List α :=
  l.foldl (fun acc a => insertSorted le a acc) []

/-- The scratch array of `KVTree::LeafSplitFull`: the descriptor's
`LEAF_KEYS` mirrored keys plus the new key, sorted by
`strcmp(lhs.c_str(), rhs.c_str()) < 0`. -/
def splitCandidates (ln : KVLeafNode) (key : Bytes) : List Bytes :=
  stableSort (fun a b => cstrcmp a b != Ordering.gt) (ln.keys.take LEAF_KEYS ++ [key])

/-- The move loop of `KVTree::LeafSplitFull`: for each slot (in decreasing
index order) whose mirrored key sorts strictly above `split_key` under
`strcmp`, swap the persistent slot into the new leaf at the same index, copy
the hash/key mirrors to the new descriptor and clear the old mirrors.
Arguments: old/new descriptor, old/new persistent leaf. -/
def splitMoveScan (splitKey : Bytes) :
    Nat → KVLeafNode × KVLeafNode × KVLeaf × KVLeaf →
    KVLeafNode × KVLeafNode × KVLeaf × KVLeaf
  | 0, st => st
  | n + 1, (oldLn, newLn, oldPl, newPl) =>
    if cstrcmp (oldLn.keys.getD n []) splitKey = Ordering.gt then
      let os := oldPl.slots.getD n KVSlot.empty
      let ns := newPl.slots.getD n KVSlot.empty
      let newLn2 := { newLn with hashes := newLn.hashes.set n (oldLn.hashes.getD n 0),
                                 keys := newLn.keys.set n (oldLn.keys.getD n []) }
      let oldLn2 := { oldLn with hashes := oldLn.hashes.set n 0,
                                 keys := oldLn.keys.set n ([] : Bytes) }
      splitMoveScan splitKey n
        (oldLn2, newLn2, ⟨oldPl.slots.set n ns⟩, ⟨newPl.slots.set n os⟩)
    else splitMoveScan splitKey n (oldLn, newLn, oldPl, newPl)

/-! ## Volatile tree search and the split propagation -/

/-- The child choice of `KVTree::LeafSearch` at one inner node: scan the
separator keys in ascending index order and take the first child whose
separator satisfies `strcmp(key, keys[idx]) <= 0`; if none qualifies, take
`children[key_count]` (`findIdx` returns the list length in that case). -/
def innerChildIdx (keys : List Bytes) (key : Bytes) : Nat :=
  keys.findIdx (fun k => cstrcmp key k != Ordering.gt)

mutual

/-- `KVTree::LeafSearch` descending from a node, recording the path of
visited inner nodes (the `parent` chain of the reached leaf, innermost
first).  `leafSearchChild` walks to the chosen child (`none` if the index is
out of range, which cannot happen on a well-formed inner node). -/
def leafSearchGo (key : Bytes) : KVNode → List Frame → Option (KVLeafNode × List Frame)
  | KVNode.leafn ln, path => some (ln, path)
  | KVNode.inner ks cs, path =>
    leafSearchChild key cs (innerChildIdx ks key)
      ({ keys := ks, children := cs, idx := innerChildIdx ks key } :: path)

/-- Fetch the `idx`-th child and continue the descent there. -/
def leafSearchChild (key : Bytes) : List KVNode → Nat → List Frame →
    Option (KVLeafNode × List Frame)
  | [], _, _ => none
  | c :: _, 0, path => leafSearchGo key c path
  | _ :: cs, n + 1, path => leafSearchChild key cs n path

end

/-- The insertion position of `KVTree::InnerUpdateAfterSplit`:
`while (idx < keycount && inner->keys[idx].compare(*split_key) <= 0) idx++;`
— the first index whose key compares strictly above `split_key` under the
full-byte `std::string::compare`, else `keycount`. -/
def insertIdx (ks : List Bytes) (splitKey : Bytes) : Nat :=
  ks.findIdx (fun k => bytesCmp k splitKey == Ordering.gt)

/-- `KVTree::InnerUpdateAfterSplit`: walking the `parent` chain (the path,
innermost frame first).  With no parent, create a new top node over
`{node, new_node}`.  Otherwise insert `split_key` and `new_node` into the
parent in sorted position; if the parent now has more than `INNER_KEYS` keys,
split it at the midpoint, promote `keys[INNER_KEYS_MIDPOINT]`, and recurse. -/
def innerUpdateAfterSplit : KVNode → KVNode → Bytes → List Frame → KVNode
  | node, newNode, splitKey, [] => KVNode.inner [splitKey] [node, newNode]
  | node, newNode, splitKey, f :: rest =>
    let cs0 := f.children.set f.idx node
    let idx := insertIdx f.keys splitKey
    let ks2 := f.keys.insertIdx idx splitKey
    let cs2 := cs0.insertIdx (idx + 1) newNode
    if ks2.length ≤ INNER_KEYS then plugPath (KVNode.inner ks2 cs2) rest
    else
      innerUpdateAfterSplit
        (KVNode.inner (ks2.take INNER_KEYS_MIDPOINT) (cs2.take (INNER_KEYS_MIDPOINT + 1)))
        (KVNode.inner (ks2.drop INNER_KEYS_UPPER) (cs2.drop INNER_KEYS_UPPER))
        (ks2.getD INNER_KEYS_MIDPOINT []) rest

/-! ## The engine state and the public operations -/

/-- The engine state: the persistent pool (a heap of leaves and the
`root.head` chain of leaf identifiers, most recently allocated first) and the
volatile state (`tree_top` and the `leaves_prealloc` free list, a stack whose
top is the back of the list). -/
structure KVTreeState where
  heap : List KVLeaf
  chain : List Nat
  treeTop : Option KVNode
  leavesPrealloc : List Nat

/-- The empty engine state (a freshly created pool). -/
def KVTreeState.fresh : KVTreeState :=
  { heap := [], chain := [], treeTop := none, leavesPrealloc := [] }

/-- `KVTree::Get(key, string* value)`: search for the leaf, reverse-scan for
a slot with matching hash and `strcmp`-equal key, and on a hit
`value->append(kv.val())` — which copies the value region only up to its
first zero byte.  Returns the status and the bytes appended to `value`. -/
def KVTreeState.getStr (s : KVTreeState) (key : Bytes) : KVStatus × Bytes :=
  match s.treeTop with
  | none => (KVStatus.NOT_FOUND, [])
  | some t =>
    match leafSearchGo key t [] with
    | none => (KVStatus.NOT_FOUND, [])
    | some (ln, _) =>
      match slotMatchScan ln.hashes ln.keys (PearsonHash key) key LEAF_KEYS with
      | some slot =>
        let kv := (s.heap.getD ln.leaf KVLeaf.empty).slots.getD slot KVSlot.empty
        (KVStatus.OK, cstr kv.valRegion)
      | none => (KVStatus.NOT_FOUND, [])

/-- `size_t` subtraction `limit - 1` (wraps around at `2^64`). -/
def sizeTPred (limit : Nat) : Nat := (limit + (2 ^ 64 - 1)) % 2 ^ 64

/-- `KVTree::Get(key, limit, char* value, uint32_t* valuebytes)`: like
`getStr`, but on a hit it checks `vs < limit - 1`; if the value fits it
copies `vs` bytes (`memcpy(value, kv.val(), vs)`) and returns `OK`, else it
returns `FAILED`.  Returns the status and the bytes copied out. -/
def KVTreeState.getCopy (s : KVTreeState) (key : Bytes) (limit : Nat) : KVStatus × Bytes :=
  match s.treeTop with
  | none => (KVStatus.NOT_FOUND, [])
  | some t =>
    match leafSearchGo key t [] with
    | none => (KVStatus.NOT_FOUND, [])
    | some (ln, _) =>
      match slotMatchScan ln.hashes ln.keys (PearsonHash key) key LEAF_KEYS with
      | some slot =>
        let kv := (s.heap.getD ln.leaf KVLeaf.empty).slots.getD slot KVSlot.empty
        if kv.valsize < sizeTPred limit then (KVStatus.OK, kv.valRegion.take kv.vs)
        else (KVStatus.FAILED, [])
      | none => (KVStatus.NOT_FOUND, [])

/-- The `tree_top == null` path of `KVTree::Put`: build a fresh descriptor,
and inside one transaction either pop the free list or allocate a new
persistent leaf prepended at `root.head`, then fill slot `0`.
`setAllocFails` injects a `transaction_alloc_error` thrown by the
`make_persistent` call inside `KVSlot::set`: the transaction aborts, rolling
back every persistent write of its body, while volatile changes already made
by the body (the free-list pop) survive; `Put` catches and returns `FAILED`. -/
def putNewHead (s : KVTreeState) (h : Nat) (key value : Bytes) (setAllocFails : Bool) :
    KVStatus × KVTreeState :=
  match s.leavesPrealloc.getLast? with
  | some lid =>
    let pre2 := s.leavesPrealloc.dropLast
    if setAllocFails then
      (KVStatus.FAILED, { s with leavesPrealloc := pre2 })
    else
      let ln0 : KVLeafNode :=
        { hashes := List.replicate LEAF_KEYS 0, keys := List.replicate LEAF_KEYS [], leaf := lid }
      let fill := leafFillSpecificSlot ln0 (s.heap.getD lid KVLeaf.empty) h key value 0
      (KVStatus.OK,
        { s with heap := s.heap.set lid fill.2
                 treeTop := some (KVNode.leafn fill.1)
                 leavesPrealloc := pre2 })
  | none =>
    if setAllocFails then (KVStatus.FAILED, s)
    else
      let lid := s.heap.length
      let ln0 : KVLeafNode :=
        { hashes := List.replicate LEAF_KEYS 0, keys := List.replicate LEAF_KEYS [], leaf := lid }
      let fill := leafFillSpecificSlot ln0 KVLeaf.empty h key value 0
      (KVStatus.OK,
        { s with heap := s.heap ++ [fill.2]
                 chain := lid :: s.chain
                 treeTop := some (KVNode.leafn fill.1) })

/-- The in-place path of `KVTree::Put` (`LeafFillSlotForKey` found a slot):
`transaction::exec_tx(pmpool, [&] { LeafFillSpecificSlot(...); })`.
On an injected `KVSlot::set` allocation failure the persistent write is
rolled back but the already-performed volatile mirror update survives. -/
def putFill (s : KVTreeState) (ln : KVLeafNode) (path : List Frame) (h : Nat)
    (key value : Bytes) (slot : Nat) (setAllocFails : Bool) : KVStatus × KVTreeState :=
  let ln2 := lfssMirror ln h key slot
  let top2 := some (plugPath (KVNode.leafn ln2) path)
  if setAllocFails then (KVStatus.FAILED, { s with treeTop := top2 })
  else
    (KVStatus.OK,
      { s with treeTop := top2
               heap := s.heap.set ln.leaf
                 (lfssPersist (s.heap.getD ln.leaf KVLeaf.empty) h key value slot) })

/-- `KVTree::LeafSplitFull` followed by `InnerUpdateAfterSplit`, as invoked
from `KVTree::Put` when the leaf has no empty slot and no matching key.
Inside one transaction: obtain a new persistent leaf (free list or fresh
allocation prepended at `root.head`), move every slot whose key sorts
strictly above `split_key` to it, and place the new record via
`LeafFillEmptySlot`.  The volatile parents are updated outside the
transaction.  On an injected `KVSlot::set` allocation failure the persistent
swaps and allocations are rolled back, but the volatile mirror clears of the
move loop, the free-list pop and the target-descriptor mirror update all
survive; the new descriptor is deleted by the `catch` and `Put` returns
`FAILED`. -/
def putSplit (s : KVTreeState) (ln : KVLeafNode) (path : List Frame) (h : Nat)
    (key value : Bytes) (setAllocFails : Bool) : KVStatus × KVTreeState :=
  let splitKey := (splitCandidates ln key).getD LEAF_KEYS_MIDPOINT []
  -- acquire the new persistent leaf: (id, free list after, heap after, chain after)
  let acq : Nat × List Nat × List KVLeaf × List Nat :=
    match s.leavesPrealloc.getLast? with
    | some lid => (lid, s.leavesPrealloc.dropLast, s.heap, s.chain)
    | none => (s.heap.length, s.leavesPrealloc, s.heap ++ [KVLeaf.empty], s.heap.length :: s.chain)
  let lid := acq.1
  let newLn0 : KVLeafNode :=
    { hashes := List.replicate LEAF_KEYS 0, keys := List.replicate LEAF_KEYS [], leaf := lid }
  let moved := splitMoveScan splitKey LEAF_KEYS
    (ln, newLn0, acq.2.2.1.getD ln.leaf KVLeaf.empty, acq.2.2.1.getD lid KVLeaf.empty)
  let targetNew := cstrcmp key splitKey = Ordering.gt
  if setAllocFails then
    -- transaction aborted: persistent state of `s` intact; volatile kept
    let lnFail := if targetNew then moved.1 else leafFillEmptySlotMirror moved.1 h key
    (KVStatus.FAILED,
      { s with treeTop := some (plugPath (KVNode.leafn lnFail) path)
               leavesPrealloc := acq.2.1 })
  else
    let filled :=
      if targetNew then
        let fn := leafFillEmptySlot moved.2.1 moved.2.2.2 h key value
        (moved.1, fn.1, moved.2.2.1, fn.2)
      else
        let fo := leafFillEmptySlot moved.1 moved.2.2.1 h key value
        (fo.1, moved.2.1, fo.2, moved.2.2.2)
    let heap2 := (acq.2.2.1.set ln.leaf filled.2.2.1).set lid filled.2.2.2
    (KVStatus.OK,
      { s with heap := heap2
               chain := acq.2.2.2
               leavesPrealloc := acq.2.1
               treeTop := some (innerUpdateAfterSplit
                 (KVNode.leafn filled.1) (KVNode.leafn filled.2.1) splitKey path) })

/-- `KVTree::Put`.  `setAllocFails` injects an allocation failure inside the
transactional `KVSlot::set` call of whichever path runs (see the path
functions); the `catch` clauses of `Put` map it to `FAILED`. -/
def KVTreeState.put (s : KVTreeState) (key value : Bytes) (setAllocFails : Bool) :
    KVStatus × KVTreeState :=
  let h := PearsonHash key
  match s.treeTop with
  | none => putNewHead s h key value setAllocFails
  | some t =>
    match leafSearchGo key t [] with
    | none => (KVStatus.FAILED, s)
    | some (ln, path) =>
      match leafChooseSlot ln h key with
      | some slot => putFill s ln path h key value slot setAllocFails
      | none => putSplit s ln path h key value setAllocFails

/-- `KVTree::Remove`.  If no leaf or no matching slot is found, return `OK`.
Otherwise clear the volatile mirrors, then clear the persistent slot inside a
transaction.  `txFails` injects a transaction failure in that transaction:
`Remove` has no catch clause, so the exception escapes (`none` status) while
the volatile mirror clears, performed before the transaction, survive and the
persistent slot is rolled back. -/
def KVTreeState.remove (s : KVTreeState) (key : Bytes) (txFails : Bool) :
    Option KVStatus × KVTreeState :=
  match s.treeTop with
  | none => (some KVStatus.OK, s)
  | some t =>
    match leafSearchGo key t [] with
    | none => (some KVStatus.OK, s)
    | some (ln, path) =>
      match slotMatchScan ln.hashes ln.keys (PearsonHash key) key LEAF_KEYS with
      | none => (some KVStatus.OK, s)
      | some slot =>
        let ln2 := { ln with hashes := ln.hashes.set slot 0, keys := ln.keys.set slot ([] : Bytes) }
        let top2 := some (plugPath (KVNode.leafn ln2) path)
        if txFails then (none, { s with treeTop := top2 })
        else
          let pl := s.heap.getD ln.leaf KVLeaf.empty
          (some KVStatus.OK,
            { s with treeTop := top2
                     heap := s.heap.set ln.leaf
                       ⟨pl.slots.set slot ((pl.slots.getD slot KVSlot.empty).clear)⟩ })

/-! ## Recovery -/

/-- The `max_key` scan of `KVTree::Recover` over one leaf: slots in
decreasing index order; skip empty slots; keep the `key()` C-string that
every previously seen key compares `strcmp`-strictly below. -/
def recoverMaxKey (slots : List KVSlot) : Nat → Option Bytes → Option Bytes
  | 0, mk => mk
  | n + 1, mk =>
    let sl := slots.getD n KVSlot.empty
    if sl.hash = 0 then recoverMaxKey slots n mk
    else
      match mk with
      | none => recoverMaxKey slots n (some sl.keyCStr)
      | some m =>
        if bytesCmp m sl.keyCStr = Ordering.lt then recoverMaxKey slots n (some sl.keyCStr)
        else recoverMaxKey slots n mk

/-- The descriptor built by `KVTree::Recover` for one persistent leaf:
hashes mirrored from every slot; for nonzero slots the key mirror is assigned
from the `key()` `char*`, so it holds the stored key truncated at its first
zero byte; empty slots keep the default empty string. -/
def recoverLeafNode (lid : Nat) (pl : KVLeaf) : KVLeafNode :=
  { hashes := (List.range LEAF_KEYS).map (fun i => (pl.slots.getD i KVSlot.empty).hash)
    keys := (List.range LEAF_KEYS).map (fun i =>
      let sl := pl.slots.getD i KVSlot.empty
      if sl.hash = 0 then [] else sl.keyCStr)
    leaf := lid }

/-- The linked-list walk of `KVTree::Recover`: fully empty leaves are pushed
onto the free list (in chain order); each non-empty leaf yields a
recovered-leaf token `(descriptor, max_key)` (in chain order). -/
def recoverWalk (heap : List KVLeaf) (chain : List Nat) :
    List Nat × List (KVLeafNode × Bytes) :=
  chain.foldl (fun acc lid =>
    let pl := heap.getD lid KVLeaf.empty
    match recoverMaxKey pl.slots LEAF_KEYS none with
    | none => (acc.1 ++ [lid], acc.2)
    | some mk => (acc.1, acc.2 ++ [(recoverLeafNode lid pl, mk)])) ([], [])

mutual

/-- Descend to the rightmost leaf recording the path.  During the rebuild
loop of `KVTree::Recover` the most recently linked descriptor is the
rightmost leaf of the tree under construction, and its `parent` chain is
exactly this path. -/
def rightmostPath : KVNode → List Frame → KVNode × List Frame
  | KVNode.leafn ln, path => (KVNode.leafn ln, path)
  | KVNode.inner ks cs, path =>
    rightmostChild (KVNode.inner ks cs, path) cs (cs.length - 1)
      ({ keys := ks, children := cs, idx := cs.length - 1 } :: path)

/-- Fetch the last child and continue the descent there (falling back to the
given node if the child list is empty, which cannot happen on a well-formed
inner node). -/
def rightmostChild (dflt : KVNode × List Frame) : List KVNode → Nat → List Frame →
    KVNode × List Frame
  | [], _, _ => dflt
  | c :: _, 0, path => rightmostPath c path
  | _ :: cs, n + 1, path => rightmostChild dflt cs n path

end

/-- The rebuild loop of `KVTree::Recover`: for each subsequent recovered
leaf, invoke `InnerUpdateAfterSplit(prev_descriptor, next_descriptor,
prev.max_key)`, where `prev_descriptor` (with its `parent` chain) is the
rightmost leaf of the tree built so far. -/
def recoverBuild (t : KVNode) : Bytes → List (KVLeafNode × Bytes) → KVNode
  | _, [] => t
  | prevMk, (ln, mk) :: rest =>
    let pr := rightmostPath t []
    recoverBuild (innerUpdateAfterSplit pr.1 (KVNode.leafn ln) prevMk pr.2) mk rest

/-- `KVTree::Recover`: walk the persistent chain, sort the recovered-leaf
tokens ascending by `max_key` (`std::list::sort`, a stable merge sort, with
`strcmp < 0`), make the first descriptor `tree_top` and link each subsequent
descriptor with `InnerUpdateAfterSplit`. -/
def KVTreeState.recover (heap : List KVLeaf) (chain : List Nat) : KVTreeState :=
  let walk := recoverWalk heap chain
  let sorted := stableSort (fun a b => bytesCmp a.2 b.2 != Ordering.gt) walk.2
  match sorted with
  | [] => { heap := heap, chain := chain, treeTop := none, leavesPrealloc := walk.1 }
  | (ln0, mk0) :: rest =>
    { heap := heap, chain := chain,
      treeTop := some (recoverBuild (KVNode.leafn ln0) mk0 rest),
      leavesPrealloc := walk.1 }

/-! ## Basic facts about the comparisons -/

theorem bytesCmp_eq_iff : ∀ {a b : Bytes}, bytesCmp a b = Ordering.eq ↔ a = b := by
  intro a
  induction a with
  | nil => intro b; cases b <;> simp [bytesCmp]
  | cons x as ih =>
    intro b
    cases b with
    | nil => simp [bytesCmp]
    | cons y bs =>
      simp only [bytesCmp]
      rcases Nat.lt_trichotomy x y with h | h | h
      · simp [h, Nat.ne_of_lt h]
      · subst h; simp [Nat.lt_irrefl, ih]
      · rw [if_neg (Nat.lt_asymm h), if_pos h]; simp [Nat.ne_of_gt h]

theorem bytesCmp_self (a : Bytes) : bytesCmp a a = Ordering.eq := bytesCmp_eq_iff.2 rfl

theorem bytesCmp_gt_iff_lt : ∀ {a b : Bytes}, bytesCmp a b = Ordering.gt ↔ bytesCmp b a = Ordering.lt := by
  intro a
  induction a with
  | nil => intro b; cases b <;> simp [bytesCmp]
  | cons x as ih =>
    intro b
    cases b with
    | nil => simp [bytesCmp]
    | cons y bs =>
      simp only [bytesCmp]
      rcases Nat.lt_trichotomy x y with h | h | h
      · rw [if_pos h, if_neg (Nat.lt_asymm h), if_pos h]; simp
      · subst h; simp [Nat.lt_irrefl, ih]
      · rw [if_neg (Nat.lt_asymm h), if_pos h, if_pos h]; simp

theorem bytesCmp_lt_trans : ∀ {a b c : Bytes}, bytesCmp a b = Ordering.lt →
    bytesCmp b c = Ordering.lt → bytesCmp a c = Ordering.lt := by
  intro a
  induction a with
  | nil =>
    intro b c hab hbc
    cases b with
    | nil => exact hbc
    | cons y bs => cases c with
      | nil => simp [bytesCmp] at hbc
      | cons z cs => simp [bytesCmp]
  | cons x as ih =>
    intro b c hab hbc
    cases b with
    | nil => simp [bytesCmp] at hab
    | cons y bs =>
      cases c with
      | nil => simp [bytesCmp] at hbc
      | cons z cs =>
        simp only [bytesCmp] at hab hbc ⊢
        rcases Nat.lt_trichotomy x y with hxy | hxy | hxy
        · rcases Nat.lt_trichotomy y z with hyz | hyz | hyz
          · exact if_pos (Nat.lt_trans hxy hyz)
          · subst hyz; exact if_pos hxy
          · rw [if_neg (Nat.lt_asymm hyz), if_pos hyz] at hbc; exact absurd hbc (by simp)
        · subst hxy
          rcases Nat.lt_trichotomy x z with hyz | hyz | hyz
          · exact if_pos hyz
          · subst hyz
            rw [if_neg (Nat.lt_irrefl x), if_neg (Nat.lt_irrefl x)] at hab hbc ⊢
            exact ih hab hbc
          · rw [if_neg (Nat.lt_asymm hyz), if_pos hyz] at hbc; exact absurd hbc (by simp)
        · rw [if_neg (Nat.lt_asymm hxy), if_pos hxy] at hab; exact absurd hab (by simp)

theorem bytesCmp_le_trans {a b c : Bytes} (hab : bytesCmp a b ≠ Ordering.gt)
    (hbc : bytesCmp b c ≠ Ordering.gt) : bytesCmp a c ≠ Ordering.gt := by
  rcases hab2 : bytesCmp a b with h | h | h
  · rcases hbc2 : bytesCmp b c with h2 | h2 | h2
    · intro hca
      rw [bytesCmp_gt_iff_lt] at hca
      have : bytesCmp a a = Ordering.lt :=
        bytesCmp_lt_trans (bytesCmp_lt_trans hab2 hbc2) hca
      rw [bytesCmp_self] at this; exact absurd this (by simp)
    · rw [bytesCmp_eq_iff] at hbc2; subst hbc2; simp [hab2]
    · exact absurd hbc2 hbc
  · rw [bytesCmp_eq_iff] at hab2; subst hab2; exact hbc
  · exact absurd hab2 hab

theorem bytesCmp_lt_of_lt_of_le {a b c : Bytes} (hab : bytesCmp a b = Ordering.lt)
    (hbc : bytesCmp b c ≠ Ordering.gt) : bytesCmp a c = Ordering.lt := by
  rcases hbc2 : bytesCmp b c with h2 | h2 | h2
  · exact bytesCmp_lt_trans hab hbc2
  · rw [bytesCmp_eq_iff] at hbc2; subst hbc2; exact hab
  · exact absurd hbc2 hbc

theorem bytesCmp_lt_of_le_of_lt {a b c : Bytes} (hab : bytesCmp a b ≠ Ordering.gt)
    (hbc : bytesCmp b c = Ordering.lt) : bytesCmp a c = Ordering.lt := by
  rcases hab2 : bytesCmp a b with h2 | h2 | h2
  · exact bytesCmp_lt_trans hab2 hbc
  · rw [bytesCmp_eq_iff] at hab2; subst hab2; exact hbc
  · exact absurd hab2 hab

theorem bytesCmp_not_gt_of_lt {a b : Bytes} (h : bytesCmp a b = Ordering.lt) :
    bytesCmp a b ≠ Ordering.gt := by simp [h]

/-! ## C8: the Pearson hash -/

theorem pearsonLoop_eq_foldr (data : Bytes) :
    ∀ i, i ≤ data.length → ∀ h, pearsonLoop data i h =
      List.foldr (fun b hh => ptab (hh ^^^ b)) h (data.take i) := by
  intro i
  induction i with
  | zero => intro _ h; simp [pearsonLoop]
  | succ n ih =>
    intro hle h
    have hn : n < data.length := Nat.lt_of_succ_le hle
    rw [pearsonLoop, ih (Nat.le_of_lt hn), List.take_succ, List.getElem?_eq_getElem hn,
        List.foldr_append, List.getD_eq_getElem?_getD, List.getElem?_eq_getElem hn]
    simp

/-- C8: `PearsonHash` processes the input back-to-front (a right fold) through
the RFC 3074 lookup table starting from an initial hash of `len & 0xff`,
remaps a zero result to `1`, and is therefore nonzero on every key. -/
theorem C8_pearson_back_to_front_nonzero (data : Bytes) :
    PearsonHash data =
      (if List.foldr (fun b hh => ptab (hh ^^^ b)) (data.length % 256) data = 0 then 1
       else List.foldr (fun b hh => ptab (hh ^^^ b)) (data.length % 256) data) ∧
    PearsonHash data ≠ 0 := by
  have hl : pearsonLoop data data.length (data.length % 256) =
      List.foldr (fun b hh => ptab (hh ^^^ b)) (data.length % 256) data := by
    rw [pearsonLoop_eq_foldr data data.length (le_refl _), List.take_length]
  constructor
  · unfold PearsonHash
    rw [hl]
  · unfold PearsonHash
    by_cases h : pearsonLoop data data.length (data.length % 256) = 0 <;> simp [h]

/-- C10 (counterexample): on a store holding key `"k"` with the two-byte
value `"vv"`, the fixed-size-buffer `Get` with `limit = 2` returns `FAILED`,
which is neither `OK` nor `NOT_FOUND` — the claim that get returns only
OK / not-found is false for the buffer variant. -/
theorem C10_counterexample :
    ((KVTreeState.fresh.put [107] [118, 118] false).2.getCopy [107] 2).1 = KVStatus.FAILED ∧
    KVStatus.FAILED ≠ KVStatus.OK ∧ KVStatus.FAILED ≠ KVStatus.NOT_FOUND := by
  exact ⟨by decide, by decide, by decide⟩

/-- C10 (amended): the string-sink `Get` returns only `OK` or `NOT_FOUND`;
the fixed-size-buffer `Get` returns only `OK`, `NOT_FOUND`, or `FAILED` (the
latter when the stored value does not fit below the limit). -/
theorem C10_amended_get_statuses (s : KVTreeState) (key : Bytes) (limit : Nat) :
    ((s.getStr key).1 = KVStatus.OK ∨ (s.getStr key).1 = KVStatus.NOT_FOUND) ∧
    ((s.getCopy key limit).1 = KVStatus.OK ∨ (s.getCopy key limit).1 = KVStatus.NOT_FOUND ∨
      (s.getCopy key limit).1 = KVStatus.FAILED) := by
  constructor
  · unfold KVTreeState.getStr
    rcases s.treeTop with _ | t
    · simp
    · simp only
      rcases leafSearchGo key t [] with _ | ⟨ln, path⟩
      · simp
      · simp only
        rcases slotMatchScan ln.hashes ln.keys (PearsonHash key) key LEAF_KEYS with _ | slot <;>
          simp
  · unfold KVTreeState.getCopy
    rcases s.treeTop with _ | t
    · simp
    · simp only
      rcases leafSearchGo key t [] with _ | ⟨ln, path⟩
      · simp
      · simp only
        rcases slotMatchScan ln.hashes ln.keys (PearsonHash key) key LEAF_KEYS with _ | slot
        · simp
        · simp only
          split <;> simp

/-- C1 (counterexample): `put` of key `"k"` with value `[97, 0, 98]`
(an embedded zero byte) returns `OK`, but the immediately following `get`
returns `OK` with the value truncated at the zero byte
(`value->append(kv.val())` reads the value region as a C string), so the
delivered value is not byte-identical to the stored one. -/
theorem C1_counterexample :
    (KVTreeState.fresh.put [107] [97, 0, 98] false).1 = KVStatus.OK ∧
    ((KVTreeState.fresh.put [107] [97, 0, 98] false).2.getStr [107]) = (KVStatus.OK, [97]) ∧
    [97] ≠ ([97, 0, 98] : Bytes) := by
  exact ⟨by decide, by decide, by decide⟩

/-- C2 (evaluation of the code at the failing input): starting from a fresh
pool with `put("a","x")` applied, a `put("b","y")` whose transactional
`KVSlot::set` allocation fails returns `FAILED` and leaves the persistent
state (heap and chain) unchanged — but the volatile descriptor mirror has
been updated: a `get("b")`, which answered `NOT_FOUND` before the failed put,
now answers `OK` (reading the rolled-back empty slot).  Likewise a `remove("a")`
whose transaction fails does not return a status at all (`Remove` has no catch
clause, modelled as `none`), clears the volatile mirrors before the
transaction runs, and leaves the persistent slot intact — `get("a")` answers
`NOT_FOUND` although recovery from the untouched persistent image still
delivers the record. -/
theorem C2_failed_write_changes_volatile_state :
    ((KVTreeState.fresh.put [97] [120] false).2.put [98] [121] true).1 = KVStatus.FAILED ∧
    ((KVTreeState.fresh.put [97] [120] false).2.getStr [98]).1 = KVStatus.NOT_FOUND ∧
    (((KVTreeState.fresh.put [97] [120] false).2.put [98] [121] true).2.getStr [98]).1 =
      KVStatus.OK ∧
    ((KVTreeState.fresh.put [97] [120] false).2.put [98] [121] true).2.heap =
      (KVTreeState.fresh.put [97] [120] false).2.heap ∧
    ((KVTreeState.fresh.put [97] [120] false).2.put [98] [121] true).2.chain =
      (KVTreeState.fresh.put [97] [120] false).2.chain ∧
    ((KVTreeState.fresh.put [97] [120] false).2.remove [97] true).1 = none ∧
    (((KVTreeState.fresh.put [97] [120] false).2.remove [97] true).2.getStr [97]).1 =
      KVStatus.NOT_FOUND ∧
    ((KVTreeState.fresh.put [97] [120] false).2.remove [97] true).2.heap =
      (KVTreeState.fresh.put [97] [120] false).2.heap ∧
    (KVTreeState.recover ((KVTreeState.fresh.put [97] [120] false).2.remove [97] true).2.heap
        ((KVTreeState.fresh.put [97] [120] false).2.remove [97] true).2.chain).getStr [97] =
      (KVStatus.OK, [120]) := by
  exact ⟨by decide, by decide, by decide, by decide, by decide, by decide, by decide,
    by decide, by decide⟩

/-! ## List getD/set helper lemmas -/

theorem getD_set_self {α : Type} {l : List α} {i : Nat} {a d : α} (h : i < l.length) :
    (l.set i a).getD i d = a := by
  rw [List.getD_eq_getElem?_getD, List.getElem?_set_self h]
  rfl

theorem getD_set_ne {α : Type} {l : List α} {i j : Nat} {a d : α} (h : i ≠ j) :
    (l.set i a).getD j d = l.getD j d := by
  rw [List.getD_eq_getElem?_getD, List.getElem?_set_ne h, ← List.getD_eq_getElem?_getD]

/-! ## Sorting lemmas -/

theorem insertSorted_perm {α : Type} (le : α → α → Bool) (a : α) (l : List α) :
    (insertSorted le a l).Perm (a :: l) := by
  induction l with
  | nil => simp [insertSorted]
  | cons b bs ih =>
    unfold insertSorted
    split
    · exact (ih.cons b).trans (List.Perm.swap a b bs)
    · exact List.Perm.refl _

theorem pairwise_insertSorted {α : Type} {le : α → α → Bool}
    (trans : ∀ a b c, le a b = true → le b c = true → le a c = true)
    (total : ∀ a b, le a b = true ∨ le b a = true) (a : α) {l : List α}
    (hl : l.Pairwise (fun x y => le x y = true)) :
    (insertSorted le a l).Pairwise (fun x y => le x y = true) := by
  induction l with
  | nil => simp [insertSorted]
  | cons b bs ih =>
    rw [List.pairwise_cons] at hl
    obtain ⟨hb, hbs⟩ := hl
    unfold insertSorted
    split
    · rename_i hba
      refine List.pairwise_cons.2 ⟨?_, ih hbs⟩
      intro x hx
      have hx1 : x ∈ a :: bs := ((insertSorted_perm le a bs).mem_iff).1 hx
      rcases List.mem_cons.1 hx1 with rfl | hx2
      · exact hba
      · exact hb x hx2
    · rename_i hba
      have hab : le a b = true := by
        rcases total a b with h | h
        · exact h
        · exact absurd h hba
      refine List.pairwise_cons.2 ⟨?_, List.pairwise_cons.2 ⟨hb, hbs⟩⟩
      intro x hx
      rcases List.mem_cons.1 hx with rfl | hx2
      · exact hab
      · exact trans a b x hab (hb x hx2)

theorem stableSort_perm_aux {α : Type} (le : α → α → Bool) :
    ∀ (l acc : List α), (l.foldl (fun acc a => insertSorted le a acc) acc).Perm (acc ++ l) := by
  intro l
  induction l with
  | nil => intro acc; simp
  | cons a as ih =>
    intro acc
    have h1 := ih (insertSorted le a acc)
    have h2 : (insertSorted le a acc ++ as).Perm (acc ++ a :: as) := by
      have : (insertSorted le a acc).Perm (a :: acc) := insertSorted_perm le a acc
      exact (this.append_right as).trans (List.perm_middle.symm)
    exact (List.foldl_cons _ _ ▸ h1).trans h2

theorem stableSort_perm {α : Type} (le : α → α → Bool) (l : List α) :
    (stableSort le l).Perm l := by
  have := stableSort_perm_aux le l []
  simpa [stableSort] using this

theorem pairwise_stableSort {α : Type} {le : α → α → Bool}
    (trans : ∀ a b c, le a b = true → le b c = true → le a c = true)
    (total : ∀ a b, le a b = true ∨ le b a = true) (l : List α) :
    (stableSort le l).Pairwise (fun x y => le x y = true) := by
  have aux : ∀ (l acc : List α), acc.Pairwise (fun x y => le x y = true) →
      (l.foldl (fun acc a => insertSorted le a acc) acc).Pairwise
        (fun x y => le x y = true) := by
    intro l
    induction l with
    | nil => intro acc h; simpa using h
    | cons a as ih =>
      intro acc h
      exact ih _ (pairwise_insertSorted trans total a h)
  exact aux l [] List.Pairwise.nil

/-! ## Scan characterizations -/

theorem findEmptySlotScan_some {hs : List Nat} :
    ∀ {n i : Nat}, findEmptySlotScan hs n = some i →
      i < n ∧ hs.getD i 0 = 0 ∧ ∀ j, i < j → j < n → hs.getD j 0 ≠ 0 := by
  intro n
  induction n with
  | zero => intro i h; simp [findEmptySlotScan] at h
  | succ m ih =>
    intro i h
    unfold findEmptySlotScan at h
    split at h
    · rename_i hm
      cases h
      exact ⟨Nat.lt_succ_self m, hm, fun j hj1 hj2 => absurd (Nat.lt_of_lt_of_le hj1 (Nat.le_of_lt_succ hj2)) (Nat.lt_irrefl _ ∘ id)⟩
    · rename_i hm
      obtain ⟨h1, h2, h3⟩ := ih h
      refine ⟨Nat.lt_succ_of_lt h1, h2, fun j hj1 hj2 => ?_⟩
      by_cases hjm : j = m
      · subst hjm; exact hm
      · exact h3 j hj1 (Nat.lt_of_le_of_ne (Nat.le_of_lt_succ hj2) hjm)

theorem findEmptySlotScan_none {hs : List Nat} :
    ∀ {n : Nat}, findEmptySlotScan hs n = none → ∀ j < n, hs.getD j 0 ≠ 0 := by
  intro n
  induction n with
  | zero => intro h j hj; exact absurd hj (Nat.not_lt_zero j)
  | succ m ih =>
    intro h j hj
    unfold findEmptySlotScan at h
    split at h
    · exact absurd h (by simp)
    · rename_i hm
      by_cases hjm : j = m
      · subst hjm; exact hm
      · exact ih h j (Nat.lt_of_le_of_ne (Nat.le_of_lt_succ hj) hjm)

/-! ## The split move loop -/

/-- Well-formedness of the four-tuple threaded through the move loop: all
arrays have length `LEAF_KEYS`. -/
def moveStWF (st : KVLeafNode × KVLeafNode × KVLeaf × KVLeaf) : Prop :=
  st.1.hashes.length = LEAF_KEYS ∧ st.1.keys.length = LEAF_KEYS ∧
  st.2.1.hashes.length = LEAF_KEYS ∧ st.2.1.keys.length = LEAF_KEYS ∧
  st.2.2.1.slots.length = LEAF_KEYS ∧ st.2.2.2.slots.length = LEAF_KEYS

theorem splitMoveScan_wf (sk : Bytes) :
    ∀ (n : Nat) (st : KVLeafNode × KVLeafNode × KVLeaf × KVLeaf), moveStWF st →
      moveStWF (splitMoveScan sk n st) := by
  intro n
  induction n with
  | zero => intro st h; exact h
  | succ m ih =>
    intro st h
    obtain ⟨oldLn, newLn, oldPl, newPl⟩ := st
    unfold splitMoveScan
    split
    · apply ih
      simp only [moveStWF, List.length_set] at h ⊢
      exact h
    · exact ih _ h

theorem splitMoveScan_leaf_ids (sk : Bytes) :
    ∀ (n : Nat) (st : KVLeafNode × KVLeafNode × KVLeaf × KVLeaf),
      (splitMoveScan sk n st).1.leaf = st.1.leaf ∧
      (splitMoveScan sk n st).2.1.leaf = st.2.1.leaf := by
  intro n
  induction n with
  | zero => intro st; exact ⟨rfl, rfl⟩
  | succ m ih =>
    intro st
    obtain ⟨oldLn, newLn, oldPl, newPl⟩ := st
    unfold splitMoveScan
    split
    · exact ih _
    · exact ih _

/-- Indices not (or not yet) processed, and processed indices whose key does
not sort above the split key, are untouched by the move loop. -/
theorem splitMoveScan_stay (sk : Bytes) :
    ∀ (n : Nat) (st : KVLeafNode × KVLeafNode × KVLeaf × KVLeaf) (i : Nat),
      (n ≤ i ∨ cstrcmp (st.1.keys.getD i []) sk ≠ Ordering.gt) →
      (splitMoveScan sk n st).1.hashes.getD i 0 = st.1.hashes.getD i 0 ∧
      (splitMoveScan sk n st).1.keys.getD i [] = st.1.keys.getD i [] ∧
      (splitMoveScan sk n st).2.1.hashes.getD i 0 = st.2.1.hashes.getD i 0 ∧
      (splitMoveScan sk n st).2.1.keys.getD i [] = st.2.1.keys.getD i [] ∧
      (splitMoveScan sk n st).2.2.1.slots.getD i KVSlot.empty = st.2.2.1.slots.getD i KVSlot.empty ∧
      (splitMoveScan sk n st).2.2.2.slots.getD i KVSlot.empty = st.2.2.2.slots.getD i KVSlot.empty := by
  intro n
  induction n with
  | zero => intro st i _; exact ⟨rfl, rfl, rfl, rfl, rfl, rfl⟩
  | succ m ih =>
    intro st i hcond
    obtain ⟨oldLn, newLn, oldPl, newPl⟩ := st
    unfold splitMoveScan
    split
    · rename_i hgt
      by_cases him : i = m
      · subst him
        rcases hcond with hni | hcnd
        · exact absurd hni (Nat.not_succ_le_self i)
        · exact absurd hgt hcnd
      · have hstep := ih
          ({ oldLn with hashes := oldLn.hashes.set m 0, keys := oldLn.keys.set m ([] : Bytes) },
           { newLn with hashes := newLn.hashes.set m (oldLn.hashes.getD m 0),
                        keys := newLn.keys.set m (oldLn.keys.getD m []) },
           ⟨oldPl.slots.set m (newPl.slots.getD m KVSlot.empty)⟩,
           ⟨newPl.slots.set m (oldPl.slots.getD m KVSlot.empty)⟩) i ?_
        · obtain ⟨h1, h2, h3, h4, h5, h6⟩ := hstep
          simp only at h1 h2 h3 h4 h5 h6
          rw [h1, h2, h3, h4, h5, h6]
          rw [getD_set_ne (fun h => him h.symm), getD_set_ne (fun h => him h.symm),
              getD_set_ne (fun h => him h.symm), getD_set_ne (fun h => him h.symm),
              getD_set_ne (fun h => him h.symm), getD_set_ne (fun h => him h.symm)]
          exact ⟨rfl, rfl, rfl, rfl, rfl, rfl⟩
        · rcases hcond with hni | hcnd
          · exact Or.inl (Nat.le_of_succ_le hni)
          · refine Or.inr ?_
            rw [getD_set_ne (fun h => him h.symm)]
            exact hcnd
    · rename_i hgt
      by_cases him : i = m
      · subst him
        exact ih _ i (Or.inl (Nat.le_refl i))
      · apply ih
        rcases hcond with hni | hcnd
        · exact Or.inl (Nat.le_of_succ_le hni)
        · exact Or.inr hcnd

/-- Processed indices whose key sorts strictly above the split key: the
persistent slots of old and new leaf are swapped at the same index, the
hash/key mirrors are copied to the new descriptor, and the old mirrors are
cleared. -/
theorem splitMoveScan_moved (sk : Bytes) :
    ∀ (n : Nat) (st : KVLeafNode × KVLeafNode × KVLeaf × KVLeaf) (i : Nat),
      moveStWF st → n ≤ LEAF_KEYS → i < n →
      cstrcmp (st.1.keys.getD i []) sk = Ordering.gt →
      (splitMoveScan sk n st).1.hashes.getD i 0 = 0 ∧
      (splitMoveScan sk n st).1.keys.getD i [] = [] ∧
      (splitMoveScan sk n st).2.1.hashes.getD i 0 = st.1.hashes.getD i 0 ∧
      (splitMoveScan sk n st).2.1.keys.getD i [] = st.1.keys.getD i [] ∧
      (splitMoveScan sk n st).2.2.1.slots.getD i KVSlot.empty = st.2.2.2.slots.getD i KVSlot.empty ∧
      (splitMoveScan sk n st).2.2.2.slots.getD i KVSlot.empty = st.2.2.1.slots.getD i KVSlot.empty := by
  intro n
  induction n with
  | zero => intro st i _ _ hi; exact absurd hi (Nat.not_lt_zero i)
  | succ m ih =>
    intro st i hwf hn hi hgt
    obtain ⟨oldLn, newLn, oldPl, newPl⟩ := st
    obtain ⟨w1, w2, w3, w4, w5, w6⟩ := hwf
    simp only at w1 w2 w3 w4 w5 w6
    by_cases him : i = m
    · subst him
      unfold splitMoveScan
      rw [if_pos hgt]
      have hstay := splitMoveScan_stay sk i
        ({ oldLn with hashes := oldLn.hashes.set i 0, keys := oldLn.keys.set i ([] : Bytes) },
         { newLn with hashes := newLn.hashes.set i (oldLn.hashes.getD i 0),
                      keys := newLn.keys.set i (oldLn.keys.getD i []) },
         ⟨oldPl.slots.set i (newPl.slots.getD i KVSlot.empty)⟩,
         ⟨newPl.slots.set i (oldPl.slots.getD i KVSlot.empty)⟩) i (Or.inl (Nat.le_refl i))
      obtain ⟨h1, h2, h3, h4, h5, h6⟩ := hstay
      simp only at h1 h2 h3 h4 h5 h6
      rw [h1, h2, h3, h4, h5, h6]
      have hiL : i < LEAF_KEYS := Nat.lt_of_lt_of_le hi hn
      refine ⟨?_, ?_, ?_, ?_, ?_, ?_⟩
      · rw [getD_set_self (by rw [w1]; exact hiL)]
      · rw [getD_set_self (by rw [w2]; exact hiL)]
      · rw [getD_set_self (by rw [w3]; exact hiL)]
      · rw [getD_set_self (by rw [w4]; exact hiL)]
      · rw [getD_set_self (by rw [w5]; exact hiL)]
      · rw [getD_set_self (by rw [w6]; exact hiL)]
    · have hi2 : i < m := Nat.lt_of_le_of_ne (Nat.le_of_lt_succ hi) him
      unfold splitMoveScan
      split
      · rename_i hgtm
        have hstep := ih
          ({ oldLn with hashes := oldLn.hashes.set m 0, keys := oldLn.keys.set m ([] : Bytes) },
           { newLn with hashes := newLn.hashes.set m (oldLn.hashes.getD m 0),
                        keys := newLn.keys.set m (oldLn.keys.getD m []) },
           ⟨oldPl.slots.set m (newPl.slots.getD m KVSlot.empty)⟩,
           ⟨newPl.slots.set m (oldPl.slots.getD m KVSlot.empty)⟩) i
          (by
            simp only [moveStWF, List.length_set]
            exact ⟨w1, w2, w3, w4, w5, w6⟩)
          (Nat.le_of_succ_le hn) hi2
          (by
            simp only
            rw [getD_set_ne (fun h => him h.symm)]
            exact hgt)
        obtain ⟨h1, h2, h3, h4, h5, h6⟩ := hstep
        simp only at h1 h2 h3 h4 h5 h6
        rw [h1, h2, h3, h4, h5, h6]
        rw [getD_set_ne (fun h => him h.symm), getD_set_ne (fun h => him h.symm),
            getD_set_ne (fun h => him h.symm), getD_set_ne (fun h => him h.symm)]
        exact ⟨rfl, rfl, rfl, rfl, rfl, rfl⟩
      · exact ih _ i ⟨w1, w2, w3, w4, w5, w6⟩ (Nat.le_of_succ_le hn) hi2 hgt

theorem ordNeGt {o : Ordering} : (o != Ordering.gt) = true ↔ o ≠ Ordering.gt := by
  cases o <;> decide

theorem cstrcmp_le_trans {a b c : Bytes} (hab : cstrcmp a b ≠ Ordering.gt)
    (hbc : cstrcmp b c ≠ Ordering.gt) : cstrcmp a c ≠ Ordering.gt := by
  unfold cstrcmp at hab hbc ⊢
  exact bytesCmp_le_trans hab hbc

theorem cstrcmp_gt_iff_lt {a b : Bytes} :
    cstrcmp a b = Ordering.gt ↔ cstrcmp b a = Ordering.lt := by
  unfold cstrcmp
  exact bytesCmp_gt_iff_lt

theorem cstrcmp_eq_iff {a b : Bytes} : cstrcmp a b = Ordering.eq ↔ cstr a = cstr b := by
  unfold cstrcmp
  exact bytesCmp_eq_iff

/-! ## C3: the leaf split -/

/-- The conclusion of claim C3, about the split of a full leaf with
descriptor `ln`, backing persistent leaf `oldPl`, new persistent leaf `newPl`
(with descriptor identifier `lid`), new record `(key, value)` with hash `h`:
the split key is the lower median of the sorted candidates, exactly the slots
with keys strictly above it are moved, and the new record goes to the new
leaf iff `key` sorts strictly above the split key, at the first empty slot of
the decreasing-index scan. -/
def C3Conclusion (ln : KVLeafNode) (oldPl newPl : KVLeaf) (lid h : Nat)
    (key value : Bytes) : Prop :=
  let sk := (splitCandidates ln key).getD LEAF_KEYS_MIDPOINT []
  let newLn0 : KVLeafNode :=
    { hashes := List.replicate LEAF_KEYS 0, keys := List.replicate LEAF_KEYS [], leaf := lid }
  let r := splitMoveScan sk LEAF_KEYS (ln, newLn0, oldPl, newPl)
  ((splitCandidates ln key).Perm (ln.keys ++ [key]) ∧
    (splitCandidates ln key).Pairwise (fun a b => cstrcmp a b ≠ Ordering.gt) ∧
    sk = (splitCandidates ln key).getD LEAF_KEYS_MIDPOINT []) ∧
  (∀ i, i < LEAF_KEYS →
    (cstrcmp (ln.keys.getD i []) sk = Ordering.gt →
      r.1.hashes.getD i 0 = 0 ∧ r.1.keys.getD i [] = [] ∧
      r.2.1.hashes.getD i 0 = ln.hashes.getD i 0 ∧
      r.2.1.keys.getD i [] = ln.keys.getD i [] ∧
      r.2.2.1.slots.getD i KVSlot.empty = newPl.slots.getD i KVSlot.empty ∧
      r.2.2.2.slots.getD i KVSlot.empty = oldPl.slots.getD i KVSlot.empty) ∧
    (cstrcmp (ln.keys.getD i []) sk ≠ Ordering.gt →
      r.1.hashes.getD i 0 = ln.hashes.getD i 0 ∧
      r.1.keys.getD i [] = ln.keys.getD i [] ∧
      r.2.1.hashes.getD i 0 = 0 ∧ r.2.1.keys.getD i [] = [] ∧
      r.2.2.1.slots.getD i KVSlot.empty = oldPl.slots.getD i KVSlot.empty ∧
      r.2.2.2.slots.getD i KVSlot.empty = newPl.slots.getD i KVSlot.empty)) ∧
  (∀ slot,
    findEmptySlotScan (if cstrcmp key sk = Ordering.gt then r.2.1 else r.1).hashes
        LEAF_KEYS = some slot →
      (if cstrcmp key sk = Ordering.gt then r.2.1 else r.1).hashes.getD slot 0 = 0 ∧
      (∀ j, slot < j → j < LEAF_KEYS →
        (if cstrcmp key sk = Ordering.gt then r.2.1 else r.1).hashes.getD j 0 ≠ 0) ∧
      ∀ tpl : KVLeaf,
        leafFillEmptySlot (if cstrcmp key sk = Ordering.gt then r.2.1 else r.1) tpl
            h key value =
          leafFillSpecificSlot (if cstrcmp key sk = Ordering.gt then r.2.1 else r.1) tpl
            h key value slot)

/-- C3: for a put that splits a full leaf, the split key is the lower median
(index `LEAF_KEYS_MIDPOINT`) of the sorted `LEAF_KEYS + 1` candidate keys;
exactly the old slots whose key sorts strictly above the split key (under the
`strcmp` comparator the code uses throughout) move to the new leaf at the
same slot index with their hash/key mirrors copied and the old mirrors
cleared; and the new record is placed in the new leaf iff the new key sorts
strictly above the split key, at the first empty slot found scanning slots in
decreasing index order. -/
theorem C3_leaf_split (ln : KVLeafNode) (oldPl newPl : KVLeaf) (lid h : Nat)
    (key value : Bytes)
    (hk : ln.keys.length = LEAF_KEYS) (hh : ln.hashes.length = LEAF_KEYS)
    (ho : oldPl.slots.length = LEAF_KEYS) (hn : newPl.slots.length = LEAF_KEYS) :
    C3Conclusion ln oldPl newPl lid h key value := by
  unfold C3Conclusion
  set sk := (splitCandidates ln key).getD LEAF_KEYS_MIDPOINT [] with hsk
  have hwf : moveStWF (ln,
      ({ hashes := List.replicate LEAF_KEYS 0, keys := List.replicate LEAF_KEYS [],
         leaf := lid } : KVLeafNode), oldPl, newPl) := by
    refine ⟨hh, hk, ?_, ?_, ho, hn⟩ <;> simp
  refine ⟨⟨?_, ?_, rfl⟩, ?_, ?_⟩
  · show (splitCandidates ln key).Perm (ln.keys ++ [key])
    unfold splitCandidates
    rw [← hk, List.take_length]
    exact stableSort_perm _ _
  · have hp := @pairwise_stableSort Bytes (fun a b => cstrcmp a b != Ordering.gt)
      (fun a b c hab hbc => by
        have hab2 : cstrcmp a b ≠ Ordering.gt := ordNeGt.1 hab
        have hbc2 : cstrcmp b c ≠ Ordering.gt := ordNeGt.1 hbc
        show (cstrcmp a c != Ordering.gt) = true
        rw [ordNeGt]
        exact cstrcmp_le_trans hab2 hbc2)
      (fun a b => by
        by_cases hab : cstrcmp a b = Ordering.gt
        · right
          show (cstrcmp b a != Ordering.gt) = true
          rw [cstrcmp_gt_iff_lt.1 hab]
          decide
        · left
          show (cstrcmp a b != Ordering.gt) = true
          rw [ordNeGt]
          exact hab)
      (ln.keys.take LEAF_KEYS ++ [key])
    exact hp.imp (by intro a b hab; exact ordNeGt.1 hab)
  · intro i hi
    constructor
    · intro hgt
      exact splitMoveScan_moved sk LEAF_KEYS _ i hwf (Nat.le_refl _) hi hgt
    · intro hng
      have hstay := splitMoveScan_stay sk LEAF_KEYS
        (ln, ({ hashes := List.replicate LEAF_KEYS 0, keys := List.replicate LEAF_KEYS [],
                leaf := lid } : KVLeafNode), oldPl, newPl) i (Or.inr hng)
      obtain ⟨h1, h2, h3, h4, h5, h6⟩ := hstay
      refine ⟨h1, h2, ?_, ?_, h5, h6⟩
      · rw [h3]; simp
      · rw [h4]; simp
  · intro slot hslot
    obtain ⟨hs1, hs2, hs3⟩ := findEmptySlotScan_some hslot
    refine ⟨hs2, hs3, ?_⟩
    intro tpl
    unfold leafFillEmptySlot
    rw [hslot]

/-- Witness for C3 at a concrete full leaf (48 distinct single-byte keys). -/
theorem C3_witness :
    (let ln : KVLeafNode :=
      { hashes := List.replicate LEAF_KEYS 1,
        keys := (List.range LEAF_KEYS).map (fun i => [i + 1]),
        leaf := 0 }
     ln.keys.length = LEAF_KEYS ∧ ln.hashes.length = LEAF_KEYS ∧
     KVLeaf.empty.slots.length = LEAF_KEYS ∧
     C3Conclusion ln KVLeaf.empty KVLeaf.empty 1 7 [200] [9]) := by
  refine ⟨by decide, by decide, by decide, ?_⟩
  exact C3_leaf_split _ _ _ 1 7 [200] [9] (by decide) (by decide) (by decide) (by decide)

/-! ## C7: leaf search and the point lookup -/

/-- A slot of the descriptor matches the lookup for `key` with hash `h`:
mirrored hash equal and mirrored key `strcmp`-equal. -/
def slotMatches (ln : KVLeafNode) (h : Nat) (key : Bytes) (j : Nat) : Prop :=
  ln.hashes.getD j 0 = h ∧ cstrcmp (ln.keys.getD j []) key = Ordering.eq

instance (ln : KVLeafNode) (h : Nat) (key : Bytes) (j : Nat) :
    Decidable (slotMatches ln h key j) := by
  unfold slotMatches
  infer_instance

theorem slotMatchScan_some {hashes : List Nat} {keys : List Bytes} {h : Nat} {key : Bytes} :
    ∀ {n i : Nat}, slotMatchScan hashes keys h key n = some i →
      i < n ∧ hashes.getD i 0 = h ∧ cstrcmp (keys.getD i []) key = Ordering.eq ∧
      ∀ j, i < j → j < n →
        ¬(hashes.getD j 0 = h ∧ cstrcmp (keys.getD j []) key = Ordering.eq) := by
  intro n
  induction n with
  | zero => intro i hsc; simp [slotMatchScan] at hsc
  | succ m ih =>
    intro i hsc
    unfold slotMatchScan at hsc
    split at hsc
    · rename_i hm
      cases hsc
      exact ⟨Nat.lt_succ_self m, hm.1, hm.2, fun j hj1 hj2 =>
        absurd (Nat.lt_of_lt_of_le hj1 (Nat.le_of_lt_succ hj2)) (Nat.lt_irrefl _ ∘ id)⟩
    · rename_i hm
      obtain ⟨h1, h2, h3, h4⟩ := ih hsc
      refine ⟨Nat.lt_succ_of_lt h1, h2, h3, fun j hj1 hj2 => ?_⟩
      by_cases hjm : j = m
      · subst hjm; exact hm
      · exact h4 j hj1 (Nat.lt_of_le_of_ne (Nat.le_of_lt_succ hj2) hjm)

theorem slotMatchScan_none {hashes : List Nat} {keys : List Bytes} {h : Nat} {key : Bytes} :
    ∀ {n : Nat}, slotMatchScan hashes keys h key n = none →
      ∀ j < n, ¬(hashes.getD j 0 = h ∧ cstrcmp (keys.getD j []) key = Ordering.eq) := by
  intro n
  induction n with
  | zero => intro _ j hj; exact absurd hj (Nat.not_lt_zero j)
  | succ m ih =>
    intro hsc j hj
    unfold slotMatchScan at hsc
    split at hsc
    · exact absurd hsc (by simp)
    · rename_i hm
      by_cases hjm : j = m
      · subst hjm; exact hm
      · exact ih hsc j (Nat.lt_of_le_of_ne (Nat.le_of_lt_succ hj) hjm)

theorem innerChildIdx_spec (ks : List Bytes) (key : Bytes) :
    innerChildIdx ks key ≤ ks.length ∧
    (∀ j, j < innerChildIdx ks key → cstrcmp key (ks.getD j []) = Ordering.gt) ∧
    (innerChildIdx ks key < ks.length →
      cstrcmp key (ks.getD (innerChildIdx ks key) []) ≠ Ordering.gt) := by
  induction ks with
  | nil => exact ⟨Nat.le_refl 0, fun j hj => absurd hj (by simp [innerChildIdx]), by simp⟩
  | cons k ks ih =>
    unfold innerChildIdx at ih ⊢
    rw [List.findIdx_cons]
    by_cases hk : cstrcmp key k ≠ Ordering.gt
    · have : (cstrcmp key k != Ordering.gt) = true := ordNeGt.2 hk
      rw [this]
      simp only [cond_true]
      exact ⟨Nat.zero_le _, fun j hj => absurd hj (Nat.not_lt_zero j), fun _ => hk⟩
    · have hk2 : cstrcmp key k = Ordering.gt := not_not.1 hk
      have : (cstrcmp key k != Ordering.gt) = false := by rw [hk2]; decide
      rw [this]
      simp only [cond_false]
      obtain ⟨ih1, ih2, ih3⟩ := ih
      refine ⟨Nat.succ_le_succ ih1, ?_, ?_⟩
      · intro j hj
        cases j with
        | zero => exact hk2
        | succ jj => exact ih2 jj (Nat.lt_of_succ_lt_succ hj)
      · intro hlt
        exact ih3 (Nat.lt_of_succ_lt_succ hlt)

theorem leafSearchChild_eq (key : Bytes) :
    ∀ (cs : List KVNode) (idx : Nat) (path : List Frame), idx < cs.length →
      ∃ c, cs.get? idx = some c ∧ leafSearchChild key cs idx path = leafSearchGo key c path := by
  intro cs
  induction cs with
  | nil => intro idx path hidx; exact absurd hidx (by simp)
  | cons c cs ih =>
    intro idx path hidx
    cases idx with
    | zero => exact ⟨c, rfl, rfl⟩
    | succ j =>
      obtain ⟨c2, hc2, he⟩ := ih j path (Nat.lt_of_succ_lt_succ hidx)
      exact ⟨c2, hc2, he⟩

mutual

/-- Structural well-formedness of a volatile tree node: every inner node has
`key_count + 1` children. -/
def nodeShapeWF : KVNode → Bool
  | KVNode.leafn _ => true
  | KVNode.inner ks cs => (cs.length == ks.length + 1) && forestShapeWF cs

/-- Structural well-formedness of a list of children. -/
def forestShapeWF : List KVNode → Bool
  | [] => true
  | c :: cs => nodeShapeWF c && forestShapeWF cs

end

theorem forestShapeWF_mem : ∀ {cs : List KVNode}, forestShapeWF cs = true →
    ∀ {c : KVNode}, c ∈ cs → nodeShapeWF c = true := by
  intro cs
  induction cs with
  | nil => intro _ c hc; exact absurd hc (List.not_mem_nil c)
  | cons d ds ih =>
    intro hf c hc
    rw [forestShapeWF, Bool.and_eq_true] at hf
    rcases List.mem_cons.1 hc with rfl | hc2
    · exact hf.1
    · exact ih hf.2 hc2

/-- On a structurally well-formed tree, `LeafSearch` always reaches a leaf. -/
theorem leafSearch_total (key : Bytes) (t : KVNode) (hwf : nodeShapeWF t = true)
    (path : List Frame) : ∃ ln path2, leafSearchGo key t path = some (ln, path2) :=
  match t, hwf with
  | KVNode.leafn ln, _ => ⟨ln, path, rfl⟩
  | KVNode.inner ks cs, hwf => by
    rw [nodeShapeWF, Bool.and_eq_true, beq_iff_eq] at hwf
    obtain ⟨hlen, hforest⟩ := hwf
    have hidx : innerChildIdx ks key < cs.length := by
      rw [hlen]
      exact Nat.lt_succ_of_le (innerChildIdx_spec ks key).1
    obtain ⟨c, hc, he⟩ := leafSearchChild_eq key cs (innerChildIdx ks key)
      ({ keys := ks, children := cs, idx := innerChildIdx ks key } :: path) hidx
    have hcwf : nodeShapeWF c = true := forestShapeWF_mem hforest (List.get?_mem hc)
    obtain ⟨ln2, p2, hp⟩ := leafSearch_total key c hcwf
      ({ keys := ks, children := cs, idx := innerChildIdx ks key } :: path)
    refine ⟨ln2, p2, ?_⟩
    rw [leafSearchGo, he, hp]
termination_by sizeOf t
decreasing_by
  have hmem := List.sizeOf_lt_of_mem (List.get?_mem hc)
  simp only [KVNode.inner.sizeOf_spec]
  omega

/-- C7 (counterexample): keys `"a" = [97]` and `[97, 0, 226]` are
`strcmp`-equal and have the same Pearson hash (20).  After storing only
`"a"`, `get([97,0,226])` returns `OK` with `"a"`'s value although no stored
key is byte-identical to the search key — the slot comparison is a C-string
comparison, not byte-for-byte. -/
theorem C7_counterexample :
    ((KVTreeState.fresh.put [97] [120] false).2.getStr [97, 0, 226]) =
      (KVStatus.OK, [120]) ∧
    PearsonHash [97, 0, 226] = PearsonHash [97] ∧
    (∀ j, j < LEAF_KEYS →
      (((KVTreeState.fresh.put [97] [120] false).2.heap.getD 0 KVLeaf.empty).slots.getD j
          KVSlot.empty).kv = none ∨
      ((((KVTreeState.fresh.put [97] [120] false).2.heap.getD 0 KVLeaf.empty).slots.getD j
          KVSlot.empty).kv.getD []).take
        (((KVTreeState.fresh.put [97] [120] false).2.heap.getD 0 KVLeaf.empty).slots.getD j
          KVSlot.empty).ks ≠ [97, 0, 226]) := by
  exact ⟨by decide, by decide, by decide⟩

/-- The conclusion of the amended claim C7: `Get` returns not-found on a null
tree; the descent takes, at each inner node, the first child (in ascending
index order) whose separator key is `strcmp`-greater-or-equal to the search
key, and `children[key_count]` if none qualifies; the search always reaches a
leaf of a structurally well-formed tree; and `Get` then returns not-found iff
no slot of the reached leaf has both a mirrored hash equal to `hash(K)` and a
mirrored key `strcmp`-equal to `K`. -/
def C7Conclusion (s : KVTreeState) (key : Bytes) : Prop :=
  (s.treeTop = none → s.getStr key = (KVStatus.NOT_FOUND, [])) ∧
  (∀ ks cs path,
    (∀ j, j < innerChildIdx ks key → cstrcmp key (ks.getD j []) = Ordering.gt) ∧
    (innerChildIdx ks key < ks.length →
      cstrcmp key (ks.getD (innerChildIdx ks key) []) ≠ Ordering.gt) ∧
    (innerChildIdx ks key < cs.length →
      ∃ c, cs.get? (innerChildIdx ks key) = some c ∧
        leafSearchGo key (KVNode.inner ks cs) path =
          leafSearchGo key c
            ({ keys := ks, children := cs, idx := innerChildIdx ks key } :: path))) ∧
  (∀ t, s.treeTop = some t → nodeShapeWF t = true →
    ∃ ln path, leafSearchGo key t [] = some (ln, path)) ∧
  (∀ t ln path, s.treeTop = some t → leafSearchGo key t [] = some (ln, path) →
    ((s.getStr key).1 = KVStatus.NOT_FOUND ↔
      ∀ j, j < LEAF_KEYS → ¬slotMatches ln (PearsonHash key) key j))

/-- C7 (amended): the leaf search and point-lookup characterization, with the
slot comparison corrected from byte-for-byte to C-string (`strcmp`)
comparison. -/
theorem C7_amended_leaf_search (s : KVTreeState) (key : Bytes) : C7Conclusion s key := by
  refine ⟨?_, ?_, ?_, ?_⟩
  · intro htop
    unfold KVTreeState.getStr
    rw [htop]
  · intro ks cs path
    obtain ⟨h1, h2, h3⟩ := innerChildIdx_spec ks key
    refine ⟨h2, h3, ?_⟩
    intro hlt
    obtain ⟨c, hc, he⟩ := leafSearchChild_eq key cs (innerChildIdx ks key)
      ({ keys := ks, children := cs, idx := innerChildIdx ks key } :: path) hlt
    refine ⟨c, hc, ?_⟩
    rw [leafSearchGo, he]
  · intro t htop hwf
    exact leafSearch_total key t hwf []
  · intro t ln path htop hsearch
    unfold KVTreeState.getStr
    rw [htop]
    simp only [hsearch]
    rcases hscan : slotMatchScan ln.hashes ln.keys (PearsonHash key) key LEAF_KEYS with _ | i
    · simp only
      constructor
      · intro _ j hj
        exact slotMatchScan_none hscan j hj
      · intro _; trivial
    · simp only
      constructor
      · intro hcon; exact absurd hcon (by simp)
      · intro hnone
        obtain ⟨hi1, hi2, hi3, _⟩ := slotMatchScan_some hscan
        exact absurd ⟨hi2, hi3⟩ (hnone i hi1)

/-! ## Leaf collection and path plugging -/

mutual

/-- All leaf descriptors of a tree, left to right. -/
def treeLeaves : KVNode → List KVLeafNode
  | KVNode.leafn ln => [ln]
  | KVNode.inner _ cs => forestLeaves cs

/-- All leaf descriptors of a list of children, left to right. -/
def forestLeaves : List KVNode → List KVLeafNode
  | [] => []
  | c :: cs => treeLeaves c ++ forestLeaves cs

end

theorem forestLeaves_append :
    ∀ (a b : List KVNode), forestLeaves (a ++ b) = forestLeaves a ++ forestLeaves b := by
  intro a
  induction a with
  | nil => intro b; rfl
  | cons c cs ih =>
    intro b
    rw [List.cons_append, forestLeaves, forestLeaves, ih, List.append_assoc]

theorem forestLeaves_set (cs : List KVNode) :
    ∀ (i : Nat) (c : KVNode), cs.get? i = some c →
      ∃ pre post, forestLeaves cs = pre ++ treeLeaves c ++ post ∧
        ∀ n, forestLeaves (cs.set i n) = pre ++ treeLeaves n ++ post := by
  induction cs with
  | nil => intro i c hc; simp at hc
  | cons d ds ih =>
    intro i c hc
    cases i with
    | zero =>
      cases hc
      refine ⟨[], forestLeaves ds, by rw [forestLeaves]; simp, ?_⟩
      intro n
      rw [List.set_cons_zero, forestLeaves]
      simp
    | succ j =>
      obtain ⟨pre, post, h1, h2⟩ := ih j c hc
      refine ⟨treeLeaves d ++ pre, post, ?_, ?_⟩
      · rw [forestLeaves, h1]
        simp [List.append_assoc]
      · intro n
        rw [List.set_cons_succ, forestLeaves, h2]
        simp [List.append_assoc]

theorem forestLeaves_insertIdx :
    ∀ (cs : List KVNode) (i : Nat) (n : KVNode), i ≤ cs.length →
      (forestLeaves (cs.insertIdx i n)).Perm (treeLeaves n ++ forestLeaves cs) := by
  intro cs
  induction cs with
  | nil =>
    intro i n hi
    have hz : i = 0 := Nat.le_zero.1 hi
    subst hz
    rw [List.insertIdx_zero]
    simp [forestLeaves]
  | cons d ds ih =>
    intro i n hi
    cases i with
    | zero =>
      rw [List.insertIdx_zero, forestLeaves]
    | succ j =>
      have hj : j ≤ ds.length := Nat.le_of_succ_le_succ hi
      rw [List.insertIdx_succ_cons, forestLeaves, forestLeaves]
      have h1 := (ih j n hj).append_left (treeLeaves d)
      have h2 : (treeLeaves d ++ (treeLeaves n ++ forestLeaves ds)).Perm
          (treeLeaves n ++ (treeLeaves d ++ forestLeaves ds)) := by
        rw [← List.append_assoc, ← List.append_assoc]
        exact List.perm_append_comm.append_right _
      exact h1.trans h2

theorem set_get?_self {α : Type} : ∀ (l : List α) (i : Nat) (c : α),
    l.get? i = some c → l.set i c = l := by
  intro l
  induction l with
  | nil => intro i c hc; simp at hc
  | cons d ds ih =>
    intro i c hc
    cases i with
    | zero => cases hc; rw [List.set_cons_zero]
    | succ j => rw [List.set_cons_succ, ih j c hc]

theorem set_get?_some {α : Type} : ∀ (l : List α) (i : Nat) (c x : α),
    l.get? i = some c → (l.set i x).get? i = some x := by
  intro l
  induction l with
  | nil => intro i c x hc; simp at hc
  | cons d ds ih =>
    intro i c x hc
    cases i with
    | zero => rfl
    | succ j => exact ih j c x hc

theorem leafSearchChild_some (key : Bytes) :
    ∀ (cs : List KVNode) (idx : Nat) (path : List Frame) (ln : KVLeafNode) (p : List Frame),
      leafSearchChild key cs idx path = some (ln, p) →
      idx < cs.length ∧ ∃ c, cs.get? idx = some c ∧ leafSearchGo key c path = some (ln, p) := by
  intro cs
  induction cs with
  | nil => intro idx path ln p hs; cases idx <;> simp [leafSearchChild] at hs
  | cons d ds ih =>
    intro idx path ln p hs
    cases idx with
    | zero => exact ⟨Nat.succ_pos _, d, rfl, hs⟩
    | succ j =>
      obtain ⟨h1, c, hc, he⟩ := ih j path ln p hs
      exact ⟨Nat.succ_lt_succ h1, c, hc, he⟩

/-- The path recorded by a successful search: it extends the starting path
with frames independent of it, each frame's distinguished index is in range,
and plugging the found leaf back into the recorded frames rebuilds the
original tree. -/
theorem leafSearchGo_shape (key : Bytes) (t : KVNode) :
    ∀ (path0 : List Frame) (ln : KVLeafNode) (p : List Frame),
      leafSearchGo key t path0 = some (ln, p) →
      ∃ fs, p = fs ++ path0 ∧
        (∀ path1, leafSearchGo key t path1 = some (ln, fs ++ path1)) ∧
        (∀ f ∈ fs, f.idx < f.children.length) ∧
        plugPath (KVNode.leafn ln) fs = t :=
  match t with
  | KVNode.leafn ln0 => by
    intro path0 ln p hs
    rw [leafSearchGo] at hs
    cases hs
    exact ⟨[], rfl, fun path1 => rfl, fun f hf => absurd hf (List.not_mem_nil f), rfl⟩
  | KVNode.inner ks cs => by
    intro path0 ln p hs
    rw [leafSearchGo] at hs
    obtain ⟨hidx, c, hc, he⟩ := leafSearchChild_some key cs (innerChildIdx ks key) _ ln p hs
    obtain ⟨fs, hfs1, hfs2, hfs3, hfs4⟩ := leafSearchGo_shape key c _ ln p he
    refine ⟨fs ++ [{ keys := ks, children := cs, idx := innerChildIdx ks key }],
      by rw [hfs1, List.append_assoc]; rfl, ?_, ?_, ?_⟩
    · intro path1
      rw [leafSearchGo]
      obtain ⟨c2, hc2, he2⟩ := leafSearchChild_eq key cs (innerChildIdx ks key)
        ({ keys := ks, children := cs, idx := innerChildIdx ks key } :: path1) hidx
      rw [hc] at hc2
      cases hc2
      rw [he2, hfs2, List.append_assoc]
      rfl
    · intro f hf
      rcases List.mem_append.1 hf with hf2 | hf2
      · exact hfs3 f hf2
      · rcases List.mem_singleton.1 hf2 with rfl
        exact hidx
    · rw [plugPath, List.foldl_append]
      have hfold : List.foldl plugFrame (KVNode.leafn ln) fs = c := hfs4
      rw [hfold]
      show plugFrame c { keys := ks, children := cs, idx := innerChildIdx ks key } =
        KVNode.inner ks cs
      rw [plugFrame]
      rw [set_get?_self cs (innerChildIdx ks key) c hc]
termination_by sizeOf t
decreasing_by
  have hmem := List.sizeOf_lt_of_mem (List.get?_mem hc)
  simp only [KVNode.inner.sizeOf_spec]
  omega

/-- The leaves of a tree rebuilt by plugging any subtree into a fixed frame
path: a fixed prefix and suffix surround the subtree's leaves. -/
theorem plugPath_leaves :
    ∀ (fs : List Frame), (∀ f ∈ fs, f.idx < f.children.length) →
      ∃ pre post, ∀ n, treeLeaves (plugPath n fs) = pre ++ treeLeaves n ++ post := by
  intro fs
  induction fs with
  | nil => exact fun _ => ⟨[], [], fun n => by rw [plugPath]; simp⟩
  | cons f rest ih =>
    intro hwf
    have hidx : f.idx < f.children.length := hwf f (List.mem_cons_self f rest)
    have hc : ∃ c, f.children.get? f.idx = some c := by
      rw [List.get?_eq_getElem?]
      exact ⟨f.children[f.idx], List.getElem?_eq_getElem hidx⟩
    obtain ⟨c, hc⟩ := hc
    obtain ⟨pre1, post1, h1, h2⟩ := forestLeaves_set f.children f.idx c hc
    obtain ⟨pre2, post2, hrest⟩ := ih (fun g hg => hwf g (List.mem_cons_of_mem f hg))
    refine ⟨pre2 ++ pre1, post1 ++ post2, fun n => ?_⟩
    have hstep : plugPath n (f :: rest) = plugPath (plugFrame n f) rest := rfl
    rw [hstep, hrest (plugFrame n f), plugFrame, treeLeaves, h2 n]
    simp [List.append_assoc]

/-- Plugging a replacement leaf into the frames recorded by a search: the
search on the rebuilt tree reaches exactly the replacement leaf. -/
theorem plug_search (key : Bytes) (t : KVNode) :
    ∀ (ln : KVLeafNode) (fs : List Frame), leafSearchGo key t [] = some (ln, fs) →
      ∀ ln2, ∃ fs2, leafSearchGo key (plugPath (KVNode.leafn ln2) fs) [] = some (ln2, fs2) :=
  match t with
  | KVNode.leafn ln0 => by
    intro ln fs hs ln2
    rw [leafSearchGo] at hs
    cases hs
    exact ⟨[], rfl⟩
  | KVNode.inner ks cs => by
    intro ln fs hs ln2
    rw [leafSearchGo] at hs
    obtain ⟨hidx, c, hc, he⟩ := leafSearchChild_some key cs (innerChildIdx ks key) _ ln fs hs
    obtain ⟨fsc, hfs1, hfs2, hfs3, hfs4⟩ := leafSearchGo_shape key c _ ln fs he
    have hc0 : leafSearchGo key c [] = some (ln, fsc) := by
      simpa using hfs2 []
    obtain ⟨fs2c, hrec⟩ := plug_search key c ln fsc hc0 ln2
    have hsplit : fs = fsc ++ [{ keys := ks, children := cs, idx := innerChildIdx ks key }] := by
      rw [hfs1]
    subst hsplit
    rw [plugPath, List.foldl_append]
    have hfold : List.foldl plugFrame (KVNode.leafn ln2) fsc =
        plugPath (KVNode.leafn ln2) fsc := rfl
    rw [hfold]
    set tc2 := plugPath (KVNode.leafn ln2) fsc with htc2
    show ∃ fs2, leafSearchGo key
      (plugFrame tc2 { keys := ks, children := cs, idx := innerChildIdx ks key }) [] =
      some (ln2, fs2)
    rw [plugFrame]
    rw [leafSearchGo]
    simp only
    have hcset : (cs.set (innerChildIdx ks key) tc2).get? (innerChildIdx ks key) = some tc2 :=
      set_get?_some cs (innerChildIdx ks key) c tc2 hc
    have hlen2 : innerChildIdx ks key < (cs.set (innerChildIdx ks key) tc2).length := by
      rw [List.length_set]
      exact hidx
    obtain ⟨c2, hc2, he2⟩ := leafSearchChild_eq key (cs.set (innerChildIdx ks key) tc2)
      (innerChildIdx ks key)
      ({ keys := ks, children := cs.set (innerChildIdx ks key) tc2,
         idx := innerChildIdx ks key } :: []) hlen2
    rw [hcset] at hc2
    cases hc2
    rw [he2]
    obtain ⟨fsr, hr1, hr2, hr3, hr4⟩ := leafSearchGo_shape key tc2 [] ln2 fs2c hrec
    refine ⟨_, hr2 _⟩
termination_by sizeOf t
decreasing_by
  have hmem := List.sizeOf_lt_of_mem (List.get?_mem hc)
  simp only [KVNode.inner.sizeOf_spec]
  omega

/-! ## C9: remove -/

theorem pearsonHash_ne_zero (data : Bytes) : PearsonHash data ≠ 0 := by
  unfold PearsonHash
  by_cases h : pearsonLoop data data.length (data.length % 256) = 0 <;> simp [h]

theorem getD_ne_default_lt {α : Type} {l : List α} {i : Nat} {d : α}
    (h : l.getD i d ≠ d) : i < l.length := by
  by_contra hge
  exact h (List.getD_eq_default l d (Nat.le_of_not_lt hge))

/-- No two distinct nonzero slots of a descriptor agree on both the mirrored
hash and the C-string view of the mirrored key (keys are unique per leaf). -/
def leafUniqB (ln : KVLeafNode) : Bool :=
  (List.range LEAF_KEYS).all fun i =>
    (List.range LEAF_KEYS).all fun j =>
      (i == j) || (ln.hashes.getD i 0 == 0) || (ln.hashes.getD j 0 == 0) ||
      !((ln.hashes.getD i 0 == ln.hashes.getD j 0) &&
        (cstr (ln.keys.getD i []) == cstr (ln.keys.getD j [])))

/-- Every leaf descriptor of the volatile tree satisfies `leafUniqB`. -/
def stateUniqB (s : KVTreeState) : Bool :=
  match s.treeTop with
  | none => true
  | some t => (treeLeaves t).all leafUniqB

theorem leafUniqB_spec {ln : KVLeafNode} (h : leafUniqB ln = true) :
    ∀ i j, i < LEAF_KEYS → j < LEAF_KEYS → i ≠ j →
      ln.hashes.getD i 0 ≠ 0 → ln.hashes.getD j 0 ≠ 0 →
      ¬(ln.hashes.getD i 0 = ln.hashes.getD j 0 ∧
        cstr (ln.keys.getD i []) = cstr (ln.keys.getD j [])) := by
  intro i j hi hj hij hnz1 hnz2 hcon
  unfold leafUniqB at h
  rw [List.all_eq_true] at h
  have hi2 := h i (List.mem_range.2 hi)
  rw [List.all_eq_true] at hi2
  have hj2 := hi2 j (List.mem_range.2 hj)
  have hcontra : ((ln.hashes.getD i 0 == ln.hashes.getD j 0) &&
      (cstr (ln.keys.getD i []) == cstr (ln.keys.getD j []))) = true := by
    rw [Bool.and_eq_true, beq_iff_eq, beq_iff_eq]
    exact ⟨hcon.1, hcon.2⟩
  have hfalse : ((i == j) || (ln.hashes.getD i 0 == 0) || (ln.hashes.getD j 0 == 0) ||
      !((ln.hashes.getD i 0 == ln.hashes.getD j 0) &&
        (cstr (ln.keys.getD i []) == cstr (ln.keys.getD j [])))) = false := by
    rw [Bool.or_eq_false_iff, Bool.or_eq_false_iff, Bool.or_eq_false_iff]
    refine ⟨⟨⟨beq_eq_false_iff_ne.2 hij, beq_eq_false_iff_ne.2 hnz1⟩,
      beq_eq_false_iff_ne.2 hnz2⟩, ?_⟩
    rw [hcontra]
    rfl
  exact (by decide : (true : Bool) ≠ false) (hj2.symm.trans hfalse)

/-- The leaf reached by a successful search is one of the tree's leaves. -/
theorem search_leaf_mem {key : Bytes} {t : KVNode} {ln : KVLeafNode} {fs : List Frame}
    (hs : leafSearchGo key t [] = some (ln, fs)) : ln ∈ treeLeaves t := by
  obtain ⟨fs2, h1, h2, h3, h4⟩ := leafSearchGo_shape key t [] ln fs hs
  obtain ⟨pre, post, hleaves⟩ := plugPath_leaves fs2 h3
  have h5 := hleaves (KVNode.leafn ln)
  rw [h4] at h5
  rw [h5, treeLeaves]
  simp

/-- C9: `Remove` returns `OK` on every state and key (also when the key is
absent or the tree empty); after a remove, `get` of the removed key answers
`NOT_FOUND`; and a second remove is again `OK` and leaves the state
unchanged.  The hypothesis is the per-leaf uniqueness invariant: no two slots
of a descriptor agree on hash and C-string key. -/
theorem C9_remove_idempotent (s : KVTreeState) (key : Bytes)
    (huniq : stateUniqB s = true) :
    (s.remove key false).1 = some KVStatus.OK ∧
    ((s.remove key false).2.getStr key).1 = KVStatus.NOT_FOUND ∧
    (s.remove key false).2.remove key false = (some KVStatus.OK, (s.remove key false).2) := by
  rcases htop : s.treeTop with _ | t
  · have hrem : s.remove key false = (some KVStatus.OK, s) := by
      unfold KVTreeState.remove
      rw [htop]
    refine ⟨by rw [hrem], ?_, ?_⟩
    · rw [hrem]
      unfold KVTreeState.getStr
      rw [htop]
    · rw [hrem]
      unfold KVTreeState.remove
      rw [htop]
  · rcases hsearch : leafSearchGo key t [] with _ | lnfs
    · have hrem : s.remove key false = (some KVStatus.OK, s) := by
        unfold KVTreeState.remove
        rw [htop]
        simp only [hsearch]
      refine ⟨by rw [hrem], ?_, ?_⟩
      · rw [hrem]
        unfold KVTreeState.getStr
        rw [htop]
        simp only [hsearch]
      · rw [hrem]
        unfold KVTreeState.remove
        rw [htop]
        simp only [hsearch]
    · obtain ⟨ln, fs⟩ := lnfs
      rcases hscan : slotMatchScan ln.hashes ln.keys (PearsonHash key) key LEAF_KEYS with _ | slot
      · have hrem : s.remove key false = (some KVStatus.OK, s) := by
          unfold KVTreeState.remove
          rw [htop]
          simp only [hsearch, hscan]
        refine ⟨by rw [hrem], ?_, ?_⟩
        · rw [hrem]
          unfold KVTreeState.getStr
          rw [htop]
          simp only [hsearch, hscan]
        · rw [hrem]
          unfold KVTreeState.remove
          rw [htop]
          simp only [hsearch, hscan]
      · obtain ⟨hslt, hsh, hsk, hmax⟩ := slotMatchScan_some hscan
        have hlt : slot < ln.hashes.length :=
          getD_ne_default_lt (by rw [hsh]; exact pearsonHash_ne_zero key)
        have hlnu : leafUniqB ln = true := by
          unfold stateUniqB at huniq
          rw [htop, List.all_eq_true] at huniq
          exact huniq ln (search_leaf_mem hsearch)
        set ln2 : KVLeafNode :=
          { ln with hashes := ln.hashes.set slot 0, keys := ln.keys.set slot ([] : Bytes) }
          with hln2
        obtain ⟨fs2, hs2⟩ := plug_search key t ln fs hsearch ln2
        have hscan2 : slotMatchScan ln2.hashes ln2.keys (PearsonHash key) key LEAF_KEYS = none := by
          rcases hsc : slotMatchScan ln2.hashes ln2.keys (PearsonHash key) key LEAF_KEYS
            with _ | j
          · rfl
          · exfalso
            obtain ⟨hjlt, hjh, hjk, _⟩ := slotMatchScan_some hsc
            by_cases hjs : j = slot
            · subst hjs
              rw [hln2] at hjh
              simp only at hjh
              rw [getD_set_self hlt] at hjh
              exact pearsonHash_ne_zero key hjh.symm
            · rw [hln2] at hjh hjk
              simp only at hjh hjk
              rw [getD_set_ne (fun hq => hjs hq.symm)] at hjh
              rw [getD_set_ne (fun hq => hjs hq.symm)] at hjk
              refine leafUniqB_spec hlnu j slot hjlt hslt hjs
                (by rw [hjh]; exact pearsonHash_ne_zero key)
                (by rw [hsh]; exact pearsonHash_ne_zero key) ?_
              refine ⟨by rw [hjh, hsh], ?_⟩
              rw [cstrcmp_eq_iff.1 hjk, cstrcmp_eq_iff.1 hsk]
        have hrem : s.remove key false =
            (some KVStatus.OK,
              { s with treeTop := some (plugPath (KVNode.leafn ln2) fs)
                       heap := s.heap.set ln.leaf
                         ⟨(s.heap.getD ln.leaf KVLeaf.empty).slots.set slot
                           (((s.heap.getD ln.leaf KVLeaf.empty).slots.getD slot
                             KVSlot.empty).clear)⟩ }) := by
          unfold KVTreeState.remove
          rw [htop]
          simp only [hsearch, hscan, Bool.false_eq_true, if_false]
        refine ⟨by rw [hrem], ?_, ?_⟩
        · rw [hrem]
          unfold KVTreeState.getStr
          simp only [hs2, hscan2]
        · rw [hrem]
          unfold KVTreeState.remove
          simp only [hs2, hscan2]

/-- Witness for C9 on the store holding only `"a" → "x"`. -/
theorem C9_witness :
    stateUniqB (KVTreeState.fresh.put [97] [120] false).2 = true ∧
    (((KVTreeState.fresh.put [97] [120] false).2.remove [97] false).1 = some KVStatus.OK ∧
     (((KVTreeState.fresh.put [97] [120] false).2.remove [97] false).2.getStr [97]).1 =
       KVStatus.NOT_FOUND ∧
     ((KVTreeState.fresh.put [97] [120] false).2.remove [97] false).2.remove [97] false =
       (some KVStatus.OK,
         ((KVTreeState.fresh.put [97] [120] false).2.remove [97] false).2)) :=
  ⟨by decide, C9_remove_idempotent (KVTreeState.fresh.put [97] [120] false).2 [97] (by decide)⟩

/-! ## Leaves of the split propagation -/

/-- Shape of a path frame: the distinguished index is in range and the inner
node has `key_count + 1` children. -/
def frameShapeOK (f : Frame) : Prop :=
  f.idx < f.children.length ∧ f.children.length = f.keys.length + 1

theorem take_append_drop_forestLeaves (i : Nat) (cs : List KVNode) :
    forestLeaves (cs.take i) ++ forestLeaves (cs.drop i) = forestLeaves cs := by
  rw [← forestLeaves_append, List.take_append_drop]

/-- `InnerUpdateAfterSplit` leaves: the rebuilt tree's leaf descriptors are a
permutation of the plugged left node's tree plus the new node's leaves. -/
theorem innerUpdate_leaves :
    ∀ (fs : List Frame), (∀ f ∈ fs, frameShapeOK f) →
      ∀ (n1 n2 : KVNode) (k : Bytes),
        (treeLeaves (innerUpdateAfterSplit n1 n2 k fs)).Perm
          (treeLeaves (plugPath n1 fs) ++ treeLeaves n2) := by
  intro fs
  induction fs with
  | nil =>
    intro _ n1 n2 k
    rw [innerUpdateAfterSplit, treeLeaves, forestLeaves, forestLeaves, forestLeaves, plugPath]
    simp
  | cons f rest ih =>
    intro hwf n1 n2 k
    have hf : frameShapeOK f := hwf f (List.mem_cons_self f rest)
    have hrest : ∀ g ∈ rest, frameShapeOK g := fun g hg => hwf g (List.mem_cons_of_mem f hg)
    obtain ⟨hidx, hlen⟩ := hf
    have hc : ∃ c, f.children.get? f.idx = some c := by
      rw [List.get?_eq_getElem?]
      exact ⟨f.children[f.idx], List.getElem?_eq_getElem hidx⟩
    obtain ⟨c, hc⟩ := hc
    obtain ⟨pre1, post1, hset1, hset2⟩ := forestLeaves_set f.children f.idx c hc
    have hins : insertIdx f.keys k + 1 ≤ (f.children.set f.idx n1).length := by
      rw [List.length_set, hlen]
      have : insertIdx f.keys k ≤ f.keys.length := List.findIdx_le_length _
      omega
    have hinsPerm := forestLeaves_insertIdx (f.children.set f.idx n1)
      (insertIdx f.keys k + 1) n2 hins
    obtain ⟨pre2, post2, hplug⟩ := plugPath_leaves rest (fun g hg => (hrest g hg).1)
    rw [innerUpdateAfterSplit]
    split
    · -- no inner split: plug the grown inner node back
      have hstep : plugPath n1 (f :: rest) = plugPath (plugFrame n1 f) rest := rfl
      rw [hstep, hplug, hplug, List.perm_iff_count]
      intro a
      have hcount := hinsPerm.count_eq a
      rw [treeLeaves]
      simp only [List.count_append] at hcount ⊢
      rw [hcount]
      have : treeLeaves (plugFrame n1 f) = forestLeaves (f.children.set f.idx n1) := by
        rw [plugFrame, treeLeaves]
      rw [this]
      omega
    · -- inner split: recurse with the two halves
      have hrec := ih hrest
        (KVNode.inner ((f.keys.insertIdx (insertIdx f.keys k) k).take INNER_KEYS_MIDPOINT)
          (((f.children.set f.idx n1).insertIdx (insertIdx f.keys k + 1) n2).take
            (INNER_KEYS_MIDPOINT + 1)))
        (KVNode.inner ((f.keys.insertIdx (insertIdx f.keys k) k).drop INNER_KEYS_UPPER)
          (((f.children.set f.idx n1).insertIdx (insertIdx f.keys k + 1) n2).drop
            INNER_KEYS_UPPER))
        ((f.keys.insertIdx (insertIdx f.keys k) k).getD INNER_KEYS_MIDPOINT [])
      have htb : INNER_KEYS_MIDPOINT + 1 = INNER_KEYS_UPPER := by decide
      have hplugf : treeLeaves (plugFrame n1 f) = forestLeaves (f.children.set f.idx n1) := by
        rw [plugFrame, treeLeaves]
      rw [List.perm_iff_count]
      intro a
      have h1 := hrec.count_eq a
      rw [hplug, htb] at h1
      simp only [List.count_append, treeLeaves] at h1
      have htd : List.count a (forestLeaves
            (((f.children.set f.idx n1).insertIdx (insertIdx f.keys k + 1) n2).take
              INNER_KEYS_UPPER)) +
          List.count a (forestLeaves
            (((f.children.set f.idx n1).insertIdx (insertIdx f.keys k + 1) n2).drop
              INNER_KEYS_UPPER)) =
          List.count a (forestLeaves
            ((f.children.set f.idx n1).insertIdx (insertIdx f.keys k + 1) n2)) := by
        rw [← List.count_append, take_append_drop_forestLeaves]
      have hcount := hinsPerm.count_eq a
      simp only [List.count_append] at hcount
      have hstep : plugPath n1 (f :: rest) = plugPath (plugFrame n1 f) rest := rfl
      rw [hstep, hplug, htb]
      simp only [List.count_append]
      rw [hplugf]
      omega

/-! ## Shape preservation -/

theorem forestShapeWF_iff :
    ∀ {cs : List KVNode}, forestShapeWF cs = true ↔ ∀ c ∈ cs, nodeShapeWF c = true := by
  intro cs
  induction cs with
  | nil => simp [forestShapeWF]
  | cons d ds ih =>
    rw [forestShapeWF, Bool.and_eq_true, ih]
    constructor
    · intro ⟨h1, h2⟩ c hc
      rcases List.mem_cons.1 hc with rfl | hc2
      · exact h1
      · exact h2 c hc2
    · intro h
      exact ⟨h d (List.mem_cons_self d ds), fun c hc => h c (List.mem_cons_of_mem d hc)⟩

/-- A path frame whose inner node is fully well-formed. -/
def frameFullWF (f : Frame) : Prop :=
  frameShapeOK f ∧ forestShapeWF f.children = true

theorem plugPath_shape :
    ∀ (fs : List Frame), (∀ f ∈ fs, frameFullWF f) →
      ∀ n, nodeShapeWF n = true → nodeShapeWF (plugPath n fs) = true := by
  intro fs
  induction fs with
  | nil => intro _ n hn; exact hn
  | cons f rest ih =>
    intro hwf n hn
    have hf := hwf f (List.mem_cons_self f rest)
    obtain ⟨⟨hidx, hlen⟩, hforest⟩ := hf
    have hstep : plugPath n (f :: rest) = plugPath (plugFrame n f) rest := rfl
    rw [hstep]
    apply ih (fun g hg => hwf g (List.mem_cons_of_mem f hg))
    rw [plugFrame, nodeShapeWF, Bool.and_eq_true, beq_iff_eq]
    refine ⟨by rw [List.length_set]; exact hlen, ?_⟩
    rw [forestShapeWF_iff]
    intro c hc
    rcases List.mem_or_eq_of_mem_set hc with hc2 | rfl
    · exact forestShapeWF_iff.1 hforest c hc2
    · exact hn

theorem innerUpdate_shape :
    ∀ (fs : List Frame), (∀ f ∈ fs, frameFullWF f) →
      ∀ (n1 n2 : KVNode) (k : Bytes), nodeShapeWF n1 = true → nodeShapeWF n2 = true →
        nodeShapeWF (innerUpdateAfterSplit n1 n2 k fs) = true := by
  intro fs
  induction fs with
  | nil =>
    intro _ n1 n2 k h1 h2
    rw [innerUpdateAfterSplit, nodeShapeWF]
    rw [Bool.and_eq_true, beq_iff_eq]
    refine ⟨rfl, ?_⟩
    rw [forestShapeWF, forestShapeWF, forestShapeWF]
    rw [h1, h2]
    rfl
  | cons f rest ih =>
    intro hwf n1 n2 k h1 h2
    have hf := hwf f (List.mem_cons_self f rest)
    obtain ⟨⟨hidx, hlen⟩, hforest⟩ := hf
    have hrest : ∀ g ∈ rest, frameFullWF g := fun g hg => hwf g (List.mem_cons_of_mem f hg)
    have hinsb : insertIdx f.keys k + 1 ≤ (f.children.set f.idx n1).length := by
      rw [List.length_set, hlen]
      have := @List.findIdx_le_length Bytes (fun q => bytesCmp q k == Ordering.gt) f.keys
      unfold insertIdx
      omega
    have hklen : (f.keys.insertIdx (insertIdx f.keys k) k).length = f.keys.length + 1 :=
      List.length_insertIdx (insertIdx f.keys k) f.keys (List.findIdx_le_length _)
    have hclen : ((f.children.set f.idx n1).insertIdx (insertIdx f.keys k + 1) n2).length =
        f.keys.length + 2 := by
      rw [List.length_insertIdx (insertIdx f.keys k + 1) (f.children.set f.idx n1) hinsb,
        List.length_set, hlen]
    have hmem2 : ∀ c, c ∈ (f.children.set f.idx n1).insertIdx (insertIdx f.keys k + 1) n2 →
        nodeShapeWF c = true := by
      intro c hc
      rcases (List.mem_insertIdx hinsb).1 hc with rfl | hc2
      · exact h2
      · rcases List.mem_or_eq_of_mem_set hc2 with hc3 | rfl
        · exact forestShapeWF_iff.1 hforest c hc3
        · exact h1
    rw [innerUpdateAfterSplit]
    split
    · apply plugPath_shape rest hrest
      rw [nodeShapeWF, Bool.and_eq_true, beq_iff_eq]
      refine ⟨by rw [hclen, hklen], ?_⟩
      rw [forestShapeWF_iff]
      exact hmem2
    · rename_i hover
      apply ih hrest
      · rw [nodeShapeWF, Bool.and_eq_true, beq_iff_eq]
        constructor
        · rw [List.length_take, List.length_take, hklen, hclen]
          rw [hklen] at hover
          have : INNER_KEYS < f.keys.length + 1 := by
            have := Nat.lt_of_not_le hover
            omega
          unfold INNER_KEYS_MIDPOINT INNER_KEYS at this ⊢
          omega
        · rw [forestShapeWF_iff]
          intro c hc
          exact hmem2 c (List.mem_of_mem_take hc)
      · rw [nodeShapeWF, Bool.and_eq_true, beq_iff_eq]
        constructor
        · rw [List.length_drop, List.length_drop, hklen, hclen]
          rw [hklen] at hover
          have : INNER_KEYS < f.keys.length + 1 := Nat.lt_of_not_le hover
          unfold INNER_KEYS_UPPER INNER_KEYS at this ⊢
          omega
        · rw [forestShapeWF_iff]
          intro c hc
          exact hmem2 c (List.mem_of_mem_drop hc)

/-! ## Rightmost path and the recovery rebuild -/

theorem rightmostChild_eq :
    ∀ (cs : List KVNode) (idx : Nat) (dflt : KVNode × List Frame) (path : List Frame),
      idx < cs.length →
      ∃ c, cs.get? idx = some c ∧ rightmostChild dflt cs idx path = rightmostPath c path := by
  intro cs
  induction cs with
  | nil => intro idx dflt path hidx; exact absurd hidx (by simp)
  | cons d ds ih =>
    intro idx dflt path hidx
    cases idx with
    | zero => exact ⟨d, rfl, rfl⟩
    | succ j =>
      obtain ⟨c, hc, he⟩ := ih j dflt path (Nat.lt_of_succ_lt_succ hidx)
      exact ⟨c, hc, he⟩

/-- On a structurally well-formed tree, the rightmost-path descent reaches a
leaf, records fully well-formed frames, and plugging the leaf back rebuilds
the tree; the recorded frames are independent of the starting path. -/
theorem rightmostPath_shape (t : KVNode) (hwf : nodeShapeWF t = true) :
    ∃ ln fs, (∀ path1, rightmostPath t path1 = (KVNode.leafn ln, fs ++ path1)) ∧
      (∀ f ∈ fs, frameFullWF f) ∧
      plugPath (KVNode.leafn ln) fs = t :=
  match t, hwf with
  | KVNode.leafn ln0, _ => ⟨ln0, [], fun path1 => rfl,
      fun f hf => absurd hf (List.not_mem_nil f), rfl⟩
  | KVNode.inner ks cs, hwf => by
    rw [nodeShapeWF, Bool.and_eq_true, beq_iff_eq] at hwf
    obtain ⟨hlen, hforest⟩ := hwf
    have hidx : cs.length - 1 < cs.length := by
      rw [hlen]
      omega
    have hc : ∃ c, cs.get? (cs.length - 1) = some c := by
      rw [List.get?_eq_getElem?]
      exact ⟨cs[cs.length - 1], List.getElem?_eq_getElem hidx⟩
    obtain ⟨c, hc⟩ := hc
    have hcwf : nodeShapeWF c = true := forestShapeWF_mem hforest (List.get?_mem hc)
    obtain ⟨ln, fsc, hrec1, hrec2, hrec3⟩ := rightmostPath_shape c hcwf
    refine ⟨ln, fsc ++ [{ keys := ks, children := cs, idx := cs.length - 1 }], ?_, ?_, ?_⟩
    · intro path1
      rw [rightmostPath]
      obtain ⟨c2, hc2, he2⟩ := rightmostChild_eq cs (cs.length - 1) (KVNode.inner ks cs, path1)
        ({ keys := ks, children := cs, idx := cs.length - 1 } :: path1) hidx
      rw [hc] at hc2
      cases hc2
      rw [he2, hrec1, List.append_assoc]
      rfl
    · intro f hf
      rcases List.mem_append.1 hf with hf2 | hf2
      · exact hrec2 f hf2
      · rcases List.mem_singleton.1 hf2 with rfl
        exact ⟨⟨hidx, hlen⟩, hforest⟩
    · rw [plugPath, List.foldl_append]
      have hfold : List.foldl plugFrame (KVNode.leafn ln) fsc = c := hrec3
      rw [hfold]
      show plugFrame c { keys := ks, children := cs, idx := cs.length - 1 } =
        KVNode.inner ks cs
      rw [plugFrame]
      rw [set_get?_self cs (cs.length - 1) c hc]
termination_by sizeOf t
decreasing_by
  have hmem := List.sizeOf_lt_of_mem (List.get?_mem hc)
  simp only [KVNode.inner.sizeOf_spec]
  omega

/-- The recovery rebuild loop: the result is structurally well-formed and its
leaves are exactly the starting tree's leaves plus the linked descriptors. -/
theorem recoverBuild_props :
    ∀ (toks : List (KVLeafNode × Bytes)) (t : KVNode) (mk : Bytes),
      nodeShapeWF t = true →
      nodeShapeWF (recoverBuild t mk toks) = true ∧
      (treeLeaves (recoverBuild t mk toks)).Perm
        (treeLeaves t ++ toks.map (fun x => x.1)) := by
  intro toks
  induction toks with
  | nil =>
    intro t mk hwf
    rw [recoverBuild]
    exact ⟨hwf, by simp⟩
  | cons tok rest ih =>
    intro t mk hwf
    obtain ⟨ln, mk2⟩ := tok
    obtain ⟨ln0, fs, hr1, hr2, hr3⟩ := rightmostPath_shape t hwf
    rw [recoverBuild]
    have hpr : rightmostPath t [] = (KVNode.leafn ln0, fs) := by
      have := hr1 []
      simpa using this
    rw [hpr]
    have hshape2 : nodeShapeWF (innerUpdateAfterSplit (KVNode.leafn ln0)
        (KVNode.leafn ln) mk fs) = true :=
      innerUpdate_shape fs hr2 _ _ mk rfl rfl
    obtain ⟨ihs, ihp⟩ := ih (innerUpdateAfterSplit (KVNode.leafn ln0)
      (KVNode.leafn ln) mk fs) mk2 hshape2
    refine ⟨ihs, ?_⟩
    have hleaves := innerUpdate_leaves fs (fun f hf => (hr2 f hf).1)
      (KVNode.leafn ln0) (KVNode.leafn ln) mk
    rw [hr3] at hleaves
    rw [List.perm_iff_count]
    intro a
    have h1 := ihp.count_eq a
    have h2 := hleaves.count_eq a
    simp only [List.count_append, List.map_cons, List.count_cons, List.count_nil,
      treeLeaves] at h1 h2 ⊢
    omega

/-! ## C5: the volatile mirror invariant -/

theorem cstr_append_zero (a b : Bytes) : cstr (a ++ 0 :: b) = cstr a := by
  induction a with
  | nil => rfl
  | cons x xs ih =>
    unfold cstr at ih ⊢
    rw [List.cons_append, List.takeWhile_cons, List.takeWhile_cons]
    by_cases hx : x = 0
    · subst hx
      simp
    · have : (x != 0) = true := by
        rw [bne_iff_ne]
        exact hx
      rw [this]
      simp only [cond_true]
      rw [ih]

theorem keyCStr_set (s : KVSlot) (h : Nat) (key value : Bytes) :
    (s.set h key value).keyCStr = cstr key := by
  unfold KVSlot.set KVSlot.keyCStr
  simp only [Option.getD_some]
  have : key ++ [0] ++ value ++ [0] = key ++ 0 :: (value ++ [0]) := by
    simp [List.append_assoc]
  rw [this, cstr_append_zero]

/-- The per-leaf mirror relation between a descriptor and its backing
persistent leaf: hashes mirrored exactly; for nonzero slots the mirrored key
agrees with the stored key up to the first zero byte. -/
def pairMirror (ln : KVLeafNode) (pl : KVLeaf) : Prop :=
  ∀ i, i < LEAF_KEYS →
    ln.hashes.getD i 0 = (pl.slots.getD i KVSlot.empty).ph ∧
    ((pl.slots.getD i KVSlot.empty).ph ≠ 0 →
      cstr (ln.keys.getD i []) = (pl.slots.getD i KVSlot.empty).keyCStr)

/-- `leafMirrorB`: executable form of `pairMirror` against the heap. -/
def leafMirrorB (heap : List KVLeaf) (ln : KVLeafNode) : Bool :=
  (List.range LEAF_KEYS).all fun i =>
    ((ln.hashes.getD i 0 ==
        ((heap.getD ln.leaf KVLeaf.empty).slots.getD i KVSlot.empty).ph) &&
      ((((heap.getD ln.leaf KVLeaf.empty).slots.getD i KVSlot.empty).ph == 0) ||
        (cstr (ln.keys.getD i []) ==
          ((heap.getD ln.leaf KVLeaf.empty).slots.getD i KVSlot.empty).keyCStr)))

/-- Every leaf descriptor of the volatile tree mirrors its persistent leaf. -/
def stateMirrorB (s : KVTreeState) : Bool :=
  match s.treeTop with
  | none => true
  | some t => (treeLeaves t).all (leafMirrorB s.heap)

theorem leafMirrorB_iff {heap : List KVLeaf} {ln : KVLeafNode} :
    leafMirrorB heap ln = true ↔ pairMirror ln (heap.getD ln.leaf KVLeaf.empty) := by
  unfold leafMirrorB pairMirror
  rw [List.all_eq_true]
  constructor
  · intro h i hi
    have h2 := h i (List.mem_range.2 hi)
    rw [Bool.and_eq_true, beq_iff_eq, Bool.or_eq_true, beq_iff_eq, beq_iff_eq] at h2
    refine ⟨h2.1, fun hnz => ?_⟩
    rcases h2.2 with h3 | h3
    · exact absurd h3 hnz
    · exact h3
  · intro h i hi
    have h2 := h i (List.mem_range.1 hi)
    rw [Bool.and_eq_true, beq_iff_eq, Bool.or_eq_true, beq_iff_eq, beq_iff_eq]
    refine ⟨h2.1, ?_⟩
    by_cases hz : ((heap.getD ln.leaf KVLeaf.empty).slots.getD i KVSlot.empty).ph = 0
    · exact Or.inl hz
    · exact Or.inr (h2.2 hz)

/-- Specification of the `LeafFillSlotForKey` scan. -/
theorem leafScanForKey_spec (hashes : List Nat) (keys : List Bytes) (h : Nat) (key : Bytes) :
    ∀ (n : Nat) (le : Option Nat),
      (∀ j, (leafScanForKey hashes keys h key n le).2 = some j →
        j < n ∧ hashes.getD j 0 = h ∧ cstrcmp (keys.getD j []) key = Ordering.eq) ∧
      (∀ j, (leafScanForKey hashes keys h key n le).1 = some j →
        (j < n ∧ hashes.getD j 0 = 0) ∨ le = some j) ∧
      ((leafScanForKey hashes keys h key n le).1 = none ∧
        (leafScanForKey hashes keys h key n le).2 = none →
        le = none ∧ ∀ j, j < n → hashes.getD j 0 ≠ 0 ∧
          ¬(hashes.getD j 0 = h ∧ cstrcmp (keys.getD j []) key = Ordering.eq)) := by
  intro n
  induction n with
  | zero =>
    intro le
    refine ⟨fun j hj => by simp [leafScanForKey] at hj, fun j hj => ?_, fun hj => ?_⟩
    · right
      simpa [leafScanForKey] using hj
    · exact ⟨by simpa [leafScanForKey] using hj.1, fun j hjn => absurd hjn (Nat.not_lt_zero j)⟩
  | succ m ih =>
    intro le
    unfold leafScanForKey
    dsimp only
    split
    · rename_i hz
      obtain ⟨ih1, ih2, ih3⟩ := ih (some m)
      refine ⟨fun j hj => ?_, fun j hj => ?_, fun hj => ?_⟩
      · obtain ⟨hj1, hj2, hj3⟩ := ih1 j hj
        exact ⟨Nat.lt_succ_of_lt hj1, hj2, hj3⟩
      · rcases ih2 j hj with hj2 | hj2
        · exact Or.inl ⟨Nat.lt_succ_of_lt hj2.1, hj2.2⟩
        · cases hj2
          exact Or.inl ⟨Nat.lt_succ_self m, hz⟩
      · obtain ⟨hle, _⟩ := ih3 hj
        exact absurd hle (by simp)
    · split
      · rename_i hz hm
        refine ⟨fun j hj => ?_, fun j hj => ?_, fun hj => ?_⟩
        · simp only at hj
          cases hj
          exact ⟨Nat.lt_succ_self m, hm.1, hm.2⟩
        · simp only at hj
          right
          exact hj
        · exact absurd hj.2 (by simp)
      · rename_i hz hm
        obtain ⟨ih1, ih2, ih3⟩ := ih le
        refine ⟨fun j hj => ?_, fun j hj => ?_, fun hj => ?_⟩
        · obtain ⟨hj1, hj2, hj3⟩ := ih1 j hj
          exact ⟨Nat.lt_succ_of_lt hj1, hj2, hj3⟩
        · rcases ih2 j hj with hj2 | hj2
          · exact Or.inl ⟨Nat.lt_succ_of_lt hj2.1, hj2.2⟩
          · exact Or.inr hj2
        · obtain ⟨hle, hall⟩ := ih3 hj
          refine ⟨hle, fun j hjm => ?_⟩
          by_cases hjeq : j = m
          · subst hjeq
            exact ⟨hz, hm⟩
          · exact hall j (Nat.lt_of_le_of_ne (Nat.le_of_lt_succ hjm) hjeq)

/-- The slot chosen by `LeafFillSlotForKey` is in range and is either empty
or holds the same hash and a `strcmp`-equal key. -/
theorem leafChooseSlot_spec {ln : KVLeafNode} {h : Nat} {key : Bytes} {slot : Nat}
    (hc : leafChooseSlot ln h key = some slot) :
    slot < LEAF_KEYS ∧
      (ln.hashes.getD slot 0 = 0 ∨
        (ln.hashes.getD slot 0 = h ∧ cstrcmp (ln.keys.getD slot []) key = Ordering.eq)) := by
  unfold leafChooseSlot at hc
  dsimp only at hc
  obtain ⟨h1, h2, _⟩ := leafScanForKey_spec ln.hashes ln.keys h key LEAF_KEYS none
  rcases hkm : (leafScanForKey ln.hashes ln.keys h key LEAF_KEYS none).2 with _ | j
  · rw [hkm] at hc
    simp only at hc
    rcases h2 slot hc with hj | hj
    · exact ⟨hj.1, Or.inl hj.2⟩
    · exact absurd hj (by simp)
  · rw [hkm] at hc
    simp only at hc
    cases hc
    obtain ⟨hj1, hj2, hj3⟩ := h1 slot hkm
    exact ⟨hj1, Or.inr ⟨hj2, hj3⟩⟩

/-- A full leaf with no matching key: the scan returns no slot. -/
theorem leafChooseSlot_none {ln : KVLeafNode} {h : Nat} {key : Bytes}
    (hc : leafChooseSlot ln h key = none) :
    ∀ j, j < LEAF_KEYS → ln.hashes.getD j 0 ≠ 0 ∧
      ¬(ln.hashes.getD j 0 = h ∧ cstrcmp (ln.keys.getD j []) key = Ordering.eq) := by
  unfold leafChooseSlot at hc
  dsimp only at hc
  obtain ⟨h1, h2, h3⟩ := leafScanForKey_spec ln.hashes ln.keys h key LEAF_KEYS none
  rcases hkm : (leafScanForKey ln.hashes ln.keys h key LEAF_KEYS none).2 with _ | j
  · rw [hkm] at hc
    simp only at hc
    exact (h3 ⟨hc, hkm⟩).2
  · rw [hkm] at hc
    simp at hc

/-- `LeafFillSpecificSlot` preserves the mirror relation when the slot is
empty or key-matching. -/
theorem pairMirror_fill {ln : KVLeafNode} {pl : KVLeaf} (h : Nat) (key value : Bytes)
    (slot : Nat) (hm : pairMirror ln pl)
    (hlh : ln.hashes.length = LEAF_KEYS) (hlk : ln.keys.length = LEAF_KEYS)
    (hps : pl.slots.length = LEAF_KEYS) (hslot : slot < LEAF_KEYS)
    (hcond : ln.hashes.getD slot 0 = 0 ∨
      (ln.hashes.getD slot 0 = h ∧ cstrcmp (ln.keys.getD slot []) key = Ordering.eq)) :
    pairMirror (lfssMirror ln h key slot) (lfssPersist pl h key value slot) := by
  intro i hi
  unfold lfssMirror lfssPersist
  simp only
  by_cases his : i = slot
  · subst his
    rw [getD_set_self (by rw [hps]; exact hi)]
    by_cases hz : ln.hashes.getD i 0 = 0
    · rw [if_pos hz]
      simp only
      rw [getD_set_self (by rw [hlh]; exact hi), getD_set_self (by rw [hlk]; exact hi)]
      exact ⟨rfl, fun _ => by rw [keyCStr_set]⟩
    · rw [if_neg hz]
      have hmatch : ln.hashes.getD i 0 = h ∧ cstrcmp (ln.keys.getD i []) key = Ordering.eq := by
        rcases hcond with hc | hc
        · exact absurd hc hz
        · exact hc
      refine ⟨hmatch.1, fun _ => ?_⟩
      rw [keyCStr_set]
      exact cstrcmp_eq_iff.1 hmatch.2
  · rw [getD_set_ne (fun hq => his hq.symm)]
    have hh : (if ln.hashes.getD slot 0 = 0 then
        { ln with hashes := ln.hashes.set slot h, keys := ln.keys.set slot key }
        else ln).hashes.getD i 0 = ln.hashes.getD i 0 := by
      split
      · simp only
        rw [getD_set_ne (fun hq => his hq.symm)]
      · rfl
    have hk : (if ln.hashes.getD slot 0 = 0 then
        { ln with hashes := ln.hashes.set slot h, keys := ln.keys.set slot key }
        else ln).keys.getD i [] = ln.keys.getD i [] := by
      split
      · simp only
        rw [getD_set_ne (fun hq => his hq.symm)]
      · rfl
    rw [hh, hk]
    exact hm i hi

theorem pairMirror_fillEmpty {ln : KVLeafNode} {pl : KVLeaf} (h : Nat) (key value : Bytes)
    (hm : pairMirror ln pl)
    (hlh : ln.hashes.length = LEAF_KEYS) (hlk : ln.keys.length = LEAF_KEYS)
    (hps : pl.slots.length = LEAF_KEYS) :
    pairMirror (leafFillEmptySlot ln pl h key value).1
      (leafFillEmptySlot ln pl h key value).2 := by
  unfold leafFillEmptySlot
  rcases he : findEmptySlotScan ln.hashes LEAF_KEYS with _ | slot
  · exact hm
  · obtain ⟨he1, he2, _⟩ := findEmptySlotScan_some he
    exact pairMirror_fill h key value slot hm hlh hlk hps he1 (Or.inl he2)

/-- The move loop of the split preserves the mirror relation on both
leaf pairs, starting from a fresh descriptor and an all-empty new leaf. -/
theorem pairMirror_move (sk : Bytes) (ln newLn0 : KVLeafNode) (oldPl newPl : KVLeaf)
    (hm : pairMirror ln oldPl)
    (hz : ∀ i, i < LEAF_KEYS → (newPl.slots.getD i KVSlot.empty).ph = 0)
    (hn0 : ∀ i, i < LEAF_KEYS → newLn0.hashes.getD i 0 = 0)
    (hwf : moveStWF (ln, newLn0, oldPl, newPl)) :
    pairMirror (splitMoveScan sk LEAF_KEYS (ln, newLn0, oldPl, newPl)).1
      (splitMoveScan sk LEAF_KEYS (ln, newLn0, oldPl, newPl)).2.2.1 ∧
    pairMirror (splitMoveScan sk LEAF_KEYS (ln, newLn0, oldPl, newPl)).2.1
      (splitMoveScan sk LEAF_KEYS (ln, newLn0, oldPl, newPl)).2.2.2 := by
  constructor
  · intro i hi
    by_cases hgt : cstrcmp (ln.keys.getD i []) sk = Ordering.gt
    · obtain ⟨h1, h2, h3, h4, h5, h6⟩ :=
        splitMoveScan_moved sk LEAF_KEYS (ln, newLn0, oldPl, newPl) i hwf (Nat.le_refl _) hi hgt
      rw [h1, h5]
      exact ⟨(hz i hi).symm, fun hq => absurd (hz i hi) hq⟩
    · obtain ⟨h1, h2, h3, h4, h5, h6⟩ :=
        splitMoveScan_stay sk LEAF_KEYS (ln, newLn0, oldPl, newPl) i (Or.inr hgt)
      rw [h1, h2, h5]
      exact hm i hi
  · intro i hi
    by_cases hgt : cstrcmp (ln.keys.getD i []) sk = Ordering.gt
    · obtain ⟨h1, h2, h3, h4, h5, h6⟩ :=
        splitMoveScan_moved sk LEAF_KEYS (ln, newLn0, oldPl, newPl) i hwf (Nat.le_refl _) hi hgt
      rw [h3, h4, h6]
      exact hm i hi
    · obtain ⟨h1, h2, h3, h4, h5, h6⟩ :=
        splitMoveScan_stay sk LEAF_KEYS (ln, newLn0, oldPl, newPl) i (Or.inr hgt)
      rw [h3, h6]
      simp only
      rw [hn0 i hi, hz i hi]
      exact ⟨rfl, fun hq => absurd rfl hq⟩

/-- Shape of a leaf descriptor against a heap size. -/
def leafShapeB (heapLen : Nat) (ln : KVLeafNode) : Bool :=
  (ln.hashes.length == LEAF_KEYS) && (ln.keys.length == LEAF_KEYS) &&
    decide (ln.leaf < heapLen)

/-- Structural well-formedness of an engine state: heap leaves have
`LEAF_KEYS` slots, free-list identifiers are in range, the volatile tree is
shape-correct with well-formed descriptors, and no persistent leaf is
referenced twice (tree descriptors and free list all reference distinct
leaves). -/
def stateShapeB (s : KVTreeState) : Bool :=
  (s.heap.all fun pl => pl.slots.length == LEAF_KEYS) &&
  (s.leavesPrealloc.all fun lid => decide (lid < s.heap.length)) &&
  (match s.treeTop with
   | none => true
   | some t => nodeShapeWF t && (treeLeaves t).all (leafShapeB s.heap.length) &&
       decide (((treeLeaves t).map (fun ln => ln.leaf) ++ s.leavesPrealloc).Nodup))

/-- All free-list leaves have only zero-hash slots. -/
def preallocZeroB (s : KVTreeState) : Bool :=
  s.leavesPrealloc.all fun lid =>
    (s.heap.getD lid KVLeaf.empty).slots.all fun sl => sl.ph == 0

theorem stateShapeB_spec {s : KVTreeState} (h : stateShapeB s = true) :
    (∀ pl ∈ s.heap, pl.slots.length = LEAF_KEYS) ∧
    (∀ lid ∈ s.leavesPrealloc, lid < s.heap.length) ∧
    (∀ t, s.treeTop = some t → nodeShapeWF t = true ∧
      (∀ ln ∈ treeLeaves t, ln.hashes.length = LEAF_KEYS ∧ ln.keys.length = LEAF_KEYS ∧
        ln.leaf < s.heap.length) ∧
      ((treeLeaves t).map (fun ln => ln.leaf) ++ s.leavesPrealloc).Nodup) := by
  unfold stateShapeB at h
  rw [Bool.and_eq_true, Bool.and_eq_true] at h
  obtain ⟨⟨h1, h2⟩, h3⟩ := h
  rw [List.all_eq_true] at h1 h2
  refine ⟨fun pl hpl => by have := h1 pl hpl; rwa [beq_iff_eq] at this,
    fun lid hlid => by have := h2 lid hlid; exact of_decide_eq_true this,
    fun t ht => ?_⟩
  rw [ht] at h3
  rw [Bool.and_eq_true, Bool.and_eq_true] at h3
  obtain ⟨⟨h4, h5⟩, h6⟩ := h3
  rw [List.all_eq_true] at h5
  refine ⟨h4, fun ln hln => ?_, of_decide_eq_true h6⟩
  have := h5 ln hln
  unfold leafShapeB at this
  rw [Bool.and_eq_true, Bool.and_eq_true, beq_iff_eq, beq_iff_eq] at this
  exact ⟨this.1.1, this.1.2, of_decide_eq_true this.2⟩

theorem getD_map_range {α : Type} {f : Nat → α} {n i : Nat} (hi : i < n) (d : α) :
    ((List.range n).map f).getD i d = f i := by
  rw [List.getD_eq_getElem?_getD, List.getElem?_eq_getElem (by simpa using hi)]
  simp

theorem cstr_zero_free (a : Bytes) : cstr (cstr a) = cstr a := by
  unfold cstr
  exact List.takeWhile_idem

/-- The descriptor built by recovery mirrors its persistent leaf. -/
theorem recoverLeafNode_mirror (lid : Nat) (pl : KVLeaf) :
    pairMirror (recoverLeafNode lid pl) pl := by
  intro i hi
  unfold recoverLeafNode
  simp only
  rw [getD_map_range hi, getD_map_range hi]
  refine ⟨rfl, fun hnz => ?_⟩
  rw [if_neg (by exact hnz)]
  unfold KVSlot.keyCStr
  exact cstr_zero_free _

theorem recoverWalk_tokens (heap : List KVLeaf) (chain : List Nat) :
    ∀ tok ∈ (recoverWalk heap chain).2,
      ∃ lid, tok.1 = recoverLeafNode lid (heap.getD lid KVLeaf.empty) := by
  have aux : ∀ (ch : List Nat) (acc : List Nat × List (KVLeafNode × Bytes)),
      (∀ tok ∈ acc.2, ∃ lid, tok.1 = recoverLeafNode lid (heap.getD lid KVLeaf.empty)) →
      ∀ tok ∈ (ch.foldl (fun acc lid =>
          let pl := heap.getD lid KVLeaf.empty
          match recoverMaxKey pl.slots LEAF_KEYS none with
          | none => (acc.1 ++ [lid], acc.2)
          | some mk => (acc.1, acc.2 ++ [(recoverLeafNode lid pl, mk)])) acc).2,
        ∃ lid, tok.1 = recoverLeafNode lid (heap.getD lid KVLeaf.empty) := by
    intro ch
    induction ch with
    | nil => intro acc hacc tok htok; exact hacc tok htok
    | cons lid ch ih =>
      intro acc hacc tok htok
      rw [List.foldl_cons] at htok
      refine ih _ ?_ tok htok
      rcases hmk : recoverMaxKey (heap.getD lid KVLeaf.empty).slots LEAF_KEYS none with _ | mk
      · intro tok2 htok2
        simp only [hmk] at htok2
        exact hacc tok2 htok2
      · intro tok2 htok2
        simp only [hmk] at htok2
        rcases List.mem_append.1 htok2 with h2 | h2
        · exact hacc tok2 h2
        · rcases List.mem_singleton.1 h2 with rfl
          exact ⟨lid, rfl⟩
  exact aux chain ([], []) (fun tok htok => absurd htok (List.not_mem_nil tok))

/-- Recovery establishes the (amended) mirror invariant unconditionally. -/
theorem recover_mirror (heap : List KVLeaf) (chain : List Nat) :
    stateMirrorB (KVTreeState.recover heap chain) = true := by
  rcases hsorted : stableSort (fun a b => bytesCmp a.2 b.2 != Ordering.gt)
    (recoverWalk heap chain).2 with _ | ⟨⟨ln0, mk0⟩, rest⟩
  · unfold KVTreeState.recover stateMirrorB
    dsimp only
    rw [hsorted]
  · unfold KVTreeState.recover stateMirrorB
    dsimp only
    rw [hsorted]
    dsimp only
    rw [List.all_eq_true]
    intro ln hln
    obtain ⟨_, hperm⟩ := recoverBuild_props rest (KVNode.leafn ln0) mk0 rfl
    have hmem := hperm.mem_iff.1 hln
    rw [treeLeaves] at hmem
    have htok : ∃ mk, (ln, mk) ∈ (recoverWalk heap chain).2 := by
      rcases List.mem_append.1 hmem with h2 | h2
      · rcases List.mem_singleton.1 h2 with rfl
        refine ⟨mk0, ?_⟩
        have : (ln, mk0) ∈ stableSort (fun a b => bytesCmp a.2 b.2 != Ordering.gt)
            (recoverWalk heap chain).2 := by
          rw [hsorted]
          exact List.mem_cons_self _ _
        exact (stableSort_perm _ _).mem_iff.1 this
      · obtain ⟨tok, htok2, htokeq⟩ := List.mem_map.1 h2
        obtain ⟨lnx, mkx⟩ := tok
        cases htokeq
        refine ⟨mkx, ?_⟩
        have hmem2 : (lnx, mkx) ∈ stableSort (fun a b => bytesCmp a.2 b.2 != Ordering.gt)
            (recoverWalk heap chain).2 := by
          rw [hsorted]
          exact List.mem_cons_of_mem _ htok2
        exact (stableSort_perm _ _).mem_iff.1 hmem2
    obtain ⟨mk, htok⟩ := htok
    obtain ⟨lid, hlid⟩ := recoverWalk_tokens heap chain (ln, mk) htok
    simp only at hlid
    rw [leafMirrorB_iff, hlid]
    have hleaf : (recoverLeafNode lid (heap.getD lid KVLeaf.empty)).leaf = lid := rfl
    rw [hleaf]
    exact recoverLeafNode_mirror lid _

theorem getD_append_left {α : Type} {l l2 : List α} {i : Nat} {d : α} (h : i < l.length) :
    (l ++ l2).getD i d = l.getD i d := by
  rw [List.getD_eq_getElem?_getD, List.getD_eq_getElem?_getD, List.getElem?_append_left h]

theorem getD_append_length {α : Type} (l : List α) (x d : α) :
    (l ++ [x]).getD l.length d = x := by
  rw [List.getD_eq_getElem?_getD]
  rw [List.getElem?_append_right (Nat.le_refl _)]
  simp

theorem getD_mem {α : Type} {l : List α} {i : Nat} {d : α} (h : i < l.length) :
    l.getD i d ∈ l := by
  rw [List.getD_eq_getElem?_getD, List.getElem?_eq_getElem h]
  exact List.getElem_mem h

/-- Distinctness facts from the no-aliasing invariant, relative to a
decomposition of the tree's leaves around one descriptor. -/
theorem nodup_leaf_facts {t : KVNode} {ln : KVLeafNode} {pre post : List KVLeafNode}
    {prealloc : List Nat}
    (hsplit : treeLeaves t = pre ++ [ln] ++ post)
    (hnod : ((treeLeaves t).map (fun l => l.leaf) ++ prealloc).Nodup) :
    (∀ lnx, lnx ∈ pre ++ post → lnx.leaf ≠ ln.leaf) ∧
    (∀ lid ∈ prealloc, ∀ lnx ∈ treeLeaves t, lid ≠ lnx.leaf) := by
  have hd := List.Nodup.of_append_left hnod
  have hdisj := List.disjoint_of_nodup_append hnod
  constructor
  · intro lnx hlnx
    rw [hsplit] at hd
    rw [List.map_append, List.map_append] at hd
    have hmid : (pre.map (fun l => l.leaf) ++ ln.leaf ::
        post.map (fun l => l.leaf)).Nodup := by
      simpa using hd
    rw [List.nodup_middle, List.nodup_cons] at hmid
    intro hq
    apply hmid.1
    rcases List.mem_append.1 hlnx with h2 | h2
    · exact List.mem_append.2 (Or.inl (by rw [← hq]; exact List.mem_map_of_mem _ h2))
    · exact List.mem_append.2 (Or.inr (by rw [← hq]; exact List.mem_map_of_mem _ h2))
  · intro lid hlid lnx hlnx hq
    exact hdisj (by rw [hq]; exact List.mem_map_of_mem _ hlnx) hlid

theorem getD_replicate {α : Type} {n i : Nat} {x d : α} (hi : i < n) :
    (List.replicate n x).getD i d = x := by
  rw [List.getD_eq_getElem?_getD, List.getElem?_eq_getElem (by simpa using hi)]
  simp

/-- The fresh all-zero descriptor pairs with any all-zero persistent leaf. -/
theorem pairMirror_zero (lid : Nat) (pl : KVLeaf)
    (hzs : ∀ i, i < LEAF_KEYS → (pl.slots.getD i KVSlot.empty).ph = 0) :
    pairMirror
      { hashes := List.replicate LEAF_KEYS 0
        keys := List.replicate LEAF_KEYS ([] : Bytes)
        leaf := lid } pl := by
  intro i hi
  simp only
  rw [getD_replicate hi, hzs i hi]
  exact ⟨rfl, fun hq => absurd rfl hq⟩

/-- An all-zero heap leaf (free-list leaf or freshly allocated leaf). -/
def leafZero (pl : KVLeaf) : Prop :=
  ∀ i, i < LEAF_KEYS → (pl.slots.getD i KVSlot.empty).ph = 0

theorem preallocZeroB_spec {s : KVTreeState} (h : preallocZeroB s = true) :
    ∀ lid ∈ s.leavesPrealloc, leafZero (s.heap.getD lid KVLeaf.empty) := by
  unfold preallocZeroB at h
  rw [List.all_eq_true] at h
  intro lid hlid i hi
  have h2 := h lid hlid
  rw [List.all_eq_true] at h2
  by_cases hlen : i < (s.heap.getD lid KVLeaf.empty).slots.length
  · have h3 := h2 ((s.heap.getD lid KVLeaf.empty).slots.getD i KVSlot.empty)
      (getD_mem hlen)
    rwa [beq_iff_eq] at h3
  · rw [List.getD_eq_default _ _ (Nat.le_of_not_lt hlen)]
    rfl

theorem kvLeafEmpty_zero : leafZero KVLeaf.empty := by
  intro i hi
  rw [KVLeaf.empty, getD_replicate hi]
  rfl

/-- The head-leaf path of `Put` establishes the mirror invariant. -/
theorem putNewHead_mirror (s : KVTreeState) (h : Nat) (key value : Bytes)
    (hshape : stateShapeB s = true) (hpz : preallocZeroB s = true) :
    stateMirrorB (putNewHead s h key value false).2 = true := by
  obtain ⟨hheap, hpre, _⟩ := stateShapeB_spec hshape
  rcases hlast : s.leavesPrealloc.getLast? with _ | lid
  · -- fresh allocation at the end of the heap
    simp only [putNewHead, hlast, Bool.false_eq_true, if_false]
    unfold stateMirrorB
    rw [List.all_eq_true]
    intro ln hln
    rw [treeLeaves] at hln
    rcases List.mem_singleton.1 hln with rfl
    rw [leafMirrorB_iff]
    have hid : (leafFillSpecificSlot
        { hashes := List.replicate LEAF_KEYS 0, keys := List.replicate LEAF_KEYS [],
          leaf := s.heap.length } KVLeaf.empty h key value 0).1.leaf = s.heap.length := by
      unfold leafFillSpecificSlot lfssMirror
      split <;> rfl
    rw [hid, getD_append_length s.heap _ KVLeaf.empty]
    exact pairMirror_fill h key value 0 (pairMirror_zero _ _ kvLeafEmpty_zero)
      (by simp) (by simp) (by rw [KVLeaf.empty]; simp) (by decide)
      (Or.inl (by rw [getD_replicate (by decide)]))
  · -- reuse a free-list leaf
    have hlidmem : lid ∈ s.leavesPrealloc := by
      rcases List.mem_getLast?_eq_getLast (show lid ∈ s.leavesPrealloc.getLast? from hlast)
        with ⟨hne, heq⟩
      rw [heq]
      exact List.getLast_mem hne
    have hlidlt : lid < s.heap.length := hpre lid hlidmem
    simp only [putNewHead, hlast, Bool.false_eq_true, if_false]
    unfold stateMirrorB
    dsimp only
    rw [List.all_eq_true]
    intro ln hln
    rw [treeLeaves] at hln
    rcases List.mem_singleton.1 hln with rfl
    rw [leafMirrorB_iff]
    have hid : (leafFillSpecificSlot
        { hashes := List.replicate LEAF_KEYS 0, keys := List.replicate LEAF_KEYS [],
          leaf := lid } (s.heap.getD lid KVLeaf.empty) h key value 0).1.leaf = lid := by
      unfold leafFillSpecificSlot lfssMirror
      split <;> rfl
    rw [hid, getD_set_self hlidlt]
    exact pairMirror_fill h key value 0
      (pairMirror_zero _ _ (preallocZeroB_spec hpz lid hlidmem))
      (by simp) (by simp)
      (hheap _ (getD_mem hlidlt)) (by decide)
      (Or.inl (by rw [getD_replicate (by decide)]))

theorem lfssMirror_leaf (ln : KVLeafNode) (h : Nat) (key : Bytes) (slot : Nat) :
    (lfssMirror ln h key slot).leaf = ln.leaf := by
  unfold lfssMirror
  split <;> rfl

/-- The in-place path of `Put` preserves the mirror invariant. -/
theorem putFill_mirror (s : KVTreeState) (t : KVNode) (ln : KVLeafNode) (path : List Frame)
    (h : Nat) (key value : Bytes) (slot : Nat)
    (htop : s.treeTop = some t)
    (hsearch : leafSearchGo key t [] = some (ln, path))
    (hchoose : leafChooseSlot ln h key = some slot)
    (hshape : stateShapeB s = true) (hmir : stateMirrorB s = true) :
    stateMirrorB (putFill s ln path h key value slot false).2 = true := by
  obtain ⟨hheap, _, htree⟩ := stateShapeB_spec hshape
  obtain ⟨_, hlens, hnod⟩ := htree t htop
  obtain ⟨fs, hfs1, _, hfswf, hplug⟩ := leafSearchGo_shape key t [] ln path hsearch
  rw [List.append_nil] at hfs1
  subst hfs1
  obtain ⟨pre, post, hleaves⟩ := plugPath_leaves path hfswf
  have hsplit : treeLeaves t = pre ++ [ln] ++ post := by
    rw [← hplug, hleaves (KVNode.leafn ln), treeLeaves]
  obtain ⟨hother, _⟩ := nodup_leaf_facts hsplit hnod
  have hlnmem : ln ∈ treeLeaves t := by
    rw [hsplit]
    simp
  obtain ⟨hslot, hcond⟩ := leafChooseSlot_spec hchoose
  have hmirall : ∀ lx ∈ treeLeaves t, leafMirrorB s.heap lx = true := by
    intro lx hlx
    simp only [stateMirrorB, htop] at hmir
    rw [List.all_eq_true] at hmir
    exact hmir lx hlx
  have hlnlt : ln.leaf < s.heap.length := (hlens ln hlnmem).2.2
  simp only [putFill, Bool.false_eq_true, if_false]
  unfold stateMirrorB
  rw [List.all_eq_true]
  intro lx hlx
  rw [hleaves (KVNode.leafn (lfssMirror ln h key slot)), treeLeaves] at hlx
  rcases List.mem_append.1 hlx with hlx2 | hp
  · rcases List.mem_append.1 hlx2 with hp | hmid
    · have hne : lx.leaf ≠ ln.leaf := hother lx (List.mem_append.2 (Or.inl hp))
      rw [leafMirrorB_iff, getD_set_ne (fun hq => hne hq.symm)]
      rw [← leafMirrorB_iff]
      apply hmirall lx
      rw [hsplit]
      exact List.mem_append.2 (Or.inl (List.mem_append.2 (Or.inl hp)))
    · rcases List.mem_singleton.1 hmid with rfl
      rw [leafMirrorB_iff, lfssMirror_leaf, getD_set_self hlnlt]
      exact pairMirror_fill h key value slot
        (leafMirrorB_iff.1 (hmirall ln hlnmem))
        (hlens ln hlnmem).1 (hlens ln hlnmem).2.1
        (hheap _ (getD_mem hlnlt)) hslot hcond
  · have hne : lx.leaf ≠ ln.leaf := hother lx (List.mem_append.2 (Or.inr hp))
    rw [leafMirrorB_iff, getD_set_ne (fun hq => hne hq.symm)]
    rw [← leafMirrorB_iff]
    apply hmirall lx
    rw [hsplit]
    exact List.mem_append.2 (Or.inr hp)

/-- On a structurally well-formed tree, every frame the search appends to
the starting path is fully well-formed. -/
theorem leafSearchGo_fullWF (key : Bytes) (t : KVNode) :
    ∀ (path0 : List Frame) (ln : KVLeafNode) (p : List Frame),
      nodeShapeWF t = true →
      leafSearchGo key t path0 = some (ln, p) →
      ∀ f, f ∈ p → f ∈ path0 ∨ frameFullWF f :=
  match t with
  | KVNode.leafn ln0 => by
    intro path0 ln p _ hs f hf
    rw [leafSearchGo] at hs
    cases hs
    exact Or.inl hf
  | KVNode.inner ks cs => by
    intro path0 ln p hwf hs f hf
    rw [nodeShapeWF, Bool.and_eq_true, beq_iff_eq] at hwf
    obtain ⟨hlen, hforest⟩ := hwf
    rw [leafSearchGo] at hs
    obtain ⟨hidx, c, hc, he⟩ := leafSearchChild_some key cs (innerChildIdx ks key) _ ln p hs
    have hcwf : nodeShapeWF c = true := forestShapeWF_mem hforest (List.get?_mem hc)
    rcases leafSearchGo_fullWF key c _ ln p hcwf he f hf with hin | hfull
    · rcases List.mem_cons.1 hin with rfl | hin2
      · exact Or.inr ⟨⟨hidx, hlen⟩, hforest⟩
      · exact Or.inl hin2
    · exact Or.inr hfull
termination_by sizeOf t
decreasing_by
  have hmem := List.sizeOf_lt_of_mem (List.get?_mem hc)
  simp only [KVNode.inner.sizeOf_spec]
  omega

theorem leafFillEmptySlot_leaf (ln : KVLeafNode) (pl : KVLeaf) (h : Nat) (key value : Bytes) :
    (leafFillEmptySlot ln pl h key value).1.leaf = ln.leaf := by
  unfold leafFillEmptySlot
  split
  · exact lfssMirror_leaf _ _ _ _
  · rfl

/-- The two descriptor/leaf pairs produced by the split-and-fill of
`LeafSplitFull`: move every slot whose key sorts strictly above the split
key to the new leaf, then place the new record in the old or new leaf
according to the comparison with the split key. -/
def splitFilled (sk : Bytes) (ln : KVLeafNode) (lid : Nat) (oldPl newPl : KVLeaf)
    (h : Nat) (key value : Bytes) : KVLeafNode × KVLeafNode × KVLeaf × KVLeaf :=
  let newLn0 : KVLeafNode :=
    { hashes := List.replicate LEAF_KEYS 0, keys := List.replicate LEAF_KEYS [], leaf := lid }
  let moved := splitMoveScan sk LEAF_KEYS (ln, newLn0, oldPl, newPl)
  if cstrcmp key sk = Ordering.gt then
    let fn := leafFillEmptySlot moved.2.1 moved.2.2.2 h key value
    (moved.1, fn.1, moved.2.2.1, fn.2)
  else
    let fo := leafFillEmptySlot moved.1 moved.2.2.1 h key value
    (fo.1, moved.2.1, fo.2, moved.2.2.2)

/-- Both pairs produced by the split-and-fill mirror each other, and the
descriptor identifiers are the old leaf's and the acquired one. -/
theorem splitFilled_pairs (sk : Bytes) (ln : KVLeafNode) (lid : Nat) (oldPl newPl : KVLeaf)
    (h : Nat) (key value : Bytes)
    (hm : pairMirror ln oldPl) (hz : leafZero newPl)
    (hlnh : ln.hashes.length = LEAF_KEYS) (hlnk : ln.keys.length = LEAF_KEYS)
    (hop : oldPl.slots.length = LEAF_KEYS) (hnp : newPl.slots.length = LEAF_KEYS) :
    pairMirror (splitFilled sk ln lid oldPl newPl h key value).1
      (splitFilled sk ln lid oldPl newPl h key value).2.2.1 ∧
    pairMirror (splitFilled sk ln lid oldPl newPl h key value).2.1
      (splitFilled sk ln lid oldPl newPl h key value).2.2.2 ∧
    (splitFilled sk ln lid oldPl newPl h key value).1.leaf = ln.leaf ∧
    (splitFilled sk ln lid oldPl newPl h key value).2.1.leaf = lid := by
  have hwf0 : moveStWF (ln,
      ({ hashes := List.replicate LEAF_KEYS 0, keys := List.replicate LEAF_KEYS [],
         leaf := lid } : KVLeafNode), oldPl, newPl) :=
    ⟨hlnh, hlnk, by simp, by simp, hop, hnp⟩
  have hn0 : ∀ i, i < LEAF_KEYS →
      ({ hashes := List.replicate LEAF_KEYS 0, keys := List.replicate LEAF_KEYS [],
         leaf := lid } : KVLeafNode).hashes.getD i 0 = 0 := by
    intro i hi
    simp only
    rw [getD_replicate hi]
  have hmv := pairMirror_move sk ln _ oldPl newPl hm hz hn0 hwf0
  obtain ⟨w1, w2, w3, w4, w5, w6⟩ := splitMoveScan_wf sk LEAF_KEYS _ hwf0
  have hids := splitMoveScan_leaf_ids sk LEAF_KEYS (ln,
    ({ hashes := List.replicate LEAF_KEYS 0, keys := List.replicate LEAF_KEYS [],
       leaf := lid } : KVLeafNode), oldPl, newPl)
  simp only [splitFilled]
  by_cases htn : cstrcmp key sk = Ordering.gt
  · rw [if_pos htn]
    exact ⟨hmv.1, pairMirror_fillEmpty h key value hmv.2 w3 w4 w6, hids.1,
      by simp only [leafFillEmptySlot_leaf]; exact hids.2⟩
  · rw [if_neg htn]
    exact ⟨pairMirror_fillEmpty h key value hmv.1 w1 w2 w5, hmv.2,
      by simp only [leafFillEmptySlot_leaf]; exact hids.1, hids.2⟩

/-- Auxiliary: the state assembled after a split preserves the mirror
invariant, for any acquisition of the new persistent leaf. -/
theorem splitState_mirror (s : KVTreeState) (t : KVNode) (ln : KVLeafNode)
    (path : List Frame) (sk key : Bytes)
    (heap' : List KVLeaf) (lid : Nat) (chain2 pre2 : List Nat)
    (filled : KVLeafNode × KVLeafNode × KVLeaf × KVLeaf)
    (htop : s.treeTop = some t)
    (hsearch : leafSearchGo key t [] = some (ln, path))
    (hshape : stateShapeB s = true) (hmir : stateMirrorB s = true)
    (hlnlt2 : ln.leaf < heap'.length)
    (hlidlt : lid < heap'.length)
    (hlidne : ∀ lx ∈ treeLeaves t, lid ≠ lx.leaf)
    (hgetother : ∀ lx ∈ treeLeaves t,
      heap'.getD lx.leaf KVLeaf.empty = s.heap.getD lx.leaf KVLeaf.empty)
    (hf1 : pairMirror filled.1 filled.2.2.1)
    (hf2 : pairMirror filled.2.1 filled.2.2.2)
    (hf3 : filled.1.leaf = ln.leaf)
    (hf4 : filled.2.1.leaf = lid) :
    stateMirrorB
      { heap := (heap'.set ln.leaf filled.2.2.1).set lid filled.2.2.2
        chain := chain2
        treeTop := some (innerUpdateAfterSplit (KVNode.leafn filled.1)
          (KVNode.leafn filled.2.1) sk path)
        leavesPrealloc := pre2 } = true := by
  obtain ⟨hheap, hpre, htree⟩ := stateShapeB_spec hshape
  obtain ⟨hnwf, hlens, hnod⟩ := htree t htop
  obtain ⟨fs, hfs1, _, hfswf, hplug⟩ := leafSearchGo_shape key t [] ln path hsearch
  rw [List.append_nil] at hfs1
  subst hfs1
  have hfull : ∀ f ∈ path, frameShapeOK f := by
    intro f hf
    rcases leafSearchGo_fullWF key t [] ln path hnwf hsearch f hf with hin | hfw
    · exact absurd hin (List.not_mem_nil f)
    · exact hfw.1
  obtain ⟨pre, post, hleaves⟩ := plugPath_leaves path hfswf
  have hsplit : treeLeaves t = pre ++ [ln] ++ post := by
    rw [← hplug, hleaves (KVNode.leafn ln), treeLeaves]
  obtain ⟨hother, _⟩ := nodup_leaf_facts hsplit hnod
  have hlnmem : ln ∈ treeLeaves t := by
    rw [hsplit]
    simp
  have hlidnel : lid ≠ ln.leaf := hlidne ln hlnmem
  have hmirall : ∀ lx ∈ treeLeaves t, leafMirrorB s.heap lx = true := by
    intro lx hlx
    simp only [stateMirrorB, htop] at hmir
    rw [List.all_eq_true] at hmir
    exact hmir lx hlx
  unfold stateMirrorB
  rw [List.all_eq_true]
  intro lx hlx
  have hperm := innerUpdate_leaves path hfull (KVNode.leafn filled.1)
    (KVNode.leafn filled.2.1) sk
  have hmem := hperm.mem_iff.1 hlx
  rw [hleaves (KVNode.leafn filled.1), treeLeaves, treeLeaves] at hmem
  rcases List.mem_append.1 hmem with hmem2 | hnewm
  · rcases List.mem_append.1 hmem2 with hmem3 | hpost
    · rcases List.mem_append.1 hmem3 with hpre2 | hmid
      · have hlxmem : lx ∈ treeLeaves t := by
          rw [hsplit]
          exact List.mem_append.2 (Or.inl (List.mem_append.2 (Or.inl hpre2)))
        have hne1 : lx.leaf ≠ ln.leaf := hother lx (List.mem_append.2 (Or.inl hpre2))
        rw [leafMirrorB_iff, getD_set_ne (hlidne lx hlxmem),
          getD_set_ne (fun hq => hne1 hq.symm), hgetother lx hlxmem, ← leafMirrorB_iff]
        exact hmirall lx hlxmem
      · rcases List.mem_singleton.1 hmid with rfl
        rw [leafMirrorB_iff, hf3, getD_set_ne hlidnel, getD_set_self hlnlt2]
        exact hf1
    · have hlxmem : lx ∈ treeLeaves t := by
        rw [hsplit]
        exact List.mem_append.2 (Or.inr hpost)
      have hne1 : lx.leaf ≠ ln.leaf := hother lx (List.mem_append.2 (Or.inr hpost))
      rw [leafMirrorB_iff, getD_set_ne (hlidne lx hlxmem),
        getD_set_ne (fun hq => hne1 hq.symm), hgetother lx hlxmem, ← leafMirrorB_iff]
      exact hmirall lx hlxmem
  · rcases List.mem_singleton.1 hnewm with rfl
    rw [leafMirrorB_iff, hf4, getD_set_self (by rw [List.length_set]; exact hlidlt)]
    exact hf2

/-- The split path of `Put` preserves the mirror invariant. -/
theorem putSplit_mirror (s : KVTreeState) (t : KVNode) (ln : KVLeafNode) (path : List Frame)
    (h : Nat) (key value : Bytes)
    (htop : s.treeTop = some t)
    (hsearch : leafSearchGo key t [] = some (ln, path))
    (hshape : stateShapeB s = true) (hmir : stateMirrorB s = true)
    (hpz : preallocZeroB s = true) :
    stateMirrorB (putSplit s ln path h key value false).2 = true := by
  obtain ⟨hheap, hpre, htree⟩ := stateShapeB_spec hshape
  obtain ⟨hnwf, hlens, hnod⟩ := htree t htop
  have hlnmem : ln ∈ treeLeaves t := search_leaf_mem hsearch
  have hlnlt : ln.leaf < s.heap.length := (hlens ln hlnmem).2.2
  have hmirall : ∀ lx ∈ treeLeaves t, leafMirrorB s.heap lx = true := by
    intro lx hlx
    simp only [stateMirrorB, htop] at hmir
    rw [List.all_eq_true] at hmir
    exact hmir lx hlx
  have hdisj : ∀ lid2 ∈ s.leavesPrealloc, ∀ lnx ∈ treeLeaves t, lid2 ≠ lnx.leaf := by
    intro lid2 h2 lnx h3 hq
    exact List.disjoint_of_nodup_append hnod
      (by rw [hq]; exact List.mem_map_of_mem _ h3) h2
  rcases hlast : s.leavesPrealloc.getLast? with _ | lid
  · -- fresh persistent leaf appended at the end of the heap
    simp only [putSplit, hlast, Bool.false_eq_true, if_false]
    have hpairs := splitFilled_pairs ((splitCandidates ln key).getD LEAF_KEYS_MIDPOINT [])
      ln s.heap.length
      ((s.heap ++ [KVLeaf.empty]).getD ln.leaf KVLeaf.empty)
      ((s.heap ++ [KVLeaf.empty]).getD s.heap.length KVLeaf.empty) h key value
      (by rw [getD_append_left hlnlt]; exact leafMirrorB_iff.1 (hmirall ln hlnmem))
      (by rw [getD_append_length]; exact kvLeafEmpty_zero)
      (hlens ln hlnmem).1 (hlens ln hlnmem).2.1
      (by rw [getD_append_left hlnlt]; exact hheap _ (getD_mem hlnlt))
      (by rw [getD_append_length, KVLeaf.empty]; simp)
    exact splitState_mirror s t ln path _ key (s.heap ++ [KVLeaf.empty]) s.heap.length
      (s.heap.length :: s.chain) s.leavesPrealloc _ htop hsearch hshape hmir
      (by rw [List.length_append]; omega)
      (by rw [List.length_append]; simp)
      (fun lx hlx hq => by
        have h2 := (hlens lx hlx).2.2
        rw [← hq] at h2
        exact Nat.lt_irrefl _ h2)
      (fun lx hlx => getD_append_left (hlens lx hlx).2.2)
      hpairs.1 hpairs.2.1 hpairs.2.2.1 hpairs.2.2.2
  · -- pop the free list
    have hlidmem : lid ∈ s.leavesPrealloc := by
      rcases List.mem_getLast?_eq_getLast (show lid ∈ s.leavesPrealloc.getLast? from hlast)
        with ⟨hne, heq⟩
      rw [heq]
      exact List.getLast_mem hne
    have hlidlt : lid < s.heap.length := hpre lid hlidmem
    simp only [putSplit, hlast, Bool.false_eq_true, if_false]
    have hpairs := splitFilled_pairs ((splitCandidates ln key).getD LEAF_KEYS_MIDPOINT [])
      ln lid (s.heap.getD ln.leaf KVLeaf.empty) (s.heap.getD lid KVLeaf.empty) h key value
      (leafMirrorB_iff.1 (hmirall ln hlnmem))
      (preallocZeroB_spec hpz lid hlidmem)
      (hlens ln hlnmem).1 (hlens ln hlnmem).2.1
      (hheap _ (getD_mem hlnlt)) (hheap _ (getD_mem hlidlt))
    exact splitState_mirror s t ln path _ key s.heap lid s.chain
      s.leavesPrealloc.dropLast _ htop hsearch hshape hmir hlnlt hlidlt
      (hdisj lid hlidmem)
      (fun lx hlx => rfl)
      hpairs.1 hpairs.2.1 hpairs.2.2.1 hpairs.2.2.2

/-- `KVTree::Put` preserves the mirror invariant on success paths and when
no transaction fault is injected. -/
theorem put_mirror (s : KVTreeState) (key value : Bytes)
    (hshape : stateShapeB s = true) (hmir : stateMirrorB s = true)
    (hpz : preallocZeroB s = true) :
    stateMirrorB (s.put key value false).2 = true := by
  rcases htop : s.treeTop with _ | t
  · simp only [KVTreeState.put, htop]
    exact putNewHead_mirror s (PearsonHash key) key value hshape hpz
  · rcases hsearch : leafSearchGo key t [] with _ | ⟨ln, path⟩
    · simp only [KVTreeState.put, htop, hsearch]
      exact hmir
    · rcases hchoose : leafChooseSlot ln (PearsonHash key) key with _ | slot
      · simp only [KVTreeState.put, htop, hsearch, hchoose]
        exact putSplit_mirror s t ln path (PearsonHash key) key value htop hsearch
          hshape hmir hpz
      · simp only [KVTreeState.put, htop, hsearch, hchoose]
        exact putFill_mirror s t ln path (PearsonHash key) key value slot htop hsearch
          hchoose hshape hmir

/-- Clearing one slot preserves the mirror relation on a leaf pair. -/
theorem pairMirror_clear {ln : KVLeafNode} {pl : KVLeaf} (slot : Nat)
    (hm : pairMirror ln pl)
    (hlh : ln.hashes.length = LEAF_KEYS) (hps : pl.slots.length = LEAF_KEYS) :
    pairMirror { ln with hashes := ln.hashes.set slot 0, keys := ln.keys.set slot [] }
      ⟨pl.slots.set slot ((pl.slots.getD slot KVSlot.empty).clear)⟩ := by
  intro i hi
  simp only
  by_cases his : i = slot
  · subst his
    rw [getD_set_self (by rw [hlh]; exact hi), getD_set_self (by rw [hps]; exact hi)]
    exact ⟨rfl, fun hq => absurd rfl hq⟩
  · rw [getD_set_ne (fun hq => his hq.symm), getD_set_ne (fun hq => his hq.symm),
      getD_set_ne (fun hq => his hq.symm)]
    exact hm i hi

/-- `KVTree::Remove` with a successful transaction preserves the mirror
invariant. -/
theorem remove_mirror (s : KVTreeState) (key : Bytes)
    (hshape : stateShapeB s = true) (hmir : stateMirrorB s = true) :
    stateMirrorB (s.remove key false).2 = true := by
  obtain ⟨hheap, hpre, htree⟩ := stateShapeB_spec hshape
  rcases htop : s.treeTop with _ | t
  · simp only [KVTreeState.remove, htop]
    exact hmir
  · rcases hsearch : leafSearchGo key t [] with _ | ⟨ln, path⟩
    · simp only [KVTreeState.remove, htop, hsearch]
      exact hmir
    · rcases hscan : slotMatchScan ln.hashes ln.keys (PearsonHash key) key LEAF_KEYS
        with _ | slot
      · simp only [KVTreeState.remove, htop, hsearch, hscan]
        exact hmir
      · obtain ⟨hnwf, hlens, hnod⟩ := htree t htop
        obtain ⟨fs, hfs1, _, hfswf, hplug⟩ := leafSearchGo_shape key t [] ln path hsearch
        rw [List.append_nil] at hfs1
        subst hfs1
        obtain ⟨pre, post, hleaves⟩ := plugPath_leaves path hfswf
        have hsplit : treeLeaves t = pre ++ [ln] ++ post := by
          rw [← hplug, hleaves (KVNode.leafn ln), treeLeaves]
        obtain ⟨hother, _⟩ := nodup_leaf_facts hsplit hnod
        have hlnmem : ln ∈ treeLeaves t := by
          rw [hsplit]
          simp
        have hlnlt : ln.leaf < s.heap.length := (hlens ln hlnmem).2.2
        have hmirall : ∀ lx ∈ treeLeaves t, leafMirrorB s.heap lx = true := by
          intro lx hlx
          simp only [stateMirrorB, htop] at hmir
          rw [List.all_eq_true] at hmir
          exact hmir lx hlx
        simp only [KVTreeState.remove, htop, hsearch, hscan, Bool.false_eq_true, if_false]
        unfold stateMirrorB
        rw [List.all_eq_true]
        intro lx hlx
        rw [hleaves, treeLeaves] at hlx
        rcases List.mem_append.1 hlx with hlx2 | hp
        · rcases List.mem_append.1 hlx2 with hp | hmid
          · have hne : lx.leaf ≠ ln.leaf := hother lx (List.mem_append.2 (Or.inl hp))
            rw [leafMirrorB_iff, getD_set_ne (fun hq => hne hq.symm), ← leafMirrorB_iff]
            apply hmirall lx
            rw [hsplit]
            exact List.mem_append.2 (Or.inl (List.mem_append.2 (Or.inl hp)))
          · rcases List.mem_singleton.1 hmid with rfl
            rw [leafMirrorB_iff]
            show pairMirror _ ((s.heap.set ln.leaf _).getD ln.leaf KVLeaf.empty)
            rw [getD_set_self hlnlt]
            exact pairMirror_clear slot (leafMirrorB_iff.1 (hmirall ln hlnmem))
              (hlens ln hlnmem).1 (hheap _ (getD_mem hlnlt))
        · have hne : lx.leaf ≠ ln.leaf := hother lx (List.mem_append.2 (Or.inr hp))
          rw [leafMirrorB_iff, getD_set_ne (fun hq => hne hq.symm), ← leafMirrorB_iff]
          apply hmirall lx
          rw [hsplit]
          exact List.mem_append.2 (Or.inr hp)

/-- Observer: the mirrored key array of the volatile root when it is a
single leaf descriptor. -/
def topLeafKeys (s : KVTreeState) : List Bytes :=
  match s.treeTop with
  | some (KVNode.leafn ln) => ln.keys
  | _ => []

/-- Observer: the mirrored hash array of the volatile root when it is a
single leaf descriptor. -/
def topLeafHashes (s : KVTreeState) : List Nat :=
  match s.treeTop with
  | some (KVNode.leafn ln) => ln.hashes
  | _ => []

/-- C5 counterexample: store the key `[97, 0, 98]` (an embedded zero byte)
in a fresh pool and run recovery on the resulting persistent image.  The
hash mirror is exact and nonzero, but the rebuilt descriptor's mirrored key
for slot `0` is `[97]` — `Recover` copies the slot's key through a
`char*`-to-`std::string` assignment (`leafnode->keys[slot] = key`), which
stops at the first zero byte — while the backing persistent slot stores the
full key `[97, 0, 98]`.  The claimed equality `L.keys[i] == L.leaf.slots[i]`
key therefore fails after a successfully completed recovery. -/
theorem C5_counterexample :
    (topLeafKeys (KVTreeState.recover
        ((KVTreeState.fresh.put [97, 0, 98] [5] false).2).heap
        ((KVTreeState.fresh.put [97, 0, 98] [5] false).2).chain)).getD 0 [] = [97] ∧
    (topLeafHashes (KVTreeState.recover
        ((KVTreeState.fresh.put [97, 0, 98] [5] false).2).heap
        ((KVTreeState.fresh.put [97, 0, 98] [5] false).2).chain)).getD 0 0 =
      ((((KVTreeState.fresh.put [97, 0, 98] [5] false).2).heap.getD 0
        KVLeaf.empty).slots.getD 0 KVSlot.empty).ph ∧
    ((((KVTreeState.fresh.put [97, 0, 98] [5] false).2).heap.getD 0
        KVLeaf.empty).slots.getD 0 KVSlot.empty).ph ≠ 0 ∧
    (((((KVTreeState.fresh.put [97, 0, 98] [5] false).2).heap.getD 0
        KVLeaf.empty).slots.getD 0 KVSlot.empty).kv.getD []).take
      ((((KVTreeState.fresh.put [97, 0, 98] [5] false).2).heap.getD 0
        KVLeaf.empty).slots.getD 0 KVSlot.empty).ks = [97, 0, 98] ∧
    ([97] : Bytes) ≠ [97, 0, 98] := by
  exact ⟨by decide, by decide, by decide, by decide, by decide⟩

/-- C5 (amended): after every successfully completed operation, every
volatile leaf descriptor `L` and slot `i < LEAF_KEYS` satisfy
`L.hashes[i] = L.leaf.slots[i].hash` exactly, and whenever that hash is
nonzero the mirrored key `L.keys[i]` equals the persistent slot's key *as a
C string* (byte-identical up to the first zero byte) — not byte-identical in
full, as recovery truncates mirrored keys at embedded zero bytes (see the
counterexample).  Concretely: recovery establishes the invariant
unconditionally, and `Put` and `Remove` (successful, no fault injected)
preserve it on any structurally well-formed state (`stateShapeB`, with
all-zero free-list leaves, `preallocZeroB`). -/
theorem C5_mirror_invariant (s : KVTreeState) (key value : Bytes)
    (heap : List KVLeaf) (chain : List Nat)
    (hshape : stateShapeB s = true) (hmir : stateMirrorB s = true)
    (hpz : preallocZeroB s = true) :
    stateMirrorB (KVTreeState.recover heap chain) = true ∧
    stateMirrorB (s.put key value false).2 = true ∧
    stateMirrorB (s.remove key false).2 = true :=
  ⟨recover_mirror heap chain, put_mirror s key value hshape hmir hpz,
    remove_mirror s key hshape hmir⟩

/-- Witness for C5: the invariant hypotheses hold on the state obtained by
one `put` on a fresh pool, and the theorem applies there. -/
theorem C5_witness :
    stateShapeB (KVTreeState.fresh.put [97] [5] false).2 = true ∧
    stateMirrorB (KVTreeState.fresh.put [97] [5] false).2 = true ∧
    preallocZeroB (KVTreeState.fresh.put [97] [5] false).2 = true ∧
    (stateMirrorB (KVTreeState.recover
        ((KVTreeState.fresh.put [97] [5] false).2).heap
        ((KVTreeState.fresh.put [97] [5] false).2).chain) = true ∧
      stateMirrorB (((KVTreeState.fresh.put [97] [5] false).2).put [98] [6] false).2 = true ∧
      stateMirrorB (((KVTreeState.fresh.put [97] [5] false).2).remove [98] false).2 = true) :=
  ⟨by decide, by decide, by decide,
    C5_mirror_invariant (KVTreeState.fresh.put [97] [5] false).2 [98] [6]
      ((KVTreeState.fresh.put [97] [5] false).2).heap
      ((KVTreeState.fresh.put [97] [5] false).2).chain
      (by decide) (by decide) (by decide)⟩

/-! ## The C-string order invariant of the inner nodes (C6) -/

theorem cstr_lt_bytes_lt : ∀ (a b : Bytes), cstrcmp a b = Ordering.lt →
    bytesCmp a b = Ordering.lt := by
  intro a
  induction a with
  | nil =>
    intro b h
    unfold cstrcmp at h
    rcases b with _ | ⟨y, b2⟩
    · simp [cstr, bytesCmp] at h
    · by_cases hy : y = 0
      · subst hy
        simp [cstr, List.takeWhile_cons, bytesCmp] at h
      · rw [bytesCmp]
    | cons x a2 ih =>
    intro b h
    unfold cstrcmp at h
    by_cases hx : x = 0
    · subst hx
      rcases b with _ | ⟨y, b2⟩
      · simp [cstr, List.takeWhile_cons, bytesCmp] at h
      · by_cases hy : y = 0
        · subst hy
          simp [cstr, List.takeWhile_cons, bytesCmp] at h
        · rw [bytesCmp, if_pos (Nat.pos_of_ne_zero hy)]
    · rcases b with _ | ⟨y, b2⟩
      · simp [cstr, List.takeWhile_cons, hx, bytesCmp] at h
      · by_cases hy : y = 0
        · subst hy
          simp [cstr, List.takeWhile_cons, hx, bytesCmp] at h
        · rw [cstr, cstr, List.takeWhile_cons, List.takeWhile_cons] at h
          simp only [bne_iff_ne, ne_eq, hx, hy, not_false_iff, if_true] at h
          rw [bytesCmp] at h
          rw [bytesCmp]
          by_cases hlt : x < y
          · rw [if_pos hlt] at h ⊢
          · rw [if_neg hlt] at h ⊢
            by_cases hgt : y < x
            · rw [if_pos hgt] at h ⊢
              exact h
            · rw [if_neg hgt] at h ⊢
              exact ih b2 h

theorem cstrcmp_lt_trans {a b c : Bytes} (h1 : cstrcmp a b = Ordering.lt)
    (h2 : cstrcmp b c = Ordering.lt) : cstrcmp a c = Ordering.lt :=
  bytesCmp_lt_trans h1 h2

theorem cstrcmp_gt_trans {a b c : Bytes} (h1 : cstrcmp a b = Ordering.gt)
    (h2 : cstrcmp b c = Ordering.gt) : cstrcmp a c = Ordering.gt :=
  cstrcmp_gt_iff_lt.2 (cstrcmp_lt_trans (cstrcmp_gt_iff_lt.1 h2) (cstrcmp_gt_iff_lt.1 h1))

/-- Strict exclusive lower bound in C-string (`strcmp`) order
(`none` = unbounded). -/
def sepLB : Option Bytes → Bytes → Bool
  | none, _ => true
  | some l, k => cstrcmp k l == Ordering.gt

/-- Strict upper bound for separator keys in C-string order
(`none` = unbounded). -/
def sepUB : Option Bytes → Bytes → Bool
  | none, _ => true
  | some h, k => cstrcmp k h == Ordering.lt

/-- Inclusive upper bound for stored keys in C-string order. -/
def keyUB : Option Bytes → Bytes → Bool
  | none, _ => true
  | some h, k => cstrcmp k h != Ordering.gt

mutual
/-- The C-string order invariant: every stored (nonzero-hash) mirror key of
the subtree lies strictly above `lo` and at or below `hi` in `strcmp` order;
inner separators are strictly ascending and strictly below `hi`. -/
def treeOrderedB (lo hi : Option Bytes) : KVNode → Bool
  | KVNode.leafn ln => (List.range LEAF_KEYS).all fun i =>
      (ln.hashes.getD i 0 == 0) ||
        (sepLB lo (ln.keys.getD i []) && keyUB hi (ln.keys.getD i []))
  | KVNode.inner ks cs => chainB lo hi ks cs

/-- Order of a separator/child chain: child `i` lies between separator
`i - 1` (exclusive) and separator `i` (inclusive); each separator is in
`(lo, hi)`. -/
def chainB (lo hi : Option Bytes) : List Bytes → List KVNode → Bool
  | [], [c] => treeOrderedB lo hi c
  | k :: ks, c :: cs =>
      treeOrderedB lo (some k) c && sepLB lo k && sepUB hi k && chainB (some k) hi ks cs
  | _, _ => false
end

theorem chainB_lengths : ∀ (ks : List Bytes) (cs : List KVNode) (lo hi : Option Bytes),
    chainB lo hi ks cs = true → cs.length = ks.length + 1 := by
  intro ks
  induction ks with
  | nil =>
    intro cs lo hi h
    rcases cs with _ | ⟨c, _ | ⟨d, cs2⟩⟩ <;> simp [chainB] at h ⊢
  | cons k ks ih =>
    intro cs lo hi h
    rcases cs with _ | ⟨c, cs2⟩
    · simp [chainB] at h
    · rw [chainB, Bool.and_eq_true, Bool.and_eq_true, Bool.and_eq_true] at h
      have := ih cs2 (some k) hi h.2
      simp [this]

/-- The `strcmp`-order bounds of the hole described by a search path
(innermost frame first): the exclusive lower and the upper bound of the
subtree the path points at, given that the root is unbounded. -/
def holeBounds : List Frame → Option Bytes × Option Bytes
  | [] => (none, none)
  | f :: rest =>
    ((if f.idx = 0 then (holeBounds rest).1 else some (f.keys.getD (f.idx - 1) [])),
     (if f.idx = f.keys.length then (holeBounds rest).2 else some (f.keys.getD f.idx [])))

/-- Order of a separator/child chain with a hole at child position `p`:
all conditions of `chainB` except the subtree condition of child `p`. -/
def chainHoleB (lo hi : Option Bytes) : List Bytes → List KVNode → Nat → Bool
  | [], [_], 0 => true
  | k :: ks, _ :: cs, 0 => sepLB lo k && sepUB hi k && chainB (some k) hi ks cs
  | k :: ks, c :: cs, p + 1 =>
      treeOrderedB lo (some k) c && sepLB lo k && sepUB hi k && chainHoleB (some k) hi ks cs p
  | _, _, _ => false

/-- Order of all frames of a path: each frame's chain is ordered except at
the hole, and no frame exceeds `INNER_KEYS` separators. -/
def pathOrdB : List Frame → Bool
  | [] => true
  | f :: rest =>
      chainHoleB (holeBounds rest).1 (holeBounds rest).2 f.keys f.children f.idx &&
      decide (f.keys.length ≤ INNER_KEYS) && pathOrdB rest

/-- Filling the hole of an ordered chain-with-hole with a subtree ordered
within the hole's bounds yields an ordered chain. -/
theorem chainHoleB_plug : ∀ (p : Nat) (ks : List Bytes) (cs : List KVNode)
    (lo hi : Option Bytes) (n : KVNode),
    chainHoleB lo hi ks cs p = true →
    treeOrderedB (if p = 0 then lo else some (ks.getD (p - 1) []))
      (if p = ks.length then hi else some (ks.getD p [])) n = true →
    chainB lo hi ks (cs.set p n) = true := by
  intro p
  induction p with
  | zero =>
    intro ks cs lo hi n hc hn
    rcases ks with _ | ⟨k, ks2⟩
    · rcases cs with _ | ⟨c, _ | ⟨d, cs2⟩⟩
      · simp [chainHoleB] at hc
      · simp only [if_pos rfl] at hn
        rw [List.set]
        rw [chainB]
        exact hn
      · simp [chainHoleB] at hc
    · rcases cs with _ | ⟨c, cs2⟩
      · simp [chainHoleB] at hc
      · rw [chainHoleB, Bool.and_eq_true, Bool.and_eq_true] at hc
        simp only [if_pos rfl, List.length_cons, Nat.zero_ne_add_one, if_false,
          List.getD_cons_zero] at hn
        rw [List.set]
        rw [chainB, Bool.and_eq_true, Bool.and_eq_true, Bool.and_eq_true]
        exact ⟨⟨⟨hn, hc.1.1⟩, hc.1.2⟩, hc.2⟩
  | succ p ih =>
    intro ks cs lo hi n hc hn
    rcases ks with _ | ⟨k, ks2⟩
    · rcases cs with _ | ⟨c, cs2⟩ <;> simp [chainHoleB] at hc
    · rcases cs with _ | ⟨c, cs2⟩
      · simp [chainHoleB] at hc
      · rw [chainHoleB, Bool.and_eq_true, Bool.and_eq_true, Bool.and_eq_true] at hc
        rw [List.set]
        rw [chainB, Bool.and_eq_true, Bool.and_eq_true, Bool.and_eq_true]
        refine ⟨⟨⟨hc.1.1.1, hc.1.1.2⟩, hc.1.2⟩, ?_⟩
        apply ih ks2 cs2 (some k) hi n hc.2
        have he1 : (if p + 1 = 0 then lo else some ((k :: ks2).getD (p + 1 - 1) [])) =
            (if p = 0 then some k else some (ks2.getD (p - 1) [])) := by
          cases p with
          | zero => simp
          | succ q => simp
        have he2 : (if p + 1 = (k :: ks2).length then hi else some ((k :: ks2).getD (p + 1) [])) =
            (if p = ks2.length then hi else some (ks2.getD p [])) := by
          by_cases hq : p = ks2.length
          · simp [hq]
          · rw [if_neg hq, if_neg (by simpa using hq)]
            simp
        rw [he1, he2] at hn
        exact hn

/-- Plugging a subtree ordered within the hole's bounds back along an
ordered path yields a tree ordered at the root. -/
theorem plugPath_ordered : ∀ (path : List Frame) (n : KVNode),
    pathOrdB path = true →
    treeOrderedB (holeBounds path).1 (holeBounds path).2 n = true →
    treeOrderedB none none (plugPath n path) = true := by
  intro path
  induction path with
  | nil =>
    intro n _ hn
    rw [plugPath]
    exact hn
  | cons f rest ih =>
    intro n hp hn
    rw [pathOrdB, Bool.and_eq_true, Bool.and_eq_true] at hp
    have hstep : plugPath n (f :: rest) = plugPath (plugFrame n f) rest := rfl
    rw [hstep]
    apply ih _ hp.2
    rw [plugFrame, treeOrderedB]
    exact chainHoleB_plug f.idx f.keys f.children _ _ n hp.1.1 hn

theorem ordBeqEq {a b : Ordering} : (a == b) = true ↔ a = b := by
  cases a <;> cases b <;> decide

theorem sepLB_trans {lo : Option Bytes} {a b : Bytes} (h1 : sepLB lo a = true)
    (h2 : cstrcmp b a = Ordering.gt) : sepLB lo b = true := by
  rcases lo with _ | l
  · rfl
  · rw [sepLB, ordBeqEq] at h1 ⊢
    exact cstrcmp_gt_trans h2 h1

theorem sepUB_trans {hi : Option Bytes} {a b : Bytes} (h1 : cstrcmp a b = Ordering.lt)
    (h2 : sepUB hi b = true) : sepUB hi a = true := by
  rcases hi with _ | h
  · rfl
  · rw [sepUB, ordBeqEq] at h2 ⊢
    exact cstrcmp_lt_trans h1 h2

/-- Inserting the split key and the new right node at the hole of an ordered
chain-with-hole: the insertion position of `InnerUpdateAfterSplit` lands
exactly at the hole, the split key respects the chain's outer bounds, and
the extended chain is ordered — provided the split key lies strictly
between the hole's bounds in `strcmp` order. -/
theorem chainHoleB_insert : ∀ (p : Nat) (ks : List Bytes) (cs : List KVNode)
    (lo hi : Option Bytes) (nl nr : KVNode) (sk : Bytes),
    chainHoleB lo hi ks cs p = true →
    sepLB (if p = 0 then lo else some (ks.getD (p - 1) [])) sk = true →
    sepUB (if p = ks.length then hi else some (ks.getD p [])) sk = true →
    treeOrderedB (if p = 0 then lo else some (ks.getD (p - 1) [])) (some sk) nl = true →
    treeOrderedB (some sk) (if p = ks.length then hi else some (ks.getD p [])) nr = true →
    insertIdx ks sk = p ∧ sepLB lo sk = true ∧ sepUB hi sk = true ∧
    chainB lo hi (ks.insertIdx p sk) ((cs.set p nl).insertIdx (p + 1) nr) = true := by
  intro p
  induction p with
  | zero =>
    intro ks cs lo hi nl nr sk hc hlb hub hnl hnr
    rcases ks with _ | ⟨k, ks2⟩
    · rcases cs with _ | ⟨c, _ | ⟨d, cs2⟩⟩
      · simp [chainHoleB] at hc
      · simp only [if_pos rfl] at hlb hub hnl hnr
        refine ⟨rfl, hlb, hub, ?_⟩
        rw [List.insertIdx_zero, List.set, List.insertIdx_succ_cons, List.insertIdx_zero]
        rw [chainB, Bool.and_eq_true, Bool.and_eq_true, Bool.and_eq_true]
        exact ⟨⟨⟨hnl, hlb⟩, hub⟩, hnr⟩
      · simp [chainHoleB] at hc
    · rcases cs with _ | ⟨c, cs2⟩
      · simp [chainHoleB] at hc
      · rw [chainHoleB, Bool.and_eq_true, Bool.and_eq_true] at hc
        simp only [if_pos rfl, List.length_cons, Nat.zero_ne_add_one, if_false,
          List.getD_cons_zero] at hlb hub hnl hnr
        have hskk : cstrcmp sk k = Ordering.lt := by
          rw [sepUB, ordBeqEq] at hub
          exact hub
        have hksk : bytesCmp k sk = Ordering.gt :=
          bytesCmp_gt_iff_lt.2 (cstr_lt_bytes_lt sk k hskk)
        refine ⟨?_, hlb, sepUB_trans hskk hc.1.2, ?_⟩
        · rw [insertIdx, List.findIdx_cons, hksk]
          rfl
        · rw [List.insertIdx_zero, List.set, List.insertIdx_succ_cons, List.insertIdx_zero]
          rw [chainB, Bool.and_eq_true, Bool.and_eq_true, Bool.and_eq_true]
          refine ⟨⟨⟨hnl, hlb⟩, sepUB_trans hskk hc.1.2⟩, ?_⟩
          rw [chainB, Bool.and_eq_true, Bool.and_eq_true, Bool.and_eq_true]
          exact ⟨⟨⟨hnr, by rw [sepLB, ordBeqEq]; exact cstrcmp_gt_iff_lt.2 hskk⟩,
            hc.1.2⟩, hc.2⟩
  | succ p ih =>
    intro ks cs lo hi nl nr sk hc hlb hub hnl hnr
    rcases ks with _ | ⟨k, ks2⟩
    · rcases cs with _ | ⟨c, cs2⟩ <;> simp [chainHoleB] at hc
    · rcases cs with _ | ⟨c, cs2⟩
      · simp [chainHoleB] at hc
      · rw [chainHoleB, Bool.and_eq_true, Bool.and_eq_true, Bool.and_eq_true] at hc
        have he1 : (if p + 1 = 0 then lo else some ((k :: ks2).getD (p + 1 - 1) [])) =
            (if p = 0 then some k else some (ks2.getD (p - 1) [])) := by
          cases p with
          | zero => simp
          | succ q => simp
        have he2 : (if p + 1 = (k :: ks2).length then hi else some ((k :: ks2).getD (p + 1) [])) =
            (if p = ks2.length then hi else some (ks2.getD p [])) := by
          by_cases hq : p = ks2.length
          · simp [hq]
          · rw [if_neg hq, if_neg (by simpa using hq)]
            simp
        rw [he1] at hlb hnl
        rw [he2] at hub hnr
        obtain ⟨hidx, hlb2, hub2, hchain⟩ := ih ks2 cs2 (some k) hi nl nr sk hc.2 hlb hub hnl hnr
        have hksk : cstrcmp k sk = Ordering.lt := by
          rw [sepLB, ordBeqEq] at hlb2
          exact cstrcmp_gt_iff_lt.1 hlb2
        have hkskb : bytesCmp k sk = Ordering.lt := cstr_lt_bytes_lt k sk hksk
        have hlb2b : sepLB (some k) sk = true := by
          rw [sepLB, ordBeqEq]
          exact cstrcmp_gt_iff_lt.2 hksk
        refine ⟨?_, sepLB_trans hc.1.1.2 (by rw [sepLB, ordBeqEq] at hlb2b; exact hlb2b),
          hub2, ?_⟩
        · rw [insertIdx] at hidx ⊢
          rw [List.findIdx_cons, hkskb]
          show (bif false then 0
            else ks2.findIdx (fun x => bytesCmp x sk == Ordering.gt) + 1) = p + 1
          rw [cond_false, hidx]
        · rw [List.insertIdx_succ_cons, List.set, List.insertIdx_succ_cons]
          rw [chainB, Bool.and_eq_true, Bool.and_eq_true, Bool.and_eq_true]
          exact ⟨⟨⟨hc.1.1.1, hc.1.1.2⟩, hc.1.2⟩, hchain⟩

theorem chainHoleB_lengths : ∀ (p : Nat) (ks : List Bytes) (cs : List KVNode)
    (lo hi : Option Bytes), chainHoleB lo hi ks cs p = true →
    p ≤ ks.length ∧ cs.length = ks.length + 1 := by
  intro p
  induction p with
  | zero =>
    intro ks cs lo hi h
    rcases ks with _ | ⟨k, ks2⟩
    · rcases cs with _ | ⟨c, _ | ⟨d, cs2⟩⟩ <;> simp [chainHoleB] at h ⊢
    · rcases cs with _ | ⟨c, cs2⟩
      · simp [chainHoleB] at h
      · rw [chainHoleB, Bool.and_eq_true, Bool.and_eq_true] at h
        have := chainB_lengths ks2 cs2 (some k) hi h.2
        simp [this]
  | succ p ih =>
    intro ks cs lo hi h
    rcases ks with _ | ⟨k, ks2⟩
    · rcases cs with _ | ⟨c, cs2⟩ <;> simp [chainHoleB] at h
    · rcases cs with _ | ⟨c, cs2⟩
      · simp [chainHoleB] at h
      · rw [chainHoleB, Bool.and_eq_true, Bool.and_eq_true, Bool.and_eq_true] at h
        have := ih ks2 cs2 (some k) hi h.2
        simp only [List.length_cons]
        omega

/-- Splitting a full inner chain of `INNER_KEYS + 1` separators at the
midpoint: both halves are ordered with the promoted key `k2` as the shared
bound, and `k2` respects the outer bounds. -/
theorem chainB_split5 (lo hi : Option Bytes) (k0 k1 k2 k3 k4 : Bytes)
    (c0 c1 c2 c3 c4 c5 : KVNode)
    (h : chainB lo hi [k0, k1, k2, k3, k4] [c0, c1, c2, c3, c4, c5] = true) :
    chainB lo (some k2) [k0, k1] [c0, c1, c2] = true ∧
    chainB (some k2) hi [k3, k4] [c3, c4, c5] = true ∧
    sepLB lo k2 = true ∧ sepUB hi k2 = true := by
  simp only [chainB, Bool.and_eq_true] at h
  obtain ⟨⟨⟨t0, l0⟩, u0⟩, ⟨⟨t1, l1⟩, u1⟩, ⟨⟨t2, l2⟩, u2⟩, ⟨⟨t3, l3⟩, u3⟩,
    ⟨⟨t4, l4⟩, u4⟩, t5⟩ := h
  have g10 : cstrcmp k1 k0 = Ordering.gt := by
    rw [sepLB, ordBeqEq] at l1
    exact l1
  have g21 : cstrcmp k2 k1 = Ordering.gt := by
    rw [sepLB, ordBeqEq] at l2
    exact l2
  have g20 : cstrcmp k2 k0 = Ordering.gt := cstrcmp_gt_trans g21 g10
  refine ⟨?_, ?_, sepLB_trans l0 g20, u2⟩
  · simp only [chainB, Bool.and_eq_true]
    exact ⟨⟨⟨t0, l0⟩, by rw [sepUB, ordBeqEq]; exact cstrcmp_gt_iff_lt.1 g20⟩,
      ⟨⟨t1, l1⟩, by rw [sepUB, ordBeqEq]; exact cstrcmp_gt_iff_lt.1 g21⟩, t2⟩
  · simp only [chainB, Bool.and_eq_true]
    exact ⟨⟨⟨t3, l3⟩, u3⟩, ⟨⟨t4, l4⟩, u4⟩, t5⟩

/-- `InnerUpdateAfterSplit` preserves the `strcmp` order invariant along an
ordered path, inner-node splits included, whenever the split key lies
strictly between the hole's bounds. -/
theorem innerUpdate_ordered : ∀ (path : List Frame) (nl nr : KVNode) (sk : Bytes),
    pathOrdB path = true →
    sepLB (holeBounds path).1 sk = true →
    sepUB (holeBounds path).2 sk = true →
    treeOrderedB (holeBounds path).1 (some sk) nl = true →
    treeOrderedB (some sk) (holeBounds path).2 nr = true →
    treeOrderedB none none (innerUpdateAfterSplit nl nr sk path) = true := by
  intro path
  induction path with
  | nil =>
    intro nl nr sk _ hlb hub hnl hnr
    rw [innerUpdateAfterSplit, treeOrderedB]
    rw [chainB, Bool.and_eq_true, Bool.and_eq_true, Bool.and_eq_true]
    exact ⟨⟨⟨hnl, rfl⟩, rfl⟩, hnr⟩
  | cons f rest ih =>
    intro nl nr sk hp hlb hub hnl hnr
    rw [pathOrdB, Bool.and_eq_true, Bool.and_eq_true] at hp
    obtain ⟨⟨hch, hlen⟩, hrest⟩ := hp
    rw [decide_eq_true_iff] at hlen
    obtain ⟨hidx, hlbsk, hubsk, hchain⟩ :=
      chainHoleB_insert f.idx f.keys f.children (holeBounds rest).1 (holeBounds rest).2
        nl nr sk hch hlb hub hnl hnr
    obtain ⟨hple, hclen⟩ := chainHoleB_lengths f.idx f.keys f.children _ _ hch
    rw [innerUpdateAfterSplit]
    rw [hidx]
    by_cases hle : (f.keys.insertIdx f.idx sk).length ≤ INNER_KEYS
    · rw [if_pos hle]
      apply plugPath_ordered rest _ hrest
      rw [treeOrderedB]
      exact hchain
    · rw [if_neg hle]
      have hk2len : (f.keys.insertIdx f.idx sk).length = f.keys.length + 1 :=
        List.length_insertIdx f.idx f.keys hple
      have h5 : (f.keys.insertIdx f.idx sk).length = 5 := by
        rw [INNER_KEYS] at hlen hle
        omega
      have hcs0len : (f.children.set f.idx nl).length = f.keys.length + 1 := by
        rw [List.length_set]
        exact hclen
      have hc6 : ((f.children.set f.idx nl).insertIdx (f.idx + 1) nr).length = 6 := by
        rw [List.length_insertIdx (f.idx + 1) _ (by rw [hcs0len]; omega), hcs0len]
        rw [INNER_KEYS] at hlen hle
        omega
      rcases hks2 : f.keys.insertIdx f.idx sk with _ | ⟨a0, _ | ⟨a1, _ | ⟨a2, _ |
        ⟨a3, _ | ⟨a4, ks3⟩⟩⟩⟩⟩ <;> rw [hks2] at h5 <;> simp at h5
      rcases hcs2 : (f.children.set f.idx nl).insertIdx (f.idx + 1) nr with _ | ⟨c0, _ |
        ⟨c1, _ | ⟨c2, _ | ⟨c3, _ | ⟨c4, _ | ⟨c5, cs3⟩⟩⟩⟩⟩⟩ <;>
        rw [hcs2] at hc6 <;> simp at hc6
      rcases ks3 with _ | ⟨b, ks4⟩
      · rcases cs3 with _ | ⟨d, cs4⟩
        · rw [hks2, hcs2] at hchain
          obtain ⟨hleft, hright, hl2, hu2⟩ := chainB_split5 _ _ a0 a1 a2 a3 a4
            c0 c1 c2 c3 c4 c5 hchain
          show treeOrderedB none none (innerUpdateAfterSplit
            (KVNode.inner ([a0, a1, a2, a3, a4].take INNER_KEYS_MIDPOINT)
              ([c0, c1, c2, c3, c4, c5].take (INNER_KEYS_MIDPOINT + 1)))
            (KVNode.inner ([a0, a1, a2, a3, a4].drop INNER_KEYS_UPPER)
              ([c0, c1, c2, c3, c4, c5].drop INNER_KEYS_UPPER))
            ([a0, a1, a2, a3, a4].getD INNER_KEYS_MIDPOINT []) rest) = true
          have hmid : INNER_KEYS_MIDPOINT = 2 := rfl
          have hup : INNER_KEYS_UPPER = 3 := rfl
          rw [hmid, hup]
          show treeOrderedB none none (innerUpdateAfterSplit
            (KVNode.inner [a0, a1] [c0, c1, c2]) (KVNode.inner [a3, a4] [c3, c4, c5])
            a2 rest) = true
          apply ih _ _ a2 hrest hl2 hu2
          · rw [treeOrderedB]
            exact hleft
          · rw [treeOrderedB]
            exact hright
        · simp at hc6
      · simp at h5

/-- A sequence of `Put` operations (no fault injection). -/
def putList (s : KVTreeState) (ps : List (Bytes × Bytes)) : KVTreeState :=
  ps.foldl (fun st p => (st.put p.1 p.2 false).2) s

/-- 48 single-byte keys `[1] … [48]`, then `[49]` (forcing a leaf split with
split key `[25]`), then the key `[25, 0, 7]`, whose `strcmp` class equals
`[25]`'s, so the search routes it into the left (old) leaf. -/
def c6SplitState : KVTreeState :=
  ((((putList KVTreeState.fresh
      ((List.range 48).map (fun i => ([i + 1], [i + 1])))).put
    [49] [49] false).2).put [25, 0, 7] [99] false).2

/-- Observer: the separator keys of the volatile root when it is an inner
node. -/
def topInnerKeys (s : KVTreeState) : List Bytes :=
  match s.treeTop with
  | some (KVNode.inner ks _) => ks
  | _ => []

/-- Observer: the heap identifier of the root's `i`-th child when that child
is a leaf descriptor. -/
def topInnerChildLeafId (s : KVTreeState) (i : Nat) : Option Nat :=
  match s.treeTop with
  | some (KVNode.inner _ cs) =>
    match cs.get? i with
    | some (KVNode.leafn ln) => some ln.leaf
    | _ => none
  | _ => none

/-- Observer: the mirrored keys of the root's `i`-th child when that child
is a leaf descriptor. -/
def topInnerChildLeafKeys (s : KVTreeState) (i : Nat) : List Bytes :=
  match s.treeTop with
  | some (KVNode.inner _ cs) =>
    match cs.get? i with
    | some (KVNode.leafn ln) => ln.keys
    | _ => []
  | _ => []

set_option maxRecDepth 40000 in
/-- C6 counterexample: after filling a fresh pool with the keys
`[1] … [48]`, putting `[49]` splits the leaf with split key `[25]` (the
root becomes an inner node with separator `[25]` over the old leaf and the
new one), and putting `[25, 0, 7]` — whose C string equals `[25]`'s, so
`LeafSearch` routes it left — stores it in the old leaf (child `0`).  The
key `[25, 0, 7]` stored under `children[0]` is byte-lexicographically
strictly *greater* than the separator `keys[0] = [25]`, refuting the
claimed byte-lexicographic subtree bound; the engine still finds the record
there because all comparisons are `strcmp` on zero-terminated prefixes. -/
theorem C6_counterexample :
    topInnerKeys c6SplitState = [[25]] ∧
    topInnerChildLeafId c6SplitState 0 = some 0 ∧
    (topInnerChildLeafKeys c6SplitState 0).getD 25 [] = [25, 0, 7] ∧
    (((c6SplitState.heap.getD 0 KVLeaf.empty).slots.getD 25 KVSlot.empty).kv.getD []).take
      ((c6SplitState.heap.getD 0 KVLeaf.empty).slots.getD 25 KVSlot.empty).ks =
      [25, 0, 7] ∧
    c6SplitState.getStr [25, 0, 7] = (KVStatus.OK, [99]) ∧
    bytesCmp [25, 0, 7] [25] = Ordering.gt := by
  exact ⟨by decide, by decide, by decide, by decide, by decide, by decide⟩

/-- A descriptor holding exactly one mirrored key (test fixture for the C6
witness). -/
def oneKeyLeaf (k : Bytes) (lid : Nat) : KVLeafNode :=
  { hashes := (List.replicate LEAF_KEYS 0).set 0 1
    keys := (List.replicate LEAF_KEYS ([] : Bytes)).set 0 k
    leaf := lid }

/-- C6 (amended): the inner-node order invariant that the code maintains is
the `strcmp` (C-string) one, not the byte-lexicographic one of the claim:
separator keys are strictly ascending in C-string order, every key stored
under `children[i]` is `≤ keys[i]` and every key under `children[i + 1]` is
`> keys[i]`, all under `strcmp` (`treeOrderedB`/`chainB`).
`InnerUpdateAfterSplit` preserves it — including the inner-node split when
`key_count` would exceed `INNER_KEYS` — along any ordered path
(`pathOrdB`), for a split key lying strictly between the reached hole's
bounds (`sepLB`/`sepUB`) with the two split halves ordered on either side
of it. -/
theorem C6_inner_order_preserved (path : List Frame) (nl nr : KVNode) (sk : Bytes)
    (hp : pathOrdB path = true)
    (hlb : sepLB (holeBounds path).1 sk = true)
    (hub : sepUB (holeBounds path).2 sk = true)
    (hnl : treeOrderedB (holeBounds path).1 (some sk) nl = true)
    (hnr : treeOrderedB (some sk) (holeBounds path).2 nr = true) :
    treeOrderedB none none (innerUpdateAfterSplit nl nr sk path) = true :=
  innerUpdate_ordered path nl nr sk hp hlb hub hnl hnr

/-- Witness for C6: a full root (4 separators) with the hole at child 2;
inserting split key `[25]` overflows the root and triggers the inner split,
and the result is ordered. -/
theorem C6_witness :
    pathOrdB [Frame.mk [[10], [20], [30], [40]]
      [KVNode.leafn (oneKeyLeaf [5] 0), KVNode.leafn (oneKeyLeaf [15] 1),
        KVNode.leafn (oneKeyLeaf [22] 2), KVNode.leafn (oneKeyLeaf [35] 3),
        KVNode.leafn (oneKeyLeaf [45] 4)] 2] = true ∧
    treeOrderedB none none (innerUpdateAfterSplit
      (KVNode.leafn (oneKeyLeaf [22] 2)) (KVNode.leafn (oneKeyLeaf [27] 5)) [25]
      [Frame.mk [[10], [20], [30], [40]]
        [KVNode.leafn (oneKeyLeaf [5] 0), KVNode.leafn (oneKeyLeaf [15] 1),
          KVNode.leafn (oneKeyLeaf [22] 2), KVNode.leafn (oneKeyLeaf [35] 3),
          KVNode.leafn (oneKeyLeaf [45] 4)] 2]) = true :=
  ⟨by decide,
    C6_inner_order_preserved
      [Frame.mk [[10], [20], [30], [40]]
        [KVNode.leafn (oneKeyLeaf [5] 0), KVNode.leafn (oneKeyLeaf [15] 1),
          KVNode.leafn (oneKeyLeaf [22] 2), KVNode.leafn (oneKeyLeaf [35] 3),
          KVNode.leafn (oneKeyLeaf [45] 4)] 2]
      (KVNode.leafn (oneKeyLeaf [22] 2)) (KVNode.leafn (oneKeyLeaf [27] 5)) [25]
      (by decide) (by decide) (by decide) (by decide) (by decide)⟩

/-! ## Search in an ordered tree -/

/-- The volatile tree (when present) satisfies the `strcmp` order
invariant. -/
def stateOrderedB (s : KVTreeState) : Bool :=
  match s.treeTop with
  | none => true
  | some t => treeOrderedB none none t

/-- No two distinct nonzero slots of one descriptor hold `strcmp`-equal
keys (the keys of one leaf are pairwise distinct as C strings). -/
def leafClassUniqB (ln : KVLeafNode) : Bool :=
  (List.range LEAF_KEYS).all fun i =>
    (List.range LEAF_KEYS).all fun j =>
      (i == j) || (ln.hashes.getD i 0 == 0) || (ln.hashes.getD j 0 == 0) ||
      !(cstr (ln.keys.getD i []) == cstr (ln.keys.getD j []))

/-- Every leaf descriptor of the volatile tree satisfies `leafClassUniqB`. -/
def stateClassUniqB (s : KVTreeState) : Bool :=
  match s.treeTop with
  | none => true
  | some t => (treeLeaves t).all leafClassUniqB

theorem keyUB_trans {hi : Option Bytes} {a b : Bytes} (h1 : cstrcmp a b ≠ Ordering.gt)
    (h2 : sepUB hi b = true) : keyUB hi a = true := by
  rcases hi with _ | h
  · rfl
  · rw [sepUB, ordBeqEq] at h2
    rw [keyUB, ordNeGt]
    have hlt : cstrcmp a h = Ordering.lt := bytesCmp_lt_of_le_of_lt h1 h2
    rw [hlt]
    intro hq
    cases hq

theorem cstrcmp_congr_left {a b c : Bytes} (h : cstrcmp a b = Ordering.eq) :
    cstrcmp a c = cstrcmp b c := by
  unfold cstrcmp at h ⊢
  rw [bytesCmp_eq_iff.1 h]

/-- Every separator of an ordered chain lies in `(lo, hi)`. -/
theorem chainB_sep_facts : ∀ (ks : List Bytes) (cs : List KVNode) (lo hi : Option Bytes),
    chainB lo hi ks cs = true →
    ∀ i, i < ks.length → sepLB lo (ks.getD i []) = true ∧ sepUB hi (ks.getD i []) = true := by
  intro ks
  induction ks with
  | nil => intro cs lo hi _ i hi2; exact absurd hi2 (by simp)
  | cons k ks2 ih =>
    intro cs lo hi h i hi2
    rcases cs with _ | ⟨c, cs2⟩
    · simp [chainB] at h
    · rw [chainB, Bool.and_eq_true, Bool.and_eq_true, Bool.and_eq_true] at h
      cases i with
      | zero => exact ⟨h.1.1.2, h.1.2⟩
      | succ j =>
        have := ih cs2 (some k) hi h.2 j (Nat.lt_of_succ_lt_succ hi2)
        refine ⟨sepLB_trans h.1.1.2 ?_, this.2⟩
        have h2 := this.1
        rw [sepLB, ordBeqEq] at h2
        rw [List.getD_cons_succ]
        exact h2

/-- Separators of an ordered chain are strictly ascending in `strcmp`
order. -/
theorem chainB_sep_mono : ∀ (ks : List Bytes) (cs : List KVNode) (lo hi : Option Bytes),
    chainB lo hi ks cs = true →
    ∀ i j, i < j → j < ks.length →
      cstrcmp (ks.getD j []) (ks.getD i []) = Ordering.gt := by
  intro ks
  induction ks with
  | nil => intro cs lo hi _ i j _ hj; exact absurd hj (by simp)
  | cons k ks2 ih =>
    intro cs lo hi h i j hij hj
    rcases cs with _ | ⟨c, cs2⟩
    · simp [chainB] at h
    · rw [chainB, Bool.and_eq_true, Bool.and_eq_true, Bool.and_eq_true] at h
      cases i with
      | zero =>
        cases j with
        | zero => exact absurd hij (Nat.lt_irrefl 0)
        | succ j2 =>
          have := chainB_sep_facts ks2 cs2 (some k) hi h.2 j2 (Nat.lt_of_succ_lt_succ hj)
          have h2 := this.1
          rw [sepLB, ordBeqEq] at h2
          rw [List.getD_cons_succ, List.getD_cons_zero]
          exact h2
      | succ i2 =>
        cases j with
        | zero => exact absurd hij (by omega)
        | succ j2 =>
          rw [List.getD_cons_succ, List.getD_cons_succ]
          exact ih cs2 (some k) hi h.2 i2 j2 (by omega) (Nat.lt_of_succ_lt_succ hj)

/-- The `m`-th child of an ordered chain is ordered within the bounds given
by the adjacent separators. -/
theorem chainB_child : ∀ (ks : List Bytes) (cs : List KVNode) (lo hi : Option Bytes),
    chainB lo hi ks cs = true →
    ∀ m c, cs.get? m = some c →
      treeOrderedB (if m = 0 then lo else some (ks.getD (m - 1) []))
        (if m = ks.length then hi else some (ks.getD m [])) c = true := by
  intro ks
  induction ks with
  | nil =>
    intro cs lo hi h m c hc
    rcases cs with _ | ⟨d, _ | ⟨e, cs2⟩⟩
    · simp [chainB] at h
    · rw [chainB] at h
      cases m with
      | zero =>
        rw [List.get?] at hc
        cases hc
        exact h
      | succ m2 => rw [List.get?] at hc; cases m2 <;> simp [List.get?] at hc
    · simp [chainB] at h
  | cons k ks2 ih =>
    intro cs lo hi h m c hc
    rcases cs with _ | ⟨d, cs2⟩
    · simp [chainB] at h
    · rw [chainB, Bool.and_eq_true, Bool.and_eq_true, Bool.and_eq_true] at h
      cases m with
      | zero =>
        rw [List.get?] at hc
        cases hc
        simp only [if_pos rfl, List.length_cons, Nat.zero_ne_add_one, if_false,
          List.getD_cons_zero]
        exact h.1.1.1
      | succ m2 =>
        rw [List.get?] at hc
        have := ih cs2 (some k) hi h.2 m2 c hc
        have he1 : (if m2 + 1 = 0 then lo else some ((k :: ks2).getD (m2 + 1 - 1) [])) =
            (if m2 = 0 then some k else some (ks2.getD (m2 - 1) [])) := by
          cases m2 with
          | zero => simp
          | succ q => simp
        have he2 : (if m2 + 1 = (k :: ks2).length then hi
            else some ((k :: ks2).getD (m2 + 1) [])) =
            (if m2 = ks2.length then hi else some (ks2.getD m2 [])) := by
          by_cases hq : m2 = ks2.length
          · simp [hq]
          · rw [if_neg hq, if_neg (by simpa using hq)]
            simp
        rw [he1, he2]
        exact this

theorem forestLeaves_mem : ∀ (cs : List KVNode) (ln : KVLeafNode),
    ln ∈ forestLeaves cs → ∃ m c, cs.get? m = some c ∧ ln ∈ treeLeaves c := by
  intro cs
  induction cs with
  | nil => intro ln h; simp [forestLeaves] at h
  | cons c cs2 ih =>
    intro ln h
    rw [forestLeaves] at h
    rcases List.mem_append.1 h with h2 | h2
    · exact ⟨0, c, rfl, h2⟩
    · obtain ⟨m, d, hd, hm⟩ := ih ln h2
      exact ⟨m + 1, d, hd, hm⟩

/-- Every stored (nonzero-hash) key of an ordered subtree lies within the
subtree's bounds. -/
theorem treeOrdered_leaf_keys (t : KVNode) :
    ∀ (lo hi : Option Bytes), treeOrderedB lo hi t = true →
    ∀ ln ∈ treeLeaves t, ∀ i, i < LEAF_KEYS → ln.hashes.getD i 0 ≠ 0 →
      sepLB lo (ln.keys.getD i []) = true ∧ keyUB hi (ln.keys.getD i []) = true :=
  match t with
  | KVNode.leafn ln0 => by
    intro lo hi h ln hln i hi2 hnz
    rw [treeLeaves] at hln
    rcases List.mem_singleton.1 hln with rfl
    rw [treeOrderedB, List.all_eq_true] at h
    have h2 := h i (List.mem_range.2 hi2)
    rw [Bool.or_eq_true, beq_iff_eq, Bool.and_eq_true] at h2
    rcases h2 with h2 | h2
    · exact absurd h2 hnz
    · exact h2
  | KVNode.inner ks cs => by
    intro lo hi h ln hln i hi2 hnz
    rw [treeLeaves] at hln
    rw [treeOrderedB] at h
    obtain ⟨m, c, hc, hmem⟩ := forestLeaves_mem cs ln hln
    have hcord := chainB_child ks cs lo hi h m c hc
    have hrec := treeOrdered_leaf_keys c _ _ hcord ln hmem i hi2 hnz
    have hmlen : cs.length = ks.length + 1 := chainB_lengths ks cs lo hi h
    have hmlt : m < cs.length := by
      rcases List.get?_eq_some.1 hc with ⟨hlt, _⟩
      exact hlt
    constructor
    · by_cases hm0 : m = 0
      · rw [if_pos hm0] at hrec
        exact hrec.1
      · rw [if_neg hm0] at hrec
        have hm1 : m - 1 < ks.length := by omega
        have hsep := (chainB_sep_facts ks cs lo hi h (m - 1) hm1).1
        have hgt := hrec.1
        rw [sepLB, ordBeqEq] at hgt
        exact sepLB_trans hsep hgt
    · by_cases hmk : m = ks.length
      · rw [if_pos hmk] at hrec
        exact hrec.2
      · rw [if_neg hmk] at hrec
        have hmk2 : m < ks.length := by omega
        have hsep := (chainB_sep_facts ks cs lo hi h m hmk2).2
        have hle := hrec.2
        rw [keyUB, ordNeGt] at hle
        exact keyUB_trans hle hsep
termination_by sizeOf t
decreasing_by
  have hmem2 := List.sizeOf_lt_of_mem (List.get?_mem hc)
  simp only [KVNode.inner.sizeOf_spec]
  omega

/-- In an ordered tree, every leaf holding a key `strcmp`-equal to the
search key is the leaf the search reaches. -/
theorem ordered_search_class (t : KVNode) :
    ∀ (lo hi : Option Bytes) (key : Bytes) (path0 : List Frame) (ln : KVLeafNode)
      (p : List Frame),
    treeOrderedB lo hi t = true →
    leafSearchGo key t path0 = some (ln, p) →
    ∀ ln2 ∈ treeLeaves t, ∀ i, i < LEAF_KEYS → ln2.hashes.getD i 0 ≠ 0 →
      cstrcmp (ln2.keys.getD i []) key = Ordering.eq → ln2 = ln :=
  match t with
  | KVNode.leafn ln0 => by
    intro lo hi key path0 ln p _ hs ln2 hln2 i hi2 hnz heq
    rw [leafSearchGo] at hs
    cases hs
    rw [treeLeaves] at hln2
    exact List.mem_singleton.1 hln2
  | KVNode.inner ks cs => by
    intro lo hi key path0 ln p h hs ln2 hln2 i hi2 hnz heq
    rw [treeOrderedB] at h
    rw [leafSearchGo] at hs
    obtain ⟨hidx, c, hc, he⟩ := leafSearchChild_some key cs (innerChildIdx ks key) _ ln p hs
    rw [treeLeaves] at hln2
    obtain ⟨m, c2, hc2, hmem2⟩ := forestLeaves_mem cs ln2 hln2
    have hlen : cs.length = ks.length + 1 := chainB_lengths ks cs lo hi h
    have hmlt : m < cs.length := by
      rcases List.get?_eq_some.1 hc2 with ⟨hlt, _⟩
      exact hlt
    obtain ⟨hjle, hjgt, hjngt⟩ := innerChildIdx_spec ks key
    rcases Nat.lt_trichotomy m (innerChildIdx ks key) with hmj | hmj | hmj
    · -- the class leaf would sit strictly left of the taken child: contradiction
      exfalso
      have hmks : m < ks.length := by omega
      have hrec := treeOrdered_leaf_keys c2 _ _ (chainB_child ks cs lo hi h m c2 hc2)
        ln2 hmem2 i hi2 hnz
      rw [if_neg (by omega : ¬ m = ks.length)] at hrec
      have hub := hrec.2
      rw [keyUB, ordNeGt] at hub
      apply hub
      rw [cstrcmp_congr_left heq]
      exact hjgt m hmj
    · -- same child: recurse
      rw [hmj] at hc2
      rw [hc] at hc2
      cases hc2
      exact ordered_search_class c _ _ key _ ln p
        (chainB_child ks cs lo hi h (innerChildIdx ks key) c hc) he ln2 hmem2 i hi2 hnz heq
    · -- strictly right of the taken child: contradiction
      exfalso
      have hm0 : ¬ m = 0 := by omega
      have hjks : innerChildIdx ks key < ks.length := by omega
      have hrec := treeOrdered_leaf_keys c2 _ _ (chainB_child ks cs lo hi h m c2 hc2)
        ln2 hmem2 i hi2 hnz
      rw [if_neg hm0] at hrec
      have hlb := hrec.1
      rw [sepLB, ordBeqEq] at hlb
      have hgtj : cstrcmp (ln2.keys.getD i []) (ks.getD (innerChildIdx ks key) []) =
          Ordering.gt := by
        rcases Nat.lt_or_ge (innerChildIdx ks key) (m - 1) with hq | hq
        · exact cstrcmp_gt_trans hlb
            (chainB_sep_mono ks cs lo hi h (innerChildIdx ks key) (m - 1) hq (by omega))
        · have : m - 1 = innerChildIdx ks key := by omega
          rw [← this]
          exact hlb
      apply hjngt hjks
      rw [← cstrcmp_congr_left heq]
      exact hgtj
termination_by sizeOf t
decreasing_by
  have hmem3 := List.sizeOf_lt_of_mem (List.get?_mem hc)
  simp only [KVNode.inner.sizeOf_spec]
  omega

mutual
/-- Every inner node of the tree carries at most `INNER_KEYS` separators
(the capacity bound that `InnerUpdateAfterSplit` maintains by splitting). -/
def treeSizedB : KVNode → Bool
  | KVNode.leafn _ => true
  | KVNode.inner ks cs => decide (ks.length ≤ INNER_KEYS) && forestSizedB cs

/-- `treeSizedB` for every child. -/
def forestSizedB : List KVNode → Bool
  | [] => true
  | c :: cs => treeSizedB c && forestSizedB cs
end

/-- Every inner node of the volatile tree respects the key-capacity bound. -/
def stateSizedB (s : KVTreeState) : Bool :=
  match s.treeTop with
  | none => true
  | some t => treeSizedB t

theorem forestSizedB_mem {cs : List KVNode} (h : forestSizedB cs = true) {c : KVNode}
    (hc : c ∈ cs) : treeSizedB c = true := by
  induction cs with
  | nil => exact absurd hc (List.not_mem_nil c)
  | cons d ds ih =>
    rw [forestSizedB, Bool.and_eq_true] at h
    rcases List.mem_cons.1 hc with rfl | hc2
    · exact h.1
    · exact ih h.2 hc2

/-- Forgetting the chain condition at one child. -/
theorem chainB_to_hole : ∀ (p : Nat) (ks : List Bytes) (cs : List KVNode)
    (lo hi : Option Bytes), chainB lo hi ks cs = true → p < cs.length →
    chainHoleB lo hi ks cs p = true := by
  intro p
  induction p with
  | zero =>
    intro ks cs lo hi h hp
    rcases ks with _ | ⟨k, ks2⟩
    · rcases cs with _ | ⟨c, _ | ⟨d, cs2⟩⟩
      · simp at hp
      · rfl
      · simp [chainB] at h
    · rcases cs with _ | ⟨c, cs2⟩
      · simp at hp
      · rw [chainB, Bool.and_eq_true, Bool.and_eq_true, Bool.and_eq_true] at h
        rw [chainHoleB, Bool.and_eq_true, Bool.and_eq_true]
        exact ⟨⟨h.1.1.2, h.1.2⟩, h.2⟩
  | succ p ih =>
    intro ks cs lo hi h hp
    rcases ks with _ | ⟨k, ks2⟩
    · rcases cs with _ | ⟨c, _ | ⟨d, cs2⟩⟩
      · simp at hp
      · simp at hp
      · simp [chainB] at h
    · rcases cs with _ | ⟨c, cs2⟩
      · simp at hp
      · rw [chainB, Bool.and_eq_true, Bool.and_eq_true, Bool.and_eq_true] at h
        rw [chainHoleB, Bool.and_eq_true, Bool.and_eq_true, Bool.and_eq_true]
        exact ⟨⟨⟨h.1.1.1, h.1.1.2⟩, h.1.2⟩, ih ks2 cs2 (some k) hi h.2 (by simpa using hp)⟩

/-- The path recorded by a search in an ordered, capacity-bounded tree is
ordered, and the reached hole's bounds still admit the search key. -/
theorem search_path_ordered (t : KVNode) :
    ∀ (path0 : List Frame) (key : Bytes) (ln : KVLeafNode) (p : List Frame),
      treeSizedB t = true →
      treeOrderedB (holeBounds path0).1 (holeBounds path0).2 t = true →
      pathOrdB path0 = true →
      sepLB (holeBounds path0).1 key = true →
      keyUB (holeBounds path0).2 key = true →
      leafSearchGo key t path0 = some (ln, p) →
      pathOrdB p = true ∧
      sepLB (holeBounds p).1 key = true ∧
      keyUB (holeBounds p).2 key = true ∧
      treeOrderedB (holeBounds p).1 (holeBounds p).2 (KVNode.leafn ln) = true :=
  match t with
  | KVNode.leafn ln0 => by
    intro path0 key ln p _ hord hpo hlb hub hs
    rw [leafSearchGo] at hs
    cases hs
    exact ⟨hpo, hlb, hub, hord⟩
  | KVNode.inner ks cs => by
    intro path0 key ln p hsz hord hpo hlb hub hs
    rw [treeSizedB, Bool.and_eq_true, decide_eq_true_iff] at hsz
    rw [treeOrderedB] at hord
    rw [leafSearchGo] at hs
    obtain ⟨hidx, c, hc, he⟩ := leafSearchChild_some key cs (innerChildIdx ks key) _ ln p hs
    have hlen : cs.length = ks.length + 1 := chainB_lengths ks cs _ _ hord
    obtain ⟨hjle, hjgt, hjngt⟩ := innerChildIdx_spec ks key
    have hpo2 : pathOrdB (Frame.mk ks cs (innerChildIdx ks key) :: path0) = true := by
      rw [pathOrdB, Bool.and_eq_true, Bool.and_eq_true]
      exact ⟨⟨chainB_to_hole (innerChildIdx ks key) ks cs _ _ hord hidx,
        decide_eq_true hsz.1⟩, hpo⟩
    have hb1 : (holeBounds (Frame.mk ks cs (innerChildIdx ks key) :: path0)).1 =
        (if innerChildIdx ks key = 0 then (holeBounds path0).1
          else some (ks.getD (innerChildIdx ks key - 1) [])) := rfl
    have hb2 : (holeBounds (Frame.mk ks cs (innerChildIdx ks key) :: path0)).2 =
        (if innerChildIdx ks key = ks.length then (holeBounds path0).2
          else some (ks.getD (innerChildIdx ks key) [])) := rfl
    have hlb2 : sepLB (holeBounds (Frame.mk ks cs (innerChildIdx ks key) :: path0)).1
        key = true := by
      rw [hb1]
      by_cases hj0 : innerChildIdx ks key = 0
      · rw [if_pos hj0]
        exact hlb
      · rw [if_neg hj0]
        rw [sepLB, ordBeqEq]
        exact hjgt _ (by omega)
    have hub2 : keyUB (holeBounds (Frame.mk ks cs (innerChildIdx ks key) :: path0)).2
        key = true := by
      rw [hb2]
      by_cases hjk : innerChildIdx ks key = ks.length
      · rw [if_pos hjk]
        exact hub
      · rw [if_neg hjk]
        rw [keyUB, ordNeGt]
        exact hjngt (by omega)
    have hcord : treeOrderedB (holeBounds (Frame.mk ks cs (innerChildIdx ks key) :: path0)).1
        (holeBounds (Frame.mk ks cs (innerChildIdx ks key) :: path0)).2 c = true := by
      rw [hb1, hb2]
      exact chainB_child ks cs _ _ hord (innerChildIdx ks key) c hc
    exact search_path_ordered c _ key ln p
      (forestSizedB_mem hsz.2 (List.get?_mem hc)) hcord hpo2 hlb2 hub2 he
termination_by sizeOf t
decreasing_by
  have hmem3 := List.sizeOf_lt_of_mem (List.get?_mem hc)
  simp only [KVNode.inner.sizeOf_spec]
  omega

/-! ## Put followed by get (C1) -/

/-- The `Get` slot scan finds the unique matching slot. -/
theorem slotMatchScan_found {hashes : List Nat} {keys : List Bytes} {h : Nat} {key : Bytes}
    {e : Nat} : ∀ {n : Nat}, e < n →
    hashes.getD e 0 = h → cstrcmp (keys.getD e []) key = Ordering.eq →
    (∀ j, j ≠ e → j < n → ¬(hashes.getD j 0 = h ∧
      cstrcmp (keys.getD j []) key = Ordering.eq)) →
    slotMatchScan hashes keys h key n = some e := by
  intro n
  induction n with
  | zero => intro he; exact absurd he (Nat.not_lt_zero e)
  | succ m ih =>
    intro he hh hk huniq
    by_cases hem : e = m
    · subst hem
      rw [slotMatchScan, if_pos ⟨hh, hk⟩]
    · rw [slotMatchScan, if_neg (huniq m (fun hq => hem hq.symm) (Nat.lt_succ_self m))]
      exact ih (by omega) hh hk (fun j hj1 hj2 => huniq j hj1 (by omega))

/-- The value region written by `KVSlot::set`, read back as a C string, is
the C-string prefix of the stored value. -/
theorem slotSet_val (sl : KVSlot) (h : Nat) (K V : Bytes) :
    cstr ((KVSlot.set sl h K V).valRegion) = cstr V := by
  unfold KVSlot.set KVSlot.valRegion
  simp only [Option.getD_some]
  have hassoc : K ++ [0] ++ V ++ [0] = (K ++ [0]) ++ (V ++ 0 :: ([] : Bytes)) := by
    simp [List.append_assoc]
  rw [hassoc, List.drop_left' (by simp), cstr_append_zero]

/-- A slot scan that ended with no key match really saw no matching slot
(a zero-hash slot cannot match since `h ≠ 0`). -/
theorem leafScanForKey_nomatch {hashes : List Nat} {keys : List Bytes} {h : Nat}
    {key : Bytes} (hnz : h ≠ 0) : ∀ (n : Nat) (le : Option Nat),
    (leafScanForKey hashes keys h key n le).2 = none →
    ∀ j, j < n → ¬(hashes.getD j 0 = h ∧ cstrcmp (keys.getD j []) key = Ordering.eq) := by
  intro n
  induction n with
  | zero => intro le _ j hj; exact absurd hj (Nat.not_lt_zero j)
  | succ m ih =>
    intro le hs j hj
    rw [leafScanForKey] at hs
    by_cases hz : hashes.getD m 0 = 0
    · rw [if_pos hz] at hs
      rcases Nat.lt_succ_iff_lt_or_eq.1 hj with hj2 | rfl
      · exact ih (some m) hs j hj2
      · intro hcon
        rw [hcon.1] at hz
        exact hnz hz
    · rw [if_neg hz] at hs
      by_cases hm : hashes.getD m 0 = h ∧ cstrcmp (keys.getD m []) key = Ordering.eq
      · rw [if_pos hm] at hs
        simp at hs
      · rw [if_neg hm] at hs
        rcases Nat.lt_succ_iff_lt_or_eq.1 hj with hj2 | rfl
        · exact ih le hs j hj2
        · exact hm

/-- The descriptor made by filling slot `0` of a fresh all-zero descriptor:
its slot scan for the key finds slot `0`. -/
theorem freshFill_scan (lid : Nat) (K : Bytes) :
    slotMatchScan
      (lfssMirror (KVLeafNode.mk (List.replicate LEAF_KEYS 0)
        (List.replicate LEAF_KEYS []) lid) (PearsonHash K) K 0).hashes
      (lfssMirror (KVLeafNode.mk (List.replicate LEAF_KEYS 0)
        (List.replicate LEAF_KEYS []) lid) (PearsonHash K) K 0).keys
      (PearsonHash K) K LEAF_KEYS = some 0 := by
  unfold lfssMirror
  rw [if_pos (by rw [getD_replicate (by decide)])]
  simp only
  apply slotMatchScan_found (by decide)
  · rw [getD_set_self (by simp [LEAF_KEYS])]
  · rw [getD_set_self (by simp [LEAF_KEYS])]
    exact cstrcmp_eq_iff.2 rfl
  · intro j hj hjn hcon
    rw [getD_set_ne (fun hq => hj hq.symm), getD_replicate hjn] at hcon
    exact pearsonHash_ne_zero K hcon.1.symm

/-- The head-leaf path of `Put` followed by `Get` of the same key delivers
the C-string prefix of the stored value. -/
theorem putNewHead_get (s : KVTreeState) (K V : Bytes)
    (hshape : stateShapeB s = true) :
    (putNewHead s (PearsonHash K) K V false).1 = KVStatus.OK ∧
    (putNewHead s (PearsonHash K) K V false).2.getStr K = (KVStatus.OK, cstr V) := by
  obtain ⟨hheap, hpre, _⟩ := stateShapeB_spec hshape
  rcases hlast : s.leavesPrealloc.getLast? with _ | lid
  · simp only [putNewHead, hlast, Bool.false_eq_true, if_false]
    refine ⟨by trivial, ?_⟩
    simp only [KVTreeState.getStr, leafSearchGo, leafFillSpecificSlot, freshFill_scan]
    have hleaf : (lfssMirror (KVLeafNode.mk (List.replicate LEAF_KEYS 0)
        (List.replicate LEAF_KEYS []) s.heap.length)
        (PearsonHash K) K 0).leaf = s.heap.length := lfssMirror_leaf _ _ _ _
    rw [hleaf, getD_append_length]
    show (KVStatus.OK, cstr ((lfssPersist KVLeaf.empty (PearsonHash K) K V 0).slots.getD 0
      KVSlot.empty).valRegion) = (KVStatus.OK, cstr V)
    unfold lfssPersist
    simp only
    rw [getD_set_self (by rw [KVLeaf.empty]; simp [LEAF_KEYS])]
    rw [slotSet_val]
  · have hlidmem : lid ∈ s.leavesPrealloc := by
      rcases List.mem_getLast?_eq_getLast (show lid ∈ s.leavesPrealloc.getLast? from hlast)
        with ⟨hne, heq⟩
      rw [heq]
      exact List.getLast_mem hne
    have hlidlt : lid < s.heap.length := hpre lid hlidmem
    simp only [putNewHead, hlast, Bool.false_eq_true, if_false]
    refine ⟨by trivial, ?_⟩
    simp only [KVTreeState.getStr, leafSearchGo, leafFillSpecificSlot, freshFill_scan]
    have hleaf : (lfssMirror (KVLeafNode.mk (List.replicate LEAF_KEYS 0)
        (List.replicate LEAF_KEYS []) lid)
        (PearsonHash K) K 0).leaf = lid := lfssMirror_leaf _ _ _ _
    rw [hleaf, getD_set_self hlidlt]
    show (KVStatus.OK, cstr ((lfssPersist (s.heap.getD lid KVLeaf.empty)
      (PearsonHash K) K V 0).slots.getD 0 KVSlot.empty).valRegion) = (KVStatus.OK, cstr V)
    unfold lfssPersist
    simp only
    rw [getD_set_self (by rw [hheap _ (getD_mem hlidlt)]; decide)]
    rw [slotSet_val]

theorem leafClassUniqB_spec {ln : KVLeafNode} (h : leafClassUniqB ln = true) :
    ∀ i j, i < LEAF_KEYS → j < LEAF_KEYS → i ≠ j →
      ln.hashes.getD i 0 ≠ 0 → ln.hashes.getD j 0 ≠ 0 →
      cstr (ln.keys.getD i []) ≠ cstr (ln.keys.getD j []) := by
  intro i j hi hj hij hnz1 hnz2 hcon
  unfold leafClassUniqB at h
  rw [List.all_eq_true] at h
  have hi2 := h i (List.mem_range.2 hi)
  rw [List.all_eq_true] at hi2
  have hj2 := hi2 j (List.mem_range.2 hj)
  have hfalse : ((i == j) || (ln.hashes.getD i 0 == 0) || (ln.hashes.getD j 0 == 0) ||
      !(cstr (ln.keys.getD i []) == cstr (ln.keys.getD j []))) = false := by
    rw [Bool.or_eq_false_iff, Bool.or_eq_false_iff, Bool.or_eq_false_iff]
    refine ⟨⟨⟨beq_eq_false_iff_ne.2 hij, beq_eq_false_iff_ne.2 hnz1⟩,
      beq_eq_false_iff_ne.2 hnz2⟩, ?_⟩
    rw [Bool.not_eq_false', beq_iff_eq]
    exact hcon
  exact (by decide : (true : Bool) ≠ false) (hj2.symm.trans hfalse)

/-- The in-place path of `Put` followed by `Get` of the same key delivers
the C-string prefix of the stored value. -/
theorem putFill_get (s : KVTreeState) (t : KVNode) (ln : KVLeafNode) (path : List Frame)
    (K V : Bytes) (slot : Nat)
    (htop : s.treeTop = some t)
    (hsearch : leafSearchGo K t [] = some (ln, path))
    (hchoose : leafChooseSlot ln (PearsonHash K) K = some slot)
    (hshape : stateShapeB s = true) (hcu : stateClassUniqB s = true) :
    (putFill s ln path (PearsonHash K) K V slot false).2.getStr K =
      (KVStatus.OK, cstr V) := by
  obtain ⟨hheap, _, htree⟩ := stateShapeB_spec hshape
  obtain ⟨_, hlens, _⟩ := htree t htop
  have hlnmem : ln ∈ treeLeaves t := search_leaf_mem hsearch
  have hlnlt : ln.leaf < s.heap.length := (hlens ln hlnmem).2.2
  have hcul : leafClassUniqB ln = true := by
    simp only [stateClassUniqB, htop] at hcu
    rw [List.all_eq_true] at hcu
    exact hcu ln hlnmem
  obtain ⟨hslot, _⟩ := leafChooseSlot_spec hchoose
  -- the post-operation mirror scan finds exactly the filled slot
  have hscan : slotMatchScan (lfssMirror ln (PearsonHash K) K slot).hashes
      (lfssMirror ln (PearsonHash K) K slot).keys (PearsonHash K) K LEAF_KEYS =
      some slot := by
    rw [leafChooseSlot] at hchoose
    rcases hr2 : (leafScanForKey ln.hashes ln.keys (PearsonHash K) K LEAF_KEYS none).2
      with _ | j
    · -- no key match: the chosen slot was empty, the mirror gets (h, K)
      simp only [hr2] at hchoose
      have hz : ln.hashes.getD slot 0 = 0 := by
        obtain ⟨_, h2, _⟩ := leafScanForKey_spec ln.hashes ln.keys (PearsonHash K) K
          LEAF_KEYS none
        rcases h2 slot hchoose with hcase | hcase
        · exact hcase.2
        · cases hcase
      have hnom := leafScanForKey_nomatch (pearsonHash_ne_zero K) LEAF_KEYS none hr2
      unfold lfssMirror
      rw [if_pos hz]
      simp only
      apply slotMatchScan_found hslot
      · rw [getD_set_self (by rw [(hlens ln hlnmem).1]; exact hslot)]
      · rw [getD_set_self (by rw [(hlens ln hlnmem).2.1]; exact hslot)]
        exact cstrcmp_eq_iff.2 rfl
      · intro j hj hjn hcon
        rw [getD_set_ne (fun hq => hj hq.symm), getD_set_ne (fun hq => hj hq.symm)] at hcon
        exact hnom j hjn hcon
    · -- key match at `slot`: the mirror is unchanged
      simp only [hr2] at hchoose
      cases hchoose
      obtain ⟨h1, _, _⟩ := leafScanForKey_spec ln.hashes ln.keys (PearsonHash K) K
        LEAF_KEYS none
      obtain ⟨hjlt, hjh, hjk⟩ := h1 _ hr2
      have hz : ¬ ln.hashes.getD slot 0 = 0 := by
        rw [hjh]
        exact pearsonHash_ne_zero K
      unfold lfssMirror
      rw [if_neg hz]
      apply slotMatchScan_found hslot hjh hjk
      intro j hj hjn hcon
      exact leafClassUniqB_spec hcul j slot hjn hslot hj
        (by rw [hcon.1]; exact pearsonHash_ne_zero K) (fun hq => hz hq)
        (by rw [cstrcmp_eq_iff.1 hcon.2, cstrcmp_eq_iff.1 hjk])
  obtain ⟨fs2, hs2⟩ := plug_search K t ln path hsearch (lfssMirror ln (PearsonHash K) K slot)
  simp only [putFill, Bool.false_eq_true, if_false]
  simp only [KVTreeState.getStr]
  rw [hs2]
  simp only [hscan]
  rw [lfssMirror_leaf, getD_set_self hlnlt]
  show (KVStatus.OK, cstr ((lfssPersist (s.heap.getD ln.leaf KVLeaf.empty)
    (PearsonHash K) K V slot).slots.getD slot KVSlot.empty).valRegion) = (KVStatus.OK, cstr V)
  unfold lfssPersist
  simp only
  rw [getD_set_self (by rw [hheap _ (getD_mem hlnlt)]; exact hslot)]
  rw [slotSet_val]

theorem splitCandidates_perm (ln : KVLeafNode) (key : Bytes)
    (hk : ln.keys.length = LEAF_KEYS) :
    (splitCandidates ln key).Perm (ln.keys ++ [key]) := by
  unfold splitCandidates
  rw [← hk, List.take_length]
  exact stableSort_perm _ _

theorem splitCandidates_pairwise (ln : KVLeafNode) (key : Bytes) :
    (splitCandidates ln key).Pairwise (fun a b => cstrcmp a b ≠ Ordering.gt) := by
  have hp := @pairwise_stableSort Bytes (fun a b => cstrcmp a b != Ordering.gt)
    (fun a b c hab hbc => by
      have hab2 : cstrcmp a b ≠ Ordering.gt := ordNeGt.1 hab
      have hbc2 : cstrcmp b c ≠ Ordering.gt := ordNeGt.1 hbc
      show (cstrcmp a c != Ordering.gt) = true
      rw [ordNeGt]
      exact cstrcmp_le_trans hab2 hbc2)
    (fun a b => by
      by_cases hab : cstrcmp a b = Ordering.gt
      · right
        show (cstrcmp b a != Ordering.gt) = true
        rw [cstrcmp_gt_iff_lt.1 hab]
        decide
      · left
        show (cstrcmp a b != Ordering.gt) = true
        rw [ordNeGt]
        exact hab)
    (ln.keys.take LEAF_KEYS ++ [key])
  exact hp.imp (by intro a b hab; exact ordNeGt.1 hab)

theorem cstrcmp_antisym {a b : Bytes} (h1 : cstrcmp a b ≠ Ordering.gt)
    (h2 : cstrcmp b a ≠ Ordering.gt) : cstrcmp a b = Ordering.eq := by
  rcases h3 : cstrcmp a b with _ | _ | _
  · exact absurd (cstrcmp_gt_iff_lt.2 h3) h2
  · rfl
  · exact absurd h3 h1

theorem countP_two_exists : ∀ (l : List Bytes) (p : Bytes → Bool), 2 ≤ l.countP p →
    ∃ i j, i < j ∧ j < l.length ∧ p (l.getD i []) = true ∧ p (l.getD j []) = true := by
  intro l
  induction l with
  | nil => intro p h; simp [List.countP_nil] at h
  | cons a as ih =>
    intro p h
    rw [List.countP_cons] at h
    by_cases hpa : p a = true
    · have h1 : 0 < as.countP p := by
        rw [hpa, if_pos rfl] at h
        omega
      obtain ⟨b, hbmem, hpb⟩ := List.countP_pos_iff.1 h1
      obtain ⟨k, hk, hbk⟩ := List.mem_iff_getElem.1 hbmem
      refine ⟨0, k + 1, by omega, by simp only [List.length_cons]; omega, ?_, ?_⟩
      · rw [List.getD_cons_zero]
        exact hpa
      · rw [List.getD_cons_succ, List.getD_eq_getElem?_getD, List.getElem?_eq_getElem hk]
        simpa [hbk] using hpb
    · have hpa2 : p a = false := by
        rwa [Bool.not_eq_true] at hpa
      rw [hpa2] at h
      simp only [Bool.false_eq_true, if_false, Nat.add_zero] at h
      obtain ⟨i, j, hij, hj, hpi, hpj⟩ := ih p h
      exact ⟨i + 1, j + 1, by omega, by simp only [List.length_cons]; omega,
        by rwa [List.getD_cons_succ], by rwa [List.getD_cons_succ]⟩

theorem treeOrderedB_leafn_iff {lo hi : Option Bytes} {ln : KVLeafNode} :
    treeOrderedB lo hi (KVNode.leafn ln) = true ↔
    ∀ i, i < LEAF_KEYS → ln.hashes.getD i 0 ≠ 0 →
      sepLB lo (ln.keys.getD i []) = true ∧ keyUB hi (ln.keys.getD i []) = true := by
  rw [treeOrderedB, List.all_eq_true]
  constructor
  · intro h i hi hnz
    have h2 := h i (List.mem_range.2 hi)
    rw [Bool.or_eq_true, beq_iff_eq, Bool.and_eq_true] at h2
    rcases h2 with h2 | h2
    · exact absurd h2 hnz
    · exact h2
  · intro h i hi
    rw [Bool.or_eq_true, beq_iff_eq, Bool.and_eq_true]
    by_cases hz : ln.hashes.getD i 0 = 0
    · exact Or.inl hz
    · exact Or.inr (h i (List.mem_range.1 hi) hz)

/-- If the whole leaf (and the new key) sorts at or below the split key,
then at least `LEAF_KEYS_MIDPOINT + 1` candidates share the split key's
C-string class, and two of them are distinct leaf slots — impossible when
the leaf's keys are pairwise distinct C strings.  Hence some leaf key sorts
strictly above the split key and the old leaf gains an empty slot. -/
theorem split_exists_gt (ln : KVLeafNode) (K : Bytes)
    (hk : ln.keys.length = LEAF_KEYS) (hh : ln.hashes.length = LEAF_KEYS)
    (hnz : ∀ j, j < LEAF_KEYS → ln.hashes.getD j 0 ≠ 0)
    (hcul : leafClassUniqB ln = true)
    (hKle : cstrcmp K ((splitCandidates ln K).getD LEAF_KEYS_MIDPOINT []) ≠ Ordering.gt) :
    ∃ j, j < LEAF_KEYS ∧ cstrcmp (ln.keys.getD j [])
      ((splitCandidates ln K).getD LEAF_KEYS_MIDPOINT []) = Ordering.gt := by
  by_contra hno
  push_neg at hno
  have hperm := splitCandidates_perm ln K hk
  have hpair := splitCandidates_pairwise ln K
  have hlen : (splitCandidates ln K).length = LEAF_KEYS + 1 := by
    rw [hperm.length_eq, List.length_append, hk]
    rfl
  have hallle : ∀ a ∈ ln.keys ++ [K],
      cstrcmp a ((splitCandidates ln K).getD LEAF_KEYS_MIDPOINT []) ≠ Ordering.gt := by
    intro a ha
    rcases List.mem_append.1 ha with ha2 | ha2
    · obtain ⟨i, hi, heq⟩ := List.mem_iff_getElem.1 ha2
      have : a = ln.keys.getD i [] := by
        rw [List.getD_eq_getElem?_getD, List.getElem?_eq_getElem hi, heq]
        rfl
      rw [this]
      exact hno i (by rw [← hk]; exact hi)
    · rcases List.mem_singleton.1 ha2 with rfl
      exact hKle
  have hpairg := List.pairwise_iff_getElem.1 hpair
  have hdrop : ∀ a ∈ (splitCandidates ln K).drop LEAF_KEYS_MIDPOINT,
      (cstrcmp a ((splitCandidates ln K).getD LEAF_KEYS_MIDPOINT [])
        == Ordering.eq) = true := by
    intro a ha
    obtain ⟨i, hi, heq⟩ := List.mem_iff_getElem.1 ha
    rw [List.length_drop] at hi
    have hmid : LEAF_KEYS_MIDPOINT < (splitCandidates ln K).length := by
      rw [hlen]
      decide
    have hmi : LEAF_KEYS_MIDPOINT + i < (splitCandidates ln K).length := by
      omega
    have hgetd : (splitCandidates ln K).getD LEAF_KEYS_MIDPOINT [] =
        (splitCandidates ln K)[LEAF_KEYS_MIDPOINT] := by
      rw [List.getD_eq_getElem?_getD, List.getElem?_eq_getElem hmid]
      rfl
    have ha2 : a = (splitCandidates ln K)[LEAF_KEYS_MIDPOINT + i] := by
      rw [← heq]
      rw [List.getElem_drop]
    rw [ordBeqEq]
    apply cstrcmp_antisym
    · have hamem : a ∈ ln.keys ++ [K] := by
        apply hperm.mem_iff.1
        rw [ha2]
        exact List.getElem_mem hmi
      exact hallle a hamem
    · rcases Nat.eq_zero_or_pos i with rfl | hipos
      · rw [hgetd, ha2]
        have : LEAF_KEYS_MIDPOINT + 0 = LEAF_KEYS_MIDPOINT := by omega
        simp only [this]
        rw [cstrcmp_eq_iff.2 rfl]
        intro hq
        cases hq
      · rw [hgetd, ha2]
        exact hpairg LEAF_KEYS_MIDPOINT (LEAF_KEYS_MIDPOINT + i) (by omega) hmi (by omega)
  have hcount : LEAF_KEYS_MIDPOINT + 1 ≤ (splitCandidates ln K).countP
      (fun a => cstrcmp a ((splitCandidates ln K).getD LEAF_KEYS_MIDPOINT [])
        == Ordering.eq) := by
    have hsplitl := List.take_append_drop LEAF_KEYS_MIDPOINT (splitCandidates ln K)
    have := List.countP_append
      (fun a => cstrcmp a ((splitCandidates ln K).getD LEAF_KEYS_MIDPOINT [])
        == Ordering.eq)
      ((splitCandidates ln K).take LEAF_KEYS_MIDPOINT)
      ((splitCandidates ln K).drop LEAF_KEYS_MIDPOINT)
    rw [hsplitl] at this
    rw [this]
    have hdl : ((splitCandidates ln K).drop LEAF_KEYS_MIDPOINT).countP
        (fun a => cstrcmp a ((splitCandidates ln K).getD LEAF_KEYS_MIDPOINT [])
          == Ordering.eq) = ((splitCandidates ln K).drop LEAF_KEYS_MIDPOINT).length :=
      List.countP_eq_length.2 hdrop
    rw [hdl, List.length_drop, hlen]
    have : LEAF_KEYS + 1 - LEAF_KEYS_MIDPOINT = LEAF_KEYS_MIDPOINT + 1 := by decide
    omega
  have hkeys2 : 2 ≤ ln.keys.countP
      (fun a => cstrcmp a ((splitCandidates ln K).getD LEAF_KEYS_MIDPOINT [])
        == Ordering.eq) := by
    have hpc := hperm.countP_eq
      (fun a => cstrcmp a ((splitCandidates ln K).getD LEAF_KEYS_MIDPOINT [])
        == Ordering.eq)
    rw [List.countP_append] at hpc
    have hK1 : List.countP
        (fun a => cstrcmp a ((splitCandidates ln K).getD LEAF_KEYS_MIDPOINT [])
          == Ordering.eq) [K] ≤ 1 := by
      have := @List.countP_le_length Bytes
        (fun a => cstrcmp a ((splitCandidates ln K).getD LEAF_KEYS_MIDPOINT [])
          == Ordering.eq) [K]
      simpa using this
    have hm25 : LEAF_KEYS_MIDPOINT + 1 = 25 := by decide
    omega
  obtain ⟨i, j, hij, hj, hpi, hpj⟩ := countP_two_exists ln.keys _ hkeys2
  rw [ordBeqEq] at hpi hpj
  rw [hk] at hj
  exact leafClassUniqB_spec hcul i j (by omega) hj (by omega)
    (hnz i (by omega)) (hnz j hj)
    (by rw [cstrcmp_eq_iff.1 hpi, cstrcmp_eq_iff.1 hpj])

/-- When the new key sorts strictly above the split key, not every leaf key
can: the split key is itself one of the candidates. -/
theorem split_not_all_gt (ln : KVLeafNode) (K : Bytes)
    (hk : ln.keys.length = LEAF_KEYS)
    (hKgt : cstrcmp K ((splitCandidates ln K).getD LEAF_KEYS_MIDPOINT []) = Ordering.gt)
    (hall : ∀ j, j < LEAF_KEYS → cstrcmp (ln.keys.getD j [])
      ((splitCandidates ln K).getD LEAF_KEYS_MIDPOINT []) = Ordering.gt) : False := by
  have hperm := splitCandidates_perm ln K hk
  have hlen : (splitCandidates ln K).length = LEAF_KEYS + 1 := by
    rw [hperm.length_eq, List.length_append, hk]
    rfl
  have hmem : (splitCandidates ln K).getD LEAF_KEYS_MIDPOINT [] ∈ splitCandidates ln K :=
    getD_mem (by rw [hlen]; decide)
  have hmem2 := hperm.mem_iff.1 hmem
  rcases List.mem_append.1 hmem2 with h2 | h2
  · obtain ⟨i, hi, heq⟩ := List.mem_iff_getElem.1 h2
    have hkey : ln.keys.getD i [] = (splitCandidates ln K).getD LEAF_KEYS_MIDPOINT [] := by
      rw [List.getD_eq_getElem?_getD, List.getElem?_eq_getElem hi]
      simpa using heq
    have h3 := hall i (by rw [← hk]; exact hi)
    rw [hkey] at h3
    have hself : cstrcmp ((splitCandidates ln K).getD LEAF_KEYS_MIDPOINT [])
        ((splitCandidates ln K).getD LEAF_KEYS_MIDPOINT []) = Ordering.eq :=
      cstrcmp_eq_iff.2 rfl
    rw [hself] at h3
    cases h3
  · rcases List.mem_singleton.1 h2 with heq
    have h3 := hKgt
    rw [heq] at h3
    have hself : cstrcmp K K = Ordering.eq := cstrcmp_eq_iff.2 rfl
    rw [hself] at h3
    cases h3

/-- After a split assembled along an ordered search path, `Get` of the new
key reaches the target leaf and reads the freshly written slot. -/
theorem splitState_get (s : KVTreeState) (t : KVNode) (ln : KVLeafNode) (path : List Frame)
    (K V sk : Bytes) (heap' : List KVLeaf) (lid : Nat) (chain2 pre2 : List Nat)
    (filled : KVLeafNode × KVLeafNode × KVLeaf × KVLeaf)
    (tl : KVLeafNode) (tpl : KVLeaf) (e : Nat)
    (htop : s.treeTop = some t)
    (hsearch : leafSearchGo K t [] = some (ln, path))
    (hshape : stateShapeB s = true)
    (hpo : pathOrdB path = true)
    (hlb : sepLB (holeBounds path).1 sk = true)
    (hub : sepUB (holeBounds path).2 sk = true)
    (hordl : treeOrderedB (holeBounds path).1 (some sk) (KVNode.leafn filled.1) = true)
    (hordr : treeOrderedB (some sk) (holeBounds path).2 (KVNode.leafn filled.2.1) = true)
    (hcase : (tl = filled.1 ∧ tpl = filled.2.2.1 ∧ tl.leaf = ln.leaf) ∨
             (tl = filled.2.1 ∧ tpl = filled.2.2.2 ∧ tl.leaf = lid))
    (hlnlt2 : ln.leaf < heap'.length)
    (hlidlt : lid < heap'.length)
    (hlidne : lid ≠ ln.leaf)
    (hscan : slotMatchScan tl.hashes tl.keys (PearsonHash K) K LEAF_KEYS = some e)
    (he2 : e < LEAF_KEYS)
    (hhe : tl.hashes.getD e 0 ≠ 0)
    (hke : cstrcmp (tl.keys.getD e []) K = Ordering.eq)
    (hval : cstr ((tpl.slots.getD e KVSlot.empty).valRegion) = cstr V) :
    KVTreeState.getStr
      { heap := (heap'.set ln.leaf filled.2.2.1).set lid filled.2.2.2
        chain := chain2
        treeTop := some (innerUpdateAfterSplit (KVNode.leafn filled.1)
          (KVNode.leafn filled.2.1) sk path)
        leavesPrealloc := pre2 } K = (KVStatus.OK, cstr V) := by
  obtain ⟨hheap, _, htree⟩ := stateShapeB_spec hshape
  obtain ⟨hnwf, hlens, _⟩ := htree t htop
  obtain ⟨fs, hfs1, _, hfswf, hplug⟩ := leafSearchGo_shape K t [] ln path hsearch
  rw [List.append_nil] at hfs1
  subst hfs1
  have hfull : ∀ f ∈ path, frameFullWF f := by
    intro f hf
    rcases leafSearchGo_fullWF K t [] ln path hnwf hsearch f hf with hin | hfw
    · exact absurd hin (List.not_mem_nil f)
    · exact hfw
  have hT2wf : nodeShapeWF (innerUpdateAfterSplit (KVNode.leafn filled.1)
      (KVNode.leafn filled.2.1) sk path) = true :=
    innerUpdate_shape path hfull _ _ sk rfl rfl
  have hT2ord : treeOrderedB none none (innerUpdateAfterSplit (KVNode.leafn filled.1)
      (KVNode.leafn filled.2.1) sk path) = true :=
    innerUpdate_ordered path _ _ sk hpo hlb hub hordl hordr
  obtain ⟨lnr, pr, hs2⟩ := leafSearch_total K (innerUpdateAfterSplit (KVNode.leafn filled.1)
    (KVNode.leafn filled.2.1) sk path) hT2wf []
  have hperm := innerUpdate_leaves path (fun f hf => (hfull f hf).1)
    (KVNode.leafn filled.1) (KVNode.leafn filled.2.1) sk
  obtain ⟨pre, post, hleaves⟩ := plugPath_leaves path hfswf
  have htlmem : tl ∈ treeLeaves (innerUpdateAfterSplit (KVNode.leafn filled.1)
      (KVNode.leafn filled.2.1) sk path) := by
    apply hperm.mem_iff.2
    rw [hleaves (KVNode.leafn filled.1), treeLeaves, treeLeaves]
    rcases hcase with ⟨h1, _, _⟩ | ⟨h1, _, _⟩
    · subst h1
      exact List.mem_append.2 (Or.inl (List.mem_append.2 (Or.inl
        (List.mem_append.2 (Or.inr (List.mem_singleton.2 rfl))))))
    · subst h1
      exact List.mem_append.2 (Or.inr (List.mem_singleton.2 rfl))
  have htleq : tl = lnr := ordered_search_class _ none none K [] lnr pr hT2ord hs2
    tl htlmem e he2 hhe hke
  subst htleq
  simp only [KVTreeState.getStr]
  rw [hs2]
  simp only [hscan]
  rcases hcase with ⟨h1, h2, h3⟩ | ⟨h1, h2, h3⟩
  · rw [h3, getD_set_ne hlidne, getD_set_self hlnlt2, ← h2, hval]
  · rw [h3, getD_set_self (by rw [List.length_set]; exact hlidlt), ← h2, hval]

/-- Facts about the split outcome when the new key sorts strictly above the
split key (the record goes to the new leaf): both descriptors are ordered on
either side of the split key, and the new leaf's scan finds the fresh slot,
whose persistent value region holds the stored value. -/
theorem splitTargetNew_facts (ln : KVLeafNode) (oldPl newPl : KVLeaf) (lid : Nat)
    (K V sk : Bytes) (lo hi : Option Bytes)
    (mv : KVLeafNode × KVLeafNode × KVLeaf × KVLeaf)
    (fb : KVLeafNode × KVLeaf)
    (hk : ln.keys.length = LEAF_KEYS) (hh : ln.hashes.length = LEAF_KEYS)
    (hop : oldPl.slots.length = LEAF_KEYS) (hnp : newPl.slots.length = LEAF_KEYS)
    (hsk : sk = (splitCandidates ln K).getD LEAF_KEYS_MIDPOINT [])
    (hmv : mv = splitMoveScan sk LEAF_KEYS (ln,
      KVLeafNode.mk (List.replicate LEAF_KEYS 0) (List.replicate LEAF_KEYS []) lid,
      oldPl, newPl))
    (hfb : fb = leafFillEmptySlot mv.2.1 mv.2.2.2 (PearsonHash K) K V)
    (hnz : ∀ j, j < LEAF_KEYS → ln.hashes.getD j 0 ≠ 0)
    (hnom : ∀ j, j < LEAF_KEYS → ¬(ln.hashes.getD j 0 = PearsonHash K ∧
      cstrcmp (ln.keys.getD j []) K = Ordering.eq))
    (hlnord : treeOrderedB lo hi (KVNode.leafn ln) = true)
    (hKgt : cstrcmp K sk = Ordering.gt)
    (hKlb : sepLB lo K = true) (hKub : keyUB hi K = true) :
    treeOrderedB lo (some sk) (KVNode.leafn mv.1) = true ∧
    treeOrderedB (some sk) hi (KVNode.leafn fb.1) = true ∧
    mv.1.leaf = ln.leaf ∧ fb.1.leaf = lid ∧
    ∃ e, e < LEAF_KEYS ∧ fb.1.hashes.getD e 0 ≠ 0 ∧
      cstrcmp (fb.1.keys.getD e []) K = Ordering.eq ∧
      slotMatchScan fb.1.hashes fb.1.keys (PearsonHash K) K LEAF_KEYS = some e ∧
      cstr ((fb.2.slots.getD e KVSlot.empty).valRegion) = cstr V := by
  have hwf0 : moveStWF (ln,
      KVLeafNode.mk (List.replicate LEAF_KEYS 0) (List.replicate LEAF_KEYS []) lid,
      oldPl, newPl) := ⟨hh, hk, by simp, by simp, hop, hnp⟩
  have hlord := treeOrderedB_leafn_iff.1 hlnord
  obtain ⟨w1, w2, w3, w4, w5, w6⟩ : moveStWF mv := by
    rw [hmv]
    exact splitMoveScan_wf sk LEAF_KEYS _ hwf0
  have hids : mv.1.leaf = ln.leaf ∧ mv.2.1.leaf = lid := by
    rw [hmv]
    exact splitMoveScan_leaf_ids sk LEAF_KEYS _
  -- a stayed slot keeps the original mirror pair; a moved slot is cleared
  have hstay : ∀ j, cstrcmp (ln.keys.getD j []) sk ≠ Ordering.gt →
      mv.1.hashes.getD j 0 = ln.hashes.getD j 0 ∧
      mv.1.keys.getD j [] = ln.keys.getD j [] ∧
      mv.2.1.hashes.getD j 0 = 0 := by
    intro j hng
    rw [hmv]
    obtain ⟨a1, a2, a3, a4, _, _⟩ := splitMoveScan_stay sk LEAF_KEYS (ln,
      KVLeafNode.mk (List.replicate LEAF_KEYS 0) (List.replicate LEAF_KEYS []) lid,
      oldPl, newPl) j (Or.inr hng)
    refine ⟨a1, a2, ?_⟩
    rw [a3]
    show (List.replicate LEAF_KEYS 0).getD j 0 = 0
    by_cases hjl : j < LEAF_KEYS
    · rw [getD_replicate hjl]
    · rw [List.getD_eq_default _ _ (by simpa using Nat.le_of_not_lt hjl)]
  have hmoved : ∀ j, j < LEAF_KEYS → cstrcmp (ln.keys.getD j []) sk = Ordering.gt →
      mv.1.hashes.getD j 0 = 0 ∧
      mv.2.1.hashes.getD j 0 = ln.hashes.getD j 0 ∧
      mv.2.1.keys.getD j [] = ln.keys.getD j [] := by
    intro j hjl hgt
    rw [hmv]
    obtain ⟨a1, _, a3, a4, _, _⟩ := splitMoveScan_moved sk LEAF_KEYS (ln,
      KVLeafNode.mk (List.replicate LEAF_KEYS 0) (List.replicate LEAF_KEYS []) lid,
      oldPl, newPl) j hwf0 (Nat.le_refl _) hjl hgt
    exact ⟨a1, a3, a4⟩
  -- the old descriptor after the move is ordered in (lo, sk]
  have hordold : treeOrderedB lo (some sk) (KVNode.leafn mv.1) = true := by
    rw [treeOrderedB_leafn_iff]
    intro i hil hnz2
    by_cases hgt : cstrcmp (ln.keys.getD i []) sk = Ordering.gt
    · exact absurd (hmoved i hil hgt).1 hnz2
    · obtain ⟨b1, b2, _⟩ := hstay i hgt
      rw [b2]
      rw [b1] at hnz2
      refine ⟨(hlord i hil hnz2).1, ?_⟩
      rw [keyUB, ordNeGt]
      exact hgt
  -- the new leaf has an empty slot
  rcases hfe : findEmptySlotScan mv.2.1.hashes LEAF_KEYS with _ | e
  · exfalso
    apply split_not_all_gt ln K hk (by rw [← hsk]; exact hKgt)
    intro j hjl
    by_cases hgt : cstrcmp (ln.keys.getD j []) sk = Ordering.gt
    · rw [hsk] at hgt
      exact hgt
    · exact absurd (hstay j hgt).2.2 (findEmptySlotScan_none hfe j hjl)
  · obtain ⟨hel, hez, _⟩ := findEmptySlotScan_some hfe
    have hfb2 : fb = (lfssMirror mv.2.1 (PearsonHash K) K e,
        lfssPersist mv.2.2.2 (PearsonHash K) K V e) := by
      rw [hfb]
      unfold leafFillEmptySlot
      rw [hfe]
      rfl
    have hfbm : fb.1 = lfssMirror mv.2.1 (PearsonHash K) K e := by rw [hfb2]
    have hfbp : fb.2 = lfssPersist mv.2.2.2 (PearsonHash K) K V e := by rw [hfb2]
    have hmirror : fb.1.hashes = mv.2.1.hashes.set e (PearsonHash K) ∧
        fb.1.keys = mv.2.1.keys.set e K := by
      rw [hfbm]
      unfold lfssMirror
      rw [if_pos hez]
      exact ⟨rfl, rfl⟩
    have hfh : fb.1.hashes.getD e 0 = PearsonHash K := by
      rw [hmirror.1, getD_set_self (by rw [w3]; exact hel)]
    have hfk : fb.1.keys.getD e [] = K := by
      rw [hmirror.2, getD_set_self (by rw [w4]; exact hel)]
    have hother : ∀ j, j ≠ e → fb.1.hashes.getD j 0 = mv.2.1.hashes.getD j 0 ∧
        fb.1.keys.getD j [] = mv.2.1.keys.getD j [] := by
      intro j hj
      rw [hmirror.1, hmirror.2, getD_set_ne (fun hq => hj hq.symm),
        getD_set_ne (fun hq => hj hq.symm)]
      exact ⟨rfl, rfl⟩
    refine ⟨hordold, ?_, hids.1, by rw [hfbm, lfssMirror_leaf]; exact hids.2,
      e, hel, ?_, ?_, ?_, ?_⟩
    · -- the new descriptor is ordered in (sk, hi]
      rw [treeOrderedB_leafn_iff]
      intro i hil hnz2
      by_cases hie : i = e
      · subst hie
        rw [hfk]
        refine ⟨?_, hKub⟩
        rw [sepLB, ordBeqEq]
        exact hKgt
      · obtain ⟨b1, b2⟩ := hother i hie
        rw [b1] at hnz2
        rw [b2]
        by_cases hgt : cstrcmp (ln.keys.getD i []) sk = Ordering.gt
        · obtain ⟨_, c2, c3⟩ := hmoved i hil hgt
          rw [c3]
          rw [c2] at hnz2
          refine ⟨?_, (hlord i hil hnz2).2⟩
          rw [sepLB, ordBeqEq]
          exact hgt
        · exact absurd (hstay i hgt).2.2 hnz2
    · rw [hfh]
      exact pearsonHash_ne_zero K
    · rw [hfk]
      exact cstrcmp_eq_iff.2 rfl
    · apply slotMatchScan_found hel hfh (by rw [hfk]; exact cstrcmp_eq_iff.2 rfl)
      intro j hj hjl hcon
      obtain ⟨b1, b2⟩ := hother j hj
      rw [b1, b2] at hcon
      by_cases hgt : cstrcmp (ln.keys.getD j []) sk = Ordering.gt
      · obtain ⟨_, c2, c3⟩ := hmoved j hjl hgt
        rw [c2, c3] at hcon
        exact hnom j hjl hcon
      · rw [(hstay j hgt).2.2] at hcon
        exact pearsonHash_ne_zero K hcon.1.symm
    · rw [hfbp]
      unfold lfssPersist
      simp only
      rw [getD_set_self (by rw [w6]; exact hel)]
      rw [slotSet_val]

/-- Facts about the split outcome when the new key sorts at or below the
split key (the record goes to the old leaf). -/
theorem splitTargetOld_facts (ln : KVLeafNode) (oldPl newPl : KVLeaf) (lid : Nat)
    (K V sk : Bytes) (lo hi : Option Bytes)
    (mv : KVLeafNode × KVLeafNode × KVLeaf × KVLeaf)
    (fb : KVLeafNode × KVLeaf)
    (hk : ln.keys.length = LEAF_KEYS) (hh : ln.hashes.length = LEAF_KEYS)
    (hop : oldPl.slots.length = LEAF_KEYS) (hnp : newPl.slots.length = LEAF_KEYS)
    (hsk : sk = (splitCandidates ln K).getD LEAF_KEYS_MIDPOINT [])
    (hmv : mv = splitMoveScan sk LEAF_KEYS (ln,
      KVLeafNode.mk (List.replicate LEAF_KEYS 0) (List.replicate LEAF_KEYS []) lid,
      oldPl, newPl))
    (hfb : fb = leafFillEmptySlot mv.1 mv.2.2.1 (PearsonHash K) K V)
    (hnz : ∀ j, j < LEAF_KEYS → ln.hashes.getD j 0 ≠ 0)
    (hnom : ∀ j, j < LEAF_KEYS → ¬(ln.hashes.getD j 0 = PearsonHash K ∧
      cstrcmp (ln.keys.getD j []) K = Ordering.eq))
    (hcul : leafClassUniqB ln = true)
    (hlnord : treeOrderedB lo hi (KVNode.leafn ln) = true)
    (hKle : cstrcmp K sk ≠ Ordering.gt)
    (hKlb : sepLB lo K = true) :
    treeOrderedB lo (some sk) (KVNode.leafn fb.1) = true ∧
    treeOrderedB (some sk) hi (KVNode.leafn mv.2.1) = true ∧
    fb.1.leaf = ln.leaf ∧ mv.2.1.leaf = lid ∧
    ∃ e, e < LEAF_KEYS ∧ fb.1.hashes.getD e 0 ≠ 0 ∧
      cstrcmp (fb.1.keys.getD e []) K = Ordering.eq ∧
      slotMatchScan fb.1.hashes fb.1.keys (PearsonHash K) K LEAF_KEYS = some e ∧
      cstr ((fb.2.slots.getD e KVSlot.empty).valRegion) = cstr V := by
  have hwf0 : moveStWF (ln,
      KVLeafNode.mk (List.replicate LEAF_KEYS 0) (List.replicate LEAF_KEYS []) lid,
      oldPl, newPl) := ⟨hh, hk, by simp, by simp, hop, hnp⟩
  have hlord := treeOrderedB_leafn_iff.1 hlnord
  obtain ⟨w1, w2, w3, w4, w5, w6⟩ : moveStWF mv := by
    rw [hmv]
    exact splitMoveScan_wf sk LEAF_KEYS _ hwf0
  have hids : mv.1.leaf = ln.leaf ∧ mv.2.1.leaf = lid := by
    rw [hmv]
    exact splitMoveScan_leaf_ids sk LEAF_KEYS _
  have hstay : ∀ j, cstrcmp (ln.keys.getD j []) sk ≠ Ordering.gt →
      mv.1.hashes.getD j 0 = ln.hashes.getD j 0 ∧
      mv.1.keys.getD j [] = ln.keys.getD j [] ∧
      mv.2.1.hashes.getD j 0 = 0 := by
    intro j hng
    rw [hmv]
    obtain ⟨a1, a2, a3, a4, _, _⟩ := splitMoveScan_stay sk LEAF_KEYS (ln,
      KVLeafNode.mk (List.replicate LEAF_KEYS 0) (List.replicate LEAF_KEYS []) lid,
      oldPl, newPl) j (Or.inr hng)
    refine ⟨a1, a2, ?_⟩
    rw [a3]
    show (List.replicate LEAF_KEYS 0).getD j 0 = 0
    by_cases hjl : j < LEAF_KEYS
    · rw [getD_replicate hjl]
    · rw [List.getD_eq_default _ _ (by simpa using Nat.le_of_not_lt hjl)]
  have hmoved : ∀ j, j < LEAF_KEYS → cstrcmp (ln.keys.getD j []) sk = Ordering.gt →
      mv.1.hashes.getD j 0 = 0 ∧
      mv.2.1.hashes.getD j 0 = ln.hashes.getD j 0 ∧
      mv.2.1.keys.getD j [] = ln.keys.getD j [] := by
    intro j hjl hgt
    rw [hmv]
    obtain ⟨a1, _, a3, a4, _, _⟩ := splitMoveScan_moved sk LEAF_KEYS (ln,
      KVLeafNode.mk (List.replicate LEAF_KEYS 0) (List.replicate LEAF_KEYS []) lid,
      oldPl, newPl) j hwf0 (Nat.le_refl _) hjl hgt
    exact ⟨a1, a3, a4⟩
  have hordnew : treeOrderedB (some sk) hi (KVNode.leafn mv.2.1) = true := by
    rw [treeOrderedB_leafn_iff]
    intro i hil hnz2
    by_cases hgt : cstrcmp (ln.keys.getD i []) sk = Ordering.gt
    · obtain ⟨_, c2, c3⟩ := hmoved i hil hgt
      rw [c3]
      rw [c2] at hnz2
      refine ⟨?_, (hlord i hil hnz2).2⟩
      rw [sepLB, ordBeqEq]
      exact hgt
    · exact absurd (hstay i hgt).2.2 hnz2
  obtain ⟨j0, hj0l, hj0gt⟩ := split_exists_gt ln K hk hh hnz hcul (by rw [← hsk]; exact hKle)
  rw [← hsk] at hj0gt
  rcases hfe : findEmptySlotScan mv.1.hashes LEAF_KEYS with _ | e
  · exact absurd (hmoved j0 hj0l hj0gt).1 (findEmptySlotScan_none hfe j0 hj0l)
  · obtain ⟨hel, hez, _⟩ := findEmptySlotScan_some hfe
    have hfb2 : fb = (lfssMirror mv.1 (PearsonHash K) K e,
        lfssPersist mv.2.2.1 (PearsonHash K) K V e) := by
      rw [hfb]
      unfold leafFillEmptySlot
      rw [hfe]
      rfl
    have hfbm : fb.1 = lfssMirror mv.1 (PearsonHash K) K e := by rw [hfb2]
    have hfbp : fb.2 = lfssPersist mv.2.2.1 (PearsonHash K) K V e := by rw [hfb2]
    have hmirror : fb.1.hashes = mv.1.hashes.set e (PearsonHash K) ∧
        fb.1.keys = mv.1.keys.set e K := by
      rw [hfbm]
      unfold lfssMirror
      rw [if_pos hez]
      exact ⟨rfl, rfl⟩
    have hfh : fb.1.hashes.getD e 0 = PearsonHash K := by
      rw [hmirror.1, getD_set_self (by rw [w1]; exact hel)]
    have hfk : fb.1.keys.getD e [] = K := by
      rw [hmirror.2, getD_set_self (by rw [w2]; exact hel)]
    have hother : ∀ j, j ≠ e → fb.1.hashes.getD j 0 = mv.1.hashes.getD j 0 ∧
        fb.1.keys.getD j [] = mv.1.keys.getD j [] := by
      intro j hj
      rw [hmirror.1, hmirror.2, getD_set_ne (fun hq => hj hq.symm),
        getD_set_ne (fun hq => hj hq.symm)]
      exact ⟨rfl, rfl⟩
    refine ⟨?_, hordnew, by rw [hfbm, lfssMirror_leaf]; exact hids.1, hids.2,
      e, hel, ?_, ?_, ?_, ?_⟩
    · rw [treeOrderedB_leafn_iff]
      intro i hil hnz2
      by_cases hie : i = e
      · subst hie
        rw [hfk]
        refine ⟨hKlb, ?_⟩
        rw [keyUB, ordNeGt]
        exact hKle
      · obtain ⟨b1, b2⟩ := hother i hie
        rw [b1] at hnz2
        rw [b2]
        by_cases hgt : cstrcmp (ln.keys.getD i []) sk = Ordering.gt
        · exact absurd (hmoved i hil hgt).1 hnz2
        · obtain ⟨c1, c2, _⟩ := hstay i hgt
          rw [c2]
          rw [c1] at hnz2
          refine ⟨(hlord i hil hnz2).1, ?_⟩
          rw [keyUB, ordNeGt]
          exact hgt
    · rw [hfh]
      exact pearsonHash_ne_zero K
    · rw [hfk]
      exact cstrcmp_eq_iff.2 rfl
    · apply slotMatchScan_found hel hfh (by rw [hfk]; exact cstrcmp_eq_iff.2 rfl)
      intro j hj hjl hcon
      obtain ⟨b1, b2⟩ := hother j hj
      rw [b1, b2] at hcon
      by_cases hgt : cstrcmp (ln.keys.getD j []) sk = Ordering.gt
      · rw [(hmoved j hjl hgt).1] at hcon
        exact pearsonHash_ne_zero K hcon.1.symm
      · obtain ⟨c1, c2, _⟩ := hstay j hgt
        rw [c1, c2] at hcon
        exact hnom j hjl hcon
    · rw [hfbp]
      unfold lfssPersist
      simp only
      rw [getD_set_self (by rw [w5]; exact hel)]
      rw [slotSet_val]

/-- The split key respects the leaf's exclusive lower bound: it is one of
the candidates, each of which does. -/
theorem split_sk_lb (ln : KVLeafNode) (K : Bytes) (lo hi : Option Bytes)
    (hk : ln.keys.length = LEAF_KEYS)
    (hnz : ∀ j, j < LEAF_KEYS → ln.hashes.getD j 0 ≠ 0)
    (hlnord : treeOrderedB lo hi (KVNode.leafn ln) = true)
    (hKlb : sepLB lo K = true) :
    sepLB lo ((splitCandidates ln K).getD LEAF_KEYS_MIDPOINT []) = true := by
  have hperm := splitCandidates_perm ln K hk
  have hlen : (splitCandidates ln K).length = LEAF_KEYS + 1 := by
    rw [hperm.length_eq, List.length_append, hk]
    rfl
  have hmem : (splitCandidates ln K).getD LEAF_KEYS_MIDPOINT [] ∈ splitCandidates ln K :=
    getD_mem (by rw [hlen]; decide)
  have hmem2 := hperm.mem_iff.1 hmem
  rcases List.mem_append.1 hmem2 with h2 | h2
  · obtain ⟨i, hi, heq⟩ := List.mem_iff_getElem.1 h2
    have hkey : ln.keys.getD i [] = (splitCandidates ln K).getD LEAF_KEYS_MIDPOINT [] := by
      rw [List.getD_eq_getElem?_getD, List.getElem?_eq_getElem hi]
      simpa using heq
    rw [← hkey]
    exact (treeOrderedB_leafn_iff.1 hlnord i (by rw [← hk]; exact hi)
      (hnz i (by rw [← hk]; exact hi))).1
  · rcases List.mem_singleton.1 h2 with heq
    rw [← heq] at hKlb
    exact hKlb

/-- The split path of `Put` followed by `Get` of the same key delivers the
C-string prefix of the stored value, provided the split key lies strictly
below the reached subtree's upper separator. -/
theorem putSplit_get (s : KVTreeState) (t : KVNode) (ln : KVLeafNode) (path : List Frame)
    (K V : Bytes)
    (htop : s.treeTop = some t)
    (hsearch : leafSearchGo K t [] = some (ln, path))
    (hchoose : leafChooseSlot ln (PearsonHash K) K = none)
    (hshape : stateShapeB s = true)
    (hcu : stateClassUniqB s = true)
    (hord : stateOrderedB s = true)
    (hsz : stateSizedB s = true)
    (hstrict : sepUB (holeBounds path).2
      ((splitCandidates ln K).getD LEAF_KEYS_MIDPOINT []) = true) :
    (putSplit s ln path (PearsonHash K) K V false).2.getStr K = (KVStatus.OK, cstr V) := by
  obtain ⟨hheap, hpre, htree⟩ := stateShapeB_spec hshape
  obtain ⟨hnwf, hlens, hnod⟩ := htree t htop
  have hlnmem : ln ∈ treeLeaves t := search_leaf_mem hsearch
  have hlnlt : ln.leaf < s.heap.length := (hlens ln hlnmem).2.2
  have hk : ln.keys.length = LEAF_KEYS := (hlens ln hlnmem).2.1
  have hh : ln.hashes.length = LEAF_KEYS := (hlens ln hlnmem).1
  have hnzleaf : ∀ j, j < LEAF_KEYS → ln.hashes.getD j 0 ≠ 0 :=
    fun j hj => (leafChooseSlot_none hchoose j hj).1
  have hnom : ∀ j, j < LEAF_KEYS → ¬(ln.hashes.getD j 0 = PearsonHash K ∧
      cstrcmp (ln.keys.getD j []) K = Ordering.eq) :=
    fun j hj => (leafChooseSlot_none hchoose j hj).2
  have hcul : leafClassUniqB ln = true := by
    simp only [stateClassUniqB, htop] at hcu
    rw [List.all_eq_true] at hcu
    exact hcu ln hlnmem
  have htord : treeOrderedB none none t = true := by
    simp only [stateOrderedB, htop] at hord
    exact hord
  have htsz : treeSizedB t = true := by
    simp only [stateSizedB, htop] at hsz
    exact hsz
  obtain ⟨hpo, hklb, hkub, hlnord⟩ :=
    search_path_ordered t [] K ln path htsz htord rfl rfl rfl hsearch
  have hsklb : sepLB (holeBounds path).1
      ((splitCandidates ln K).getD LEAF_KEYS_MIDPOINT []) = true :=
    split_sk_lb ln K _ _ hk hnzleaf hlnord hklb
  have hdisj : ∀ lid2 ∈ s.leavesPrealloc, lid2 ≠ ln.leaf := by
    intro lid2 h2 hq
    exact List.disjoint_of_nodup_append hnod
      (by rw [hq]; exact List.mem_map_of_mem _ hlnmem) h2
  rcases hlast : s.leavesPrealloc.getLast? with _ | lid
  · -- fresh persistent leaf appended at the end of the heap
    have hop : ((s.heap ++ [KVLeaf.empty]).getD ln.leaf KVLeaf.empty).slots.length =
        LEAF_KEYS := by
      rw [getD_append_left hlnlt]
      exact hheap _ (getD_mem hlnlt)
    have hnp : ((s.heap ++ [KVLeaf.empty]).getD s.heap.length KVLeaf.empty).slots.length =
        LEAF_KEYS := by
      rw [getD_append_length, KVLeaf.empty]
      simp
    simp only [putSplit, hlast, Bool.false_eq_true, if_false]
    by_cases htn : cstrcmp K ((splitCandidates ln K).getD LEAF_KEYS_MIDPOINT []) =
        Ordering.gt
    · rw [if_pos htn]
      obtain ⟨f1, f2, f3, f4, e, he1, he2, he3, he4, he5⟩ :=
        splitTargetNew_facts ln ((s.heap ++ [KVLeaf.empty]).getD ln.leaf KVLeaf.empty)
          ((s.heap ++ [KVLeaf.empty]).getD s.heap.length KVLeaf.empty) s.heap.length
          K V ((splitCandidates ln K).getD LEAF_KEYS_MIDPOINT [])
          (holeBounds path).1 (holeBounds path).2 _ _ hk hh hop hnp rfl rfl rfl
          hnzleaf hnom hlnord htn hklb hkub
      exact splitState_get s t ln path K V
        ((splitCandidates ln K).getD LEAF_KEYS_MIDPOINT [])
        (s.heap ++ [KVLeaf.empty]) s.heap.length _ _ _ _ _ e
        htop hsearch hshape hpo hsklb hstrict f1 f2 (Or.inr ⟨rfl, rfl, f4⟩)
        (by rw [List.length_append]; omega)
        (by rw [List.length_append]; simp)
        (by omega)
        he4 he1 he2 he3 he5
    · rw [if_neg htn]
      obtain ⟨f1, f2, f3, f4, e, he1, he2, he3, he4, he5⟩ :=
        splitTargetOld_facts ln ((s.heap ++ [KVLeaf.empty]).getD ln.leaf KVLeaf.empty)
          ((s.heap ++ [KVLeaf.empty]).getD s.heap.length KVLeaf.empty) s.heap.length
          K V ((splitCandidates ln K).getD LEAF_KEYS_MIDPOINT [])
          (holeBounds path).1 (holeBounds path).2 _ _ hk hh hop hnp rfl rfl rfl
          hnzleaf hnom hcul hlnord htn hklb
      exact splitState_get s t ln path K V
        ((splitCandidates ln K).getD LEAF_KEYS_MIDPOINT [])
        (s.heap ++ [KVLeaf.empty]) s.heap.length _ _ _ _ _ e
        htop hsearch hshape hpo hsklb hstrict f1 f2 (Or.inl ⟨rfl, rfl, f3⟩)
        (by rw [List.length_append]; omega)
        (by rw [List.length_append]; simp)
        (by omega)
        he4 he1 he2 he3 he5
  · -- pop the free list
    have hlidmem : lid ∈ s.leavesPrealloc := by
      rcases List.mem_getLast?_eq_getLast (show lid ∈ s.leavesPrealloc.getLast? from hlast)
        with ⟨hne, heq⟩
      rw [heq]
      exact List.getLast_mem hne
    have hlidlt : lid < s.heap.length := hpre lid hlidmem
    have hlidne : lid ≠ ln.leaf := hdisj lid hlidmem
    have hop : (s.heap.getD ln.leaf KVLeaf.empty).slots.length = LEAF_KEYS :=
      hheap _ (getD_mem hlnlt)
    have hnp : (s.heap.getD lid KVLeaf.empty).slots.length = LEAF_KEYS :=
      hheap _ (getD_mem hlidlt)
    simp only [putSplit, hlast, Bool.false_eq_true, if_false]
    by_cases htn : cstrcmp K ((splitCandidates ln K).getD LEAF_KEYS_MIDPOINT []) =
        Ordering.gt
    · rw [if_pos htn]
      obtain ⟨f1, f2, f3, f4, e, he1, he2, he3, he4, he5⟩ :=
        splitTargetNew_facts ln (s.heap.getD ln.leaf KVLeaf.empty)
          (s.heap.getD lid KVLeaf.empty) lid
          K V ((splitCandidates ln K).getD LEAF_KEYS_MIDPOINT [])
          (holeBounds path).1 (holeBounds path).2 _ _ hk hh hop hnp rfl rfl rfl
          hnzleaf hnom hlnord htn hklb hkub
      exact splitState_get s t ln path K V
        ((splitCandidates ln K).getD LEAF_KEYS_MIDPOINT [])
        s.heap lid _ _ _ _ _ e
        htop hsearch hshape hpo hsklb hstrict f1 f2 (Or.inr ⟨rfl, rfl, f4⟩)
        hlnlt hlidlt hlidne he4 he1 he2 he3 he5
    · rw [if_neg htn]
      obtain ⟨f1, f2, f3, f4, e, he1, he2, he3, he4, he5⟩ :=
        splitTargetOld_facts ln (s.heap.getD ln.leaf KVLeaf.empty)
          (s.heap.getD lid KVLeaf.empty) lid
          K V ((splitCandidates ln K).getD LEAF_KEYS_MIDPOINT [])
          (holeBounds path).1 (holeBounds path).2 _ _ hk hh hop hnp rfl rfl rfl
          hnzleaf hnom hcul hlnord htn hklb
      exact splitState_get s t ln path K V
        ((splitCandidates ln K).getD LEAF_KEYS_MIDPOINT [])
        s.heap lid _ _ _ _ _ e
        htop hsearch hshape hpo hsklb hstrict f1 f2 (Or.inl ⟨rfl, rfl, f3⟩)
        hlnlt hlidlt hlidne he4 he1 he2 he3 he5

/-- The proviso for `Put`: when the put must split a leaf, the computed
split key sorts strictly below the reached subtree's upper separator in
`strcmp` order (always true on states without embedded-zero key classes at
the boundary; on other paths the condition is vacuous). -/
def putSplitStrict (s : KVTreeState) (key : Bytes) : Bool :=
  match s.treeTop with
  | none => true
  | some t =>
    match leafSearchGo key t [] with
    | none => true
    | some (ln, path) =>
      match leafChooseSlot ln (PearsonHash key) key with
      | some _ => true
      | none => sepUB (holeBounds path).2
          ((splitCandidates ln key).getD LEAF_KEYS_MIDPOINT [])

/-- C1 (amended): on a structurally well-formed, `strcmp`-ordered,
capacity-bounded state whose leaves hold pairwise distinct C-string keys,
`put(K, V)` returns `OK` and an immediately following `get(K)` (string-sink
variant) returns `OK` with the value truncated at its first embedded zero
byte (`cstr V`; byte-identical exactly when `V` has no embedded zero) — not
the byte-identical value of the original claim (see the counterexample).
For the split path the split key must sort strictly below the subtree's
upper separator (`putSplitStrict`). -/
theorem C1_put_get (s : KVTreeState) (K V : Bytes)
    (hshape : stateShapeB s = true)
    (hcu : stateClassUniqB s = true)
    (hord : stateOrderedB s = true)
    (hsz : stateSizedB s = true)
    (hstrict : putSplitStrict s K = true) :
    (s.put K V false).1 = KVStatus.OK ∧
    (s.put K V false).2.getStr K = (KVStatus.OK, cstr V) := by
  rcases htop : s.treeTop with _ | t
  · simp only [KVTreeState.put, htop]
    exact putNewHead_get s K V hshape
  · rcases hsearch : leafSearchGo K t [] with _ | ⟨ln, path⟩
    · exfalso
      obtain ⟨_, _, htree⟩ := stateShapeB_spec hshape
      obtain ⟨ln2, p2, hs2⟩ := leafSearch_total K t (htree t htop).1 []
      rw [hsearch] at hs2
      cases hs2
    · rcases hchoose : leafChooseSlot ln (PearsonHash K) K with _ | slot
      · simp only [KVTreeState.put, htop, hsearch, hchoose]
        have hst : (putSplit s ln path (PearsonHash K) K V false).1 = KVStatus.OK := by
          rcases hlast : s.leavesPrealloc.getLast? with _ | lid <;>
            simp only [putSplit, hlast, Bool.false_eq_true, if_false]
        refine ⟨hst, ?_⟩
        apply putSplit_get s t ln path K V htop hsearch hchoose hshape hcu hord hsz
        simp only [putSplitStrict, htop, hsearch, hchoose] at hstrict
        exact hstrict
      · simp only [KVTreeState.put, htop, hsearch, hchoose]
        refine ⟨by simp only [putFill, Bool.false_eq_true, if_false], ?_⟩
        exact putFill_get s t ln path K V slot htop hsearch hchoose hshape hcu

/-- Witness for C1: a state with one record, putting a value with an
embedded zero byte; `get` returns its C-string prefix. -/
theorem C1_witness :
    stateShapeB (KVTreeState.fresh.put [97] [5] false).2 = true ∧
    stateClassUniqB (KVTreeState.fresh.put [97] [5] false).2 = true ∧
    stateOrderedB (KVTreeState.fresh.put [97] [5] false).2 = true ∧
    stateSizedB (KVTreeState.fresh.put [97] [5] false).2 = true ∧
    putSplitStrict (KVTreeState.fresh.put [97] [5] false).2 [98] = true ∧
    ((((KVTreeState.fresh.put [97] [5] false).2).put [98] [6, 0, 7] false).1 =
        KVStatus.OK ∧
      (((KVTreeState.fresh.put [97] [5] false).2).put [98] [6, 0, 7] false).2.getStr [98] =
        (KVStatus.OK, cstr [6, 0, 7])) :=
  ⟨by decide, by decide, by decide, by decide, by decide,
    C1_put_get (KVTreeState.fresh.put [97] [5] false).2 [98] [6, 0, 7]
      (by decide) (by decide) (by decide) (by decide) (by decide)⟩

/-! ## Recovery rebuilds an equivalent tree (C4) -/

mutual
/-- All stored keys of the tree are at most `m` and all separators strictly
below `m`, in `strcmp` order. -/
def treeBoundedB (m : Bytes) : KVNode → Bool
  | KVNode.leafn ln => (List.range LEAF_KEYS).all fun i =>
      (ln.hashes.getD i 0 == 0) || keyUB (some m) (ln.keys.getD i [])
  | KVNode.inner ks cs => ks.all (fun k => sepUB (some m) k) && forestBoundedB m cs

/-- `treeBoundedB` for every child. -/
def forestBoundedB (m : Bytes) : List KVNode → Bool
  | [] => true
  | c :: cs => treeBoundedB m c && forestBoundedB m cs
end

theorem forestBoundedB_mem {m : Bytes} {cs : List KVNode} (h : forestBoundedB m cs = true)
    {c : KVNode} (hc : c ∈ cs) : treeBoundedB m c = true := by
  induction cs with
  | nil => exact absurd hc (List.not_mem_nil c)
  | cons d ds ih =>
    rw [forestBoundedB, Bool.and_eq_true] at h
    rcases List.mem_cons.1 hc with rfl | hc2
    · exact h.1
    · exact ih h.2 hc2

theorem forestBoundedB_iff {m : Bytes} {cs : List KVNode} :
    forestBoundedB m cs = true ↔ ∀ c ∈ cs, treeBoundedB m c = true := by
  constructor
  · exact fun h c hc => forestBoundedB_mem h hc
  · intro h
    induction cs with
    | nil => rfl
    | cons d ds ih =>
      rw [forestBoundedB, Bool.and_eq_true]
      exact ⟨h d (List.mem_cons_self d ds),
        ih (fun c hc => h c (List.mem_cons_of_mem d hc))⟩

/-- Widening the bound. -/
theorem treeBoundedB_widen (t : KVNode) :
    ∀ (m m2 : Bytes), cstrcmp m m2 ≠ Ordering.gt →
    treeBoundedB m t = true → treeBoundedB m2 t = true :=
  match t with
  | KVNode.leafn ln => by
    intro m m2 hle h
    rw [treeBoundedB, List.all_eq_true] at h ⊢
    intro i hi
    have h2 := h i hi
    rw [Bool.or_eq_true] at h2 ⊢
    rcases h2 with h2 | h2
    · exact Or.inl h2
    · refine Or.inr ?_
      rw [keyUB, ordNeGt] at h2 ⊢
      exact cstrcmp_le_trans h2 hle
  | KVNode.inner ks cs => by
    intro m m2 hle h
    rw [treeBoundedB, Bool.and_eq_true] at h ⊢
    refine ⟨?_, ?_⟩
    · rw [List.all_eq_true] at h ⊢
      intro k hk
      have h2 := (h.1 k hk)
      rw [sepUB, ordBeqEq] at h2 ⊢
      exact bytesCmp_lt_of_lt_of_le h2 hle
    · rw [forestBoundedB_iff] at h ⊢
      exact fun c hc => treeBoundedB_widen c m m2 hle (h.2 c hc)
termination_by sizeOf t
decreasing_by
  have hmem2 := List.sizeOf_lt_of_mem hc
  simp only [KVNode.inner.sizeOf_spec]
  omega

theorem forestSizedB_iff {cs : List KVNode} :
    forestSizedB cs = true ↔ ∀ c ∈ cs, treeSizedB c = true := by
  constructor
  · exact fun h c hc => forestSizedB_mem h hc
  · intro h
    induction cs with
    | nil => rfl
    | cons d ds ih =>
      rw [forestSizedB, Bool.and_eq_true]
      exact ⟨h d (List.mem_cons_self d ds),
        ih (fun c hc => h c (List.mem_cons_of_mem d hc))⟩

/-- Capacity bound for the sibling subtrees recorded in a path's frames. -/
def pathSizedB (path : List Frame) : Bool :=
  path.all fun f => forestSizedB f.children

/-- `m` bounds every separator and subtree recorded in a path's frames. -/
def pathBoundedB (m : Bytes) (path : List Frame) : Bool :=
  path.all fun f => f.keys.all (fun k => sepUB (some m) k) && forestBoundedB m f.children

theorem plugPath_sized : ∀ (fs : List Frame), pathOrdB fs = true → pathSizedB fs = true →
    ∀ n, treeSizedB n = true → treeSizedB (plugPath n fs) = true := by
  intro fs
  induction fs with
  | nil => intro _ _ n hn; exact hn
  | cons f rest ih =>
    intro hp hs n hn
    rw [pathOrdB, Bool.and_eq_true, Bool.and_eq_true] at hp
    rw [pathSizedB, List.all_cons, Bool.and_eq_true] at hs
    have hstep : plugPath n (f :: rest) = plugPath (plugFrame n f) rest := rfl
    rw [hstep]
    apply ih hp.2 hs.2
    rw [plugFrame, treeSizedB, Bool.and_eq_true]
    refine ⟨hp.1.2, ?_⟩
    rw [forestSizedB_iff]
    intro c hc
    rcases List.mem_or_eq_of_mem_set hc with hc2 | rfl
    · exact forestSizedB_iff.1 hs.1 c hc2
    · exact hn

theorem plugPath_bounded (m : Bytes) : ∀ (fs : List Frame), pathBoundedB m fs = true →
    ∀ n, treeBoundedB m n = true → treeBoundedB m (plugPath n fs) = true := by
  intro fs
  induction fs with
  | nil => intro _ n hn; exact hn
  | cons f rest ih =>
    intro hb n hn
    rw [pathBoundedB, List.all_cons, Bool.and_eq_true, Bool.and_eq_true] at hb
    have hstep : plugPath n (f :: rest) = plugPath (plugFrame n f) rest := rfl
    rw [hstep]
    apply ih hb.2
    rw [plugFrame, treeBoundedB, Bool.and_eq_true]
    refine ⟨hb.1.1, ?_⟩
    rw [forestBoundedB_iff]
    intro c hc
    rcases List.mem_or_eq_of_mem_set hc with hc2 | rfl
    · exact forestBoundedB_iff.1 hb.1.2 c hc2
    · exact hn

/-- `InnerUpdateAfterSplit` preserves the inner-node capacity bound. -/
theorem innerUpdate_sized : ∀ (fs : List Frame) (n1 n2 : KVNode) (k : Bytes),
    pathOrdB fs = true → pathSizedB fs = true →
    treeSizedB n1 = true → treeSizedB n2 = true →
    treeSizedB (innerUpdateAfterSplit n1 n2 k fs) = true := by
  intro fs
  induction fs with
  | nil =>
    intro n1 n2 k _ _ h1 h2
    rw [innerUpdateAfterSplit, treeSizedB, Bool.and_eq_true]
    refine ⟨by rw [decide_eq_true_iff, List.length_cons, List.length_nil]; decide, ?_⟩
    rw [forestSizedB, forestSizedB, forestSizedB, h1, h2]
    rfl
  | cons f rest ih =>
    intro n1 n2 k hp hs h1 h2
    rw [pathOrdB, Bool.and_eq_true, Bool.and_eq_true] at hp
    obtain ⟨⟨hch, hklen⟩, hrest⟩ := hp
    rw [decide_eq_true_iff] at hklen
    rw [pathSizedB, List.all_cons, Bool.and_eq_true] at hs
    obtain ⟨hsf, hsrest⟩ := hs
    obtain ⟨hple, hclen⟩ := chainHoleB_lengths f.idx f.keys f.children _ _ hch
    have hidxle : insertIdx f.keys k ≤ f.keys.length := List.findIdx_le_length _
    have hinsb : insertIdx f.keys k + 1 ≤ (f.children.set f.idx n1).length := by
      rw [List.length_set, hclen]
      omega
    have hk2 : (f.keys.insertIdx (insertIdx f.keys k) k).length = f.keys.length + 1 :=
      List.length_insertIdx _ _ hidxle
    have hmem2 : ∀ c, c ∈ (f.children.set f.idx n1).insertIdx (insertIdx f.keys k + 1) n2 →
        treeSizedB c = true := by
      intro c hc
      rcases (List.mem_insertIdx hinsb).1 hc with rfl | hc2
      · exact h2
      · rcases List.mem_or_eq_of_mem_set hc2 with hc3 | rfl
        · exact forestSizedB_iff.1 hsf c hc3
        · exact h1
    rw [innerUpdateAfterSplit]
    split
    · rename_i hle
      apply plugPath_sized rest hrest hsrest
      rw [treeSizedB, Bool.and_eq_true]
      exact ⟨decide_eq_true hle, forestSizedB_iff.2 hmem2⟩
    · rename_i hover
      apply ih _ _ _ hrest hsrest
      · rw [treeSizedB, Bool.and_eq_true]
        constructor
        · rw [decide_eq_true_iff, List.length_take]
          have hmin := Nat.min_le_left INNER_KEYS_MIDPOINT
            (f.keys.insertIdx (insertIdx f.keys k) k).length
          have hmi : INNER_KEYS_MIDPOINT ≤ INNER_KEYS := by decide
          omega
        · rw [forestSizedB_iff]
          intro c hc
          exact hmem2 c (List.mem_of_mem_take hc)
      · rw [treeSizedB, Bool.and_eq_true]
        constructor
        · rw [decide_eq_true_iff, List.length_drop, hk2]
          have hui : INNER_KEYS_UPPER = 3 := rfl
          have hin : INNER_KEYS = 4 := rfl
          omega
        · rw [forestSizedB_iff]
          intro c hc
          exact hmem2 c (List.mem_of_mem_drop hc)

/-- `InnerUpdateAfterSplit` keeps every key of the result at or below a
bound that dominates its arguments and the path's frames. -/
theorem innerUpdate_bounded (m : Bytes) : ∀ (fs : List Frame) (n1 n2 : KVNode) (k : Bytes),
    pathOrdB fs = true → pathBoundedB m fs = true →
    treeBoundedB m n1 = true → treeBoundedB m n2 = true → sepUB (some m) k = true →
    treeBoundedB m (innerUpdateAfterSplit n1 n2 k fs) = true := by
  intro fs
  induction fs with
  | nil =>
    intro n1 n2 k _ _ h1 h2 hk
    rw [innerUpdateAfterSplit, treeBoundedB, Bool.and_eq_true]
    constructor
    · rw [List.all_cons, List.all_nil, hk]
      rfl
    · rw [forestBoundedB, forestBoundedB, forestBoundedB, h1, h2]
      rfl
  | cons f rest ih =>
    intro n1 n2 k hp hb h1 h2 hk
    rw [pathOrdB, Bool.and_eq_true, Bool.and_eq_true] at hp
    obtain ⟨⟨hch, hklen⟩, hrest⟩ := hp
    rw [decide_eq_true_iff] at hklen
    rw [pathBoundedB, List.all_cons, Bool.and_eq_true, Bool.and_eq_true] at hb
    obtain ⟨⟨hbk, hbc⟩, hbrest⟩ := hb
    obtain ⟨hple, hclen⟩ := chainHoleB_lengths f.idx f.keys f.children _ _ hch
    have hidxle : insertIdx f.keys k ≤ f.keys.length := List.findIdx_le_length _
    have hinsb : insertIdx f.keys k + 1 ≤ (f.children.set f.idx n1).length := by
      rw [List.length_set, hclen]
      omega
    have hk2 : (f.keys.insertIdx (insertIdx f.keys k) k).length = f.keys.length + 1 :=
      List.length_insertIdx _ _ hidxle
    have hkeys2 : ∀ x ∈ f.keys.insertIdx (insertIdx f.keys k) k, sepUB (some m) x = true := by
      intro x hx
      rcases (List.mem_insertIdx hidxle).1 hx with rfl | hx2
      · exact hk
      · exact List.all_eq_true.1 hbk x hx2
    have hmem2 : ∀ c, c ∈ (f.children.set f.idx n1).insertIdx (insertIdx f.keys k + 1) n2 →
        treeBoundedB m c = true := by
      intro c hc
      rcases (List.mem_insertIdx hinsb).1 hc with rfl | hc2
      · exact h2
      · rcases List.mem_or_eq_of_mem_set hc2 with hc3 | rfl
        · exact forestBoundedB_iff.1 hbc c hc3
        · exact h1
    rw [innerUpdateAfterSplit]
    split
    · apply plugPath_bounded m rest hbrest
      rw [treeBoundedB, Bool.and_eq_true]
      exact ⟨List.all_eq_true.2 hkeys2, forestBoundedB_iff.2 hmem2⟩
    · rename_i hover
      apply ih _ _ _ hrest hbrest
      · rw [treeBoundedB, Bool.and_eq_true]
        refine ⟨List.all_eq_true.2 fun x hx => hkeys2 x (List.mem_of_mem_take hx), ?_⟩
        rw [forestBoundedB_iff]
        intro c hc
        exact hmem2 c (List.mem_of_mem_take hc)
      · rw [treeBoundedB, Bool.and_eq_true]
        refine ⟨List.all_eq_true.2 fun x hx => hkeys2 x (List.mem_of_mem_drop hx), ?_⟩
        rw [forestBoundedB_iff]
        intro c hc
        exact hmem2 c (List.mem_of_mem_drop hc)
      · have hlt : INNER_KEYS_MIDPOINT < (f.keys.insertIdx (insertIdx f.keys k) k).length := by
          rw [hk2]
          have hmi : INNER_KEYS_MIDPOINT < INNER_KEYS := by decide
          omega
        exact hkeys2 _ (getD_mem hlt)

/-- Descending to the rightmost leaf of an ordered, sized tree: the recorded
path is ordered, sized and bounded, the hole keeps the starting upper bound,
the hole's lower bound stays strictly below any `X` that dominates the tree,
and the reached node is ordered and bounded within the hole's bounds. -/
theorem rightmost_path_facts (t : KVNode) :
    ∀ (path0 : List Frame) (X : Bytes),
    treeSizedB t = true →
    treeOrderedB (holeBounds path0).1 (holeBounds path0).2 t = true →
    treeBoundedB X t = true →
    pathOrdB path0 = true → pathSizedB path0 = true → pathBoundedB X path0 = true →
    sepLB (holeBounds path0).1 X = true →
    pathOrdB (rightmostPath t path0).2 = true ∧
    pathSizedB (rightmostPath t path0).2 = true ∧
    pathBoundedB X (rightmostPath t path0).2 = true ∧
    (holeBounds (rightmostPath t path0).2).2 = (holeBounds path0).2 ∧
    sepLB (holeBounds (rightmostPath t path0).2).1 X = true ∧
    treeOrderedB (holeBounds (rightmostPath t path0).2).1
      (holeBounds (rightmostPath t path0).2).2 (rightmostPath t path0).1 = true ∧
    treeBoundedB X (rightmostPath t path0).1 = true ∧
    treeSizedB (rightmostPath t path0).1 = true :=
  match t with
  | KVNode.leafn ln0 => by
    intro path0 X _ hord hbnd hpo hps hpb hlbX
    rw [rightmostPath]
    exact ⟨hpo, hps, hpb, rfl, hlbX, hord, hbnd, rfl⟩
  | KVNode.inner ks cs => by
    intro path0 X hsz hord hbnd hpo hps hpb hlbX
    rw [treeSizedB, Bool.and_eq_true, decide_eq_true_iff] at hsz
    rw [treeOrderedB] at hord
    rw [treeBoundedB, Bool.and_eq_true] at hbnd
    have hlen : cs.length = ks.length + 1 := chainB_lengths ks cs _ _ hord
    have hidxlt : cs.length - 1 < cs.length := by omega
    have hidx : cs.length - 1 = ks.length := by omega
    rw [rightmostPath]
    obtain ⟨c, hc, he⟩ := rightmostChild_eq cs (cs.length - 1) (KVNode.inner ks cs, path0)
      (Frame.mk ks cs (cs.length - 1) :: path0) hidxlt
    rw [he]
    have hb2e : (holeBounds (Frame.mk ks cs (cs.length - 1) :: path0)).2 =
        (holeBounds path0).2 := by
      show (if cs.length - 1 = ks.length then (holeBounds path0).2
        else some (ks.getD (cs.length - 1) [])) = (holeBounds path0).2
      rw [if_pos hidx]
    have hb1e : (holeBounds (Frame.mk ks cs (cs.length - 1) :: path0)).1 =
        (if cs.length - 1 = 0 then (holeBounds path0).1
          else some (ks.getD (cs.length - 1 - 1) [])) := rfl
    have hpo2 : pathOrdB (Frame.mk ks cs (cs.length - 1) :: path0) = true := by
      rw [pathOrdB, Bool.and_eq_true, Bool.and_eq_true]
      exact ⟨⟨chainB_to_hole (cs.length - 1) ks cs _ _ hord hidxlt,
        decide_eq_true hsz.1⟩, hpo⟩
    have hps2 : pathSizedB (Frame.mk ks cs (cs.length - 1) :: path0) = true := by
      rw [pathSizedB, List.all_cons, Bool.and_eq_true]
      exact ⟨hsz.2, hps⟩
    have hpb2 : pathBoundedB X (Frame.mk ks cs (cs.length - 1) :: path0) = true := by
      rw [pathBoundedB, List.all_cons, Bool.and_eq_true, Bool.and_eq_true]
      exact ⟨⟨hbnd.1, hbnd.2⟩, hpb⟩
    have hlbX2 : sepLB (holeBounds (Frame.mk ks cs (cs.length - 1) :: path0)).1 X = true := by
      rw [hb1e]
      by_cases h0 : cs.length - 1 = 0
      · rw [if_pos h0]
        exact hlbX
      · rw [if_neg h0]
        have hkslt : cs.length - 1 - 1 < ks.length := by omega
        have hsep := List.all_eq_true.1 hbnd.1 (ks.getD (cs.length - 1 - 1) [])
          (getD_mem hkslt)
        rw [sepUB, ordBeqEq] at hsep
        rw [sepLB, ordBeqEq]
        exact cstrcmp_gt_iff_lt.2 hsep
    have hcord : treeOrderedB (holeBounds (Frame.mk ks cs (cs.length - 1) :: path0)).1
        (holeBounds (Frame.mk ks cs (cs.length - 1) :: path0)).2 c = true := by
      have h2 := chainB_child ks cs _ _ hord (cs.length - 1) c hc
      rw [hb1e, hb2e]
      rw [if_pos hidx] at h2
      exact h2
    have hrec := rightmost_path_facts c (Frame.mk ks cs (cs.length - 1) :: path0) X
      (forestSizedB_mem hsz.2 (List.get?_mem hc)) hcord
      (forestBoundedB_mem hbnd.2 (List.get?_mem hc)) hpo2 hps2 hpb2 hlbX2
    obtain ⟨hr1, hr2, hr3, hr4, hr5, hr6, hr7, hr8⟩ := hrec
    exact ⟨hr1, hr2, hr3, hr4.trans hb2e, hr5, hr6, hr7, hr8⟩
termination_by sizeOf t
decreasing_by
  have hmem3 := List.sizeOf_lt_of_mem (List.get?_mem hc)
  simp only [KVNode.inner.sizeOf_spec]
  omega

theorem recoverMaxKey_zero (slots : List KVSlot) (mk : Option Bytes) :
    recoverMaxKey slots 0 mk = mk := rfl

theorem recoverMaxKey_succ (slots : List KVSlot) (n : Nat) (mk : Option Bytes) :
    recoverMaxKey slots (n + 1) mk =
      (if (slots.getD n KVSlot.empty).hash = 0 then recoverMaxKey slots n mk
       else match mk with
         | none => recoverMaxKey slots n (some (slots.getD n KVSlot.empty).keyCStr)
         | some m =>
           if bytesCmp m (slots.getD n KVSlot.empty).keyCStr = Ordering.lt then
             recoverMaxKey slots n (some (slots.getD n KVSlot.empty).keyCStr)
           else recoverMaxKey slots n mk) := rfl

/-- The `max_key` scan: its result dominates the accumulator and every
nonzero slot's key, and is the accumulator or one of those keys. -/
theorem recoverMaxKey_facts (slots : List KVSlot) :
    ∀ (n : Nat) (mk : Option Bytes) (m : Bytes),
    recoverMaxKey slots n mk = some m →
    (∀ j, j < n → (slots.getD j KVSlot.empty).hash ≠ 0 →
      bytesCmp (slots.getD j KVSlot.empty).keyCStr m ≠ Ordering.gt) ∧
    ((∃ j, j < n ∧ (slots.getD j KVSlot.empty).hash ≠ 0 ∧
        m = (slots.getD j KVSlot.empty).keyCStr) ∨ mk = some m) ∧
    (∀ m0, mk = some m0 → bytesCmp m0 m ≠ Ordering.gt) := by
  intro n
  induction n with
  | zero =>
    intro mk m h
    rw [recoverMaxKey_zero] at h
    refine ⟨fun j hj => absurd hj (Nat.not_lt_zero j), Or.inr h, fun m0 hm0 => ?_⟩
    rw [h] at hm0
    have heq : m = m0 := Option.some.inj hm0
    rw [heq, bytesCmp_self]
    intro hq
    cases hq
  | succ n ih =>
    intro mk m h
    rw [recoverMaxKey_succ] at h
    by_cases hz : (slots.getD n KVSlot.empty).hash = 0
    · rw [if_pos hz] at h
      obtain ⟨c1, c2, c3⟩ := ih mk m h
      refine ⟨fun j hj hnz => ?_, ?_, c3⟩
      · rcases Nat.lt_succ_iff_lt_or_eq.1 hj with hj2 | rfl
        · exact c1 j hj2 hnz
        · exact absurd hz hnz
      · rcases c2 with ⟨j, hj1, hj2, hj3⟩ | hc
        · exact Or.inl ⟨j, Nat.lt_succ_of_lt hj1, hj2, hj3⟩
        · exact Or.inr hc
    · rw [if_neg hz] at h
      rcases mk with _ | m0p
      · simp only at h
        obtain ⟨c1, c2, c3⟩ := ih _ m h
        refine ⟨fun j hj hnz => ?_, ?_, fun m0 hm0 => by simp at hm0⟩
        · rcases Nat.lt_succ_iff_lt_or_eq.1 hj with hj2 | rfl
          · exact c1 j hj2 hnz
          · exact c3 _ rfl
        · rcases c2 with ⟨j, hj1, hj2, hj3⟩ | hc
          · exact Or.inl ⟨j, Nat.lt_succ_of_lt hj1, hj2, hj3⟩
          · exact Or.inl ⟨n, Nat.lt_succ_self n, hz, (Option.some.inj hc).symm⟩
      · simp only at h
        by_cases hlt : bytesCmp m0p (slots.getD n KVSlot.empty).keyCStr = Ordering.lt
        · rw [if_pos hlt] at h
          obtain ⟨c1, c2, c3⟩ := ih _ m h
          refine ⟨fun j hj hnz => ?_, ?_, fun m0 hm0 => ?_⟩
          · rcases Nat.lt_succ_iff_lt_or_eq.1 hj with hj2 | rfl
            · exact c1 j hj2 hnz
            · exact c3 _ rfl
          · rcases c2 with ⟨j, hj1, hj2, hj3⟩ | hc
            · exact Or.inl ⟨j, Nat.lt_succ_of_lt hj1, hj2, hj3⟩
            · exact Or.inl ⟨n, Nat.lt_succ_self n, hz, (Option.some.inj hc).symm⟩
          · have heq : m0p = m0 := Option.some.inj hm0
            rw [← heq]
            exact bytesCmp_le_trans (bytesCmp_not_gt_of_lt hlt) (c3 _ rfl)
        · rw [if_neg hlt] at h
          obtain ⟨c1, c2, c3⟩ := ih _ m h
          refine ⟨fun j hj hnz => ?_, ?_, fun m0 hm0 => ?_⟩
          · rcases Nat.lt_succ_iff_lt_or_eq.1 hj with hj2 | hj2
            · exact c1 j hj2 hnz
            · rw [hj2] at hnz ⊢
              have hle : bytesCmp (slots.getD n KVSlot.empty).keyCStr m0p ≠ Ordering.gt := by
                  rcases hcmp : bytesCmp m0p (slots.getD n KVSlot.empty).keyCStr with _ | _ | _
                  · exact absurd hcmp hlt
                  · rw [bytesCmp_eq_iff.1 hcmp, bytesCmp_self]
                    intro hq
                    cases hq
                  · rw [bytesCmp_gt_iff_lt.1 hcmp]
                    intro hq
                    cases hq
              exact bytesCmp_le_trans hle (c3 _ rfl)
          · rcases c2 with ⟨j, hj1, hj2, hj3⟩ | hc
            · exact Or.inl ⟨j, Nat.lt_succ_of_lt hj1, hj2, hj3⟩
            · exact Or.inr hc
          · have heq : m0p = m0 := Option.some.inj hm0
            rw [← heq]
            exact c3 _ rfl

/-- A `max_key` scan that found nothing saw only empty slots (and started
with no accumulator). -/
theorem recoverMaxKey_none (slots : List KVSlot) :
    ∀ (n : Nat) (mk : Option Bytes), recoverMaxKey slots n mk = none →
    mk = none ∧ ∀ j, j < n → (slots.getD j KVSlot.empty).hash = 0 := by
  intro n
  induction n with
  | zero =>
    intro mk h
    rw [recoverMaxKey_zero] at h
    exact ⟨h, fun j hj => absurd hj (Nat.not_lt_zero j)⟩
  | succ n ih =>
    intro mk h
    rw [recoverMaxKey_succ] at h
    by_cases hz : (slots.getD n KVSlot.empty).hash = 0
    · rw [if_pos hz] at h
      obtain ⟨hmk, hall⟩ := ih mk h
      refine ⟨hmk, fun j hj => ?_⟩
      rcases Nat.lt_succ_iff_lt_or_eq.1 hj with hj2 | rfl
      · exact hall j hj2
      · exact hz
    · rw [if_neg hz] at h
      rcases mk with _ | m0p
      · simp only at h
        exact absurd (ih _ h).1 (by simp)
      · simp only at h
        by_cases hlt : bytesCmp m0p (slots.getD n KVSlot.empty).keyCStr = Ordering.lt
        · rw [if_pos hlt] at h
          exact absurd (ih _ h).1 (by simp)
        · rw [if_neg hlt] at h
          exact absurd (ih _ h).1 (by simp)

/-- On an all-empty prefix the `max_key` scan keeps its accumulator. -/
theorem recoverMaxKey_all_zero (slots : List KVSlot) :
    ∀ (n : Nat) (mk : Option Bytes), (∀ j, j < n → (slots.getD j KVSlot.empty).hash = 0) →
    recoverMaxKey slots n mk = mk := by
  intro n
  induction n with
  | zero => intro mk _; rw [recoverMaxKey_zero]
  | succ n ih =>
    intro mk hall
    rw [recoverMaxKey_succ, if_pos (hall n (Nat.lt_succ_self n))]
    exact ih mk (fun j hj => hall j (Nat.lt_succ_of_lt hj))

/-- The recovery walk, characterized: the free list is the fully empty
chain leaves in chain order, and the tokens are the non-empty chain leaves
in chain order, each carrying its descriptor and `max_key`. -/
theorem recoverWalk_eq (heap : List KVLeaf) :
    ∀ (ch : List Nat) (acc : List Nat × List (KVLeafNode × Bytes)),
    ch.foldl (fun acc lid =>
        let pl := heap.getD lid KVLeaf.empty
        match recoverMaxKey pl.slots LEAF_KEYS none with
        | none => (acc.1 ++ [lid], acc.2)
        | some mk => (acc.1, acc.2 ++ [(recoverLeafNode lid pl, mk)])) acc =
      (acc.1 ++ ch.filter (fun lid =>
          (recoverMaxKey (heap.getD lid KVLeaf.empty).slots LEAF_KEYS none).isNone),
       acc.2 ++ (ch.filter (fun lid =>
          !(recoverMaxKey (heap.getD lid KVLeaf.empty).slots LEAF_KEYS none).isNone)).map
         (fun lid => (recoverLeafNode lid (heap.getD lid KVLeaf.empty),
           (recoverMaxKey (heap.getD lid KVLeaf.empty).slots LEAF_KEYS none).getD []))) := by
  intro ch
  induction ch with
  | nil => intro acc; simp
  | cons lid ch ih =>
    intro acc
    rw [List.foldl_cons]
    rcases hmk : recoverMaxKey (heap.getD lid KVLeaf.empty).slots LEAF_KEYS none with _ | mk
    · simp only [hmk]
      rw [ih]
      rw [List.filter_cons, List.filter_cons]
      have hc1 : (fun lid => (recoverMaxKey (heap.getD lid KVLeaf.empty).slots
          LEAF_KEYS none).isNone) lid = true := by
        show (recoverMaxKey (heap.getD lid KVLeaf.empty).slots LEAF_KEYS none).isNone = true
        rw [hmk]
        rfl
      have hc2 : ¬ ((fun lid => !(recoverMaxKey (heap.getD lid KVLeaf.empty).slots
          LEAF_KEYS none).isNone) lid = true) := by
        show ¬ ((!(recoverMaxKey (heap.getD lid KVLeaf.empty).slots
          LEAF_KEYS none).isNone) = true)
        rw [hmk]
        simp
      rw [if_pos hc1, if_neg hc2]
      simp [List.append_assoc]
    · simp only [hmk]
      rw [ih]
      rw [List.filter_cons, List.filter_cons]
      have hc1 : ¬ ((fun lid => (recoverMaxKey (heap.getD lid KVLeaf.empty).slots
          LEAF_KEYS none).isNone) lid = true) := by
        show ¬ ((recoverMaxKey (heap.getD lid KVLeaf.empty).slots
          LEAF_KEYS none).isNone = true)
        rw [hmk]
        simp
      have hc2 : (fun lid => !(recoverMaxKey (heap.getD lid KVLeaf.empty).slots
          LEAF_KEYS none).isNone) lid = true := by
        show (!(recoverMaxKey (heap.getD lid KVLeaf.empty).slots
          LEAF_KEYS none).isNone) = true
        rw [hmk]
        rfl
      rw [if_neg hc1, if_pos hc2]
      rw [List.map_cons]
      rw [hmk]
      simp [List.append_assoc]

theorem recoverWalk_spec (heap : List KVLeaf) (chain : List Nat) :
    recoverWalk heap chain =
      (chain.filter (fun lid =>
          (recoverMaxKey (heap.getD lid KVLeaf.empty).slots LEAF_KEYS none).isNone),
       (chain.filter (fun lid =>
          !(recoverMaxKey (heap.getD lid KVLeaf.empty).slots LEAF_KEYS none).isNone)).map
         (fun lid => (recoverLeafNode lid (heap.getD lid KVLeaf.empty),
           (recoverMaxKey (heap.getD lid KVLeaf.empty).slots LEAF_KEYS none).getD []))) := by
  unfold recoverWalk
  rw [recoverWalk_eq heap chain ([], [])]
  simp

theorem cstrcmp_cstr_left (a b : Bytes) : cstrcmp (cstr a) b = cstrcmp a b := by
  unfold cstrcmp
  rw [cstr_zero_free]

theorem cstrcmp_cstr_right (a b : Bytes) : cstrcmp a (cstr b) = cstrcmp a b := by
  unfold cstrcmp
  rw [cstr_zero_free]

/-- Every stored key of the first leaf sorts strictly below every stored key
of the second, in `strcmp` order. -/
def leafLt (A B : KVLeafNode) : Prop :=
  ∀ i, i < LEAF_KEYS → A.hashes.getD i 0 ≠ 0 → ∀ j, j < LEAF_KEYS → B.hashes.getD j 0 ≠ 0 →
    cstrcmp (A.keys.getD i []) (B.keys.getD j []) = Ordering.lt

mutual

/-- In an ordered tree the leaves, in tree order, hold pairwise strictly
increasing key sets. -/
theorem treeOrdered_leaves_sep (t : KVNode) : ∀ (lo hi : Option Bytes),
    treeOrderedB lo hi t = true → List.Pairwise leafLt (treeLeaves t) :=
  match t with
  | KVNode.leafn ln => by
    intro lo hi _
    rw [treeLeaves]
    exact List.pairwise_singleton _ _
  | KVNode.inner ks cs => by
    intro lo hi h
    rw [treeLeaves]
    rw [treeOrderedB] at h
    exact chainOrdered_leaves_sep ks cs lo hi h
termination_by sizeOf t
decreasing_by
  simp only [KVNode.inner.sizeOf_spec]
  omega

/-- The forest version of `treeOrdered_leaves_sep` for an ordered chain. -/
theorem chainOrdered_leaves_sep (ks : List Bytes) (cs : List KVNode) :
    ∀ (lo hi : Option Bytes),
    chainB lo hi ks cs = true → List.Pairwise leafLt (forestLeaves cs) :=
  match ks, cs with
  | [], [] => by intro lo hi h; simp [chainB] at h
  | [], [c] => by
    intro lo hi h
    rw [forestLeaves, forestLeaves, List.append_nil]
    rw [chainB] at h
    exact treeOrdered_leaves_sep c lo hi h
  | [], c :: d :: cs => by intro lo hi h; simp [chainB] at h
  | k :: ks, [] => by intro lo hi h; simp [chainB] at h
  | k :: ks, c :: cs => by
    intro lo hi h
    rw [forestLeaves]
    rw [chainB, Bool.and_eq_true, Bool.and_eq_true, Bool.and_eq_true] at h
    obtain ⟨⟨⟨hc, hlb⟩, hub⟩, hrest⟩ := h
    rw [List.pairwise_append]
    refine ⟨treeOrdered_leaves_sep c lo (some k) hc,
      chainOrdered_leaves_sep ks cs (some k) hi hrest, ?_⟩
    intro a ha b hb
    intro i hi2 hnzA j hj2 hnzB
    have hA := (treeOrdered_leaf_keys c lo (some k) hc a ha i hi2 hnzA).2
    have hB := (treeOrdered_leaf_keys (KVNode.inner ks cs) (some k) hi
      (by rw [treeOrderedB]; exact hrest) b (by rw [treeLeaves]; exact hb) j hj2 hnzB).1
    rw [keyUB, ordNeGt] at hA
    rw [sepLB, ordBeqEq] at hB
    exact bytesCmp_lt_of_le_of_lt hA (cstrcmp_gt_iff_lt.1 hB)
termination_by sizeOf cs
decreasing_by
  all_goals simp only [List.cons.sizeOf_spec]
  all_goals omega

end

theorem kvslot_hash (sl : KVSlot) : sl.hash = sl.ph := rfl

theorem keyCStr_zero_free (sl : KVSlot) : cstr sl.keyCStr = sl.keyCStr := by
  unfold KVSlot.keyCStr
  exact cstr_zero_free _

theorem recoverLeafNode_leaf (lid : Nat) (pl : KVLeaf) :
    (recoverLeafNode lid pl).leaf = lid := rfl

theorem recoverLeafNode_hash (lid : Nat) (pl : KVLeaf) {j : Nat} (hj : j < LEAF_KEYS) :
    (recoverLeafNode lid pl).hashes.getD j 0 = (pl.slots.getD j KVSlot.empty).hash := by
  unfold recoverLeafNode
  simp only
  rw [getD_map_range hj]

theorem recoverLeafNode_key (lid : Nat) (pl : KVLeaf) {j : Nat} (hj : j < LEAF_KEYS)
    (hnz : (pl.slots.getD j KVSlot.empty).hash ≠ 0) :
    (recoverLeafNode lid pl).keys.getD j [] = (pl.slots.getD j KVSlot.empty).keyCStr := by
  unfold recoverLeafNode
  simp only
  rw [getD_map_range hj, if_neg hnz]

/-- The chain covers exactly the leaves in use: every chain identifier is a
tree leaf or free-listed, every tree leaf identifier is on the chain, and
the chain links each persistent leaf once. -/
def chainCoverB (s : KVTreeState) : Bool :=
  (s.chain.all fun lid =>
    (match s.treeTop with
     | none => false
     | some t => (treeLeaves t).any fun ln => ln.leaf == lid) ||
    (s.leavesPrealloc.any fun x => x == lid)) &&
  (match s.treeTop with
   | none => true
   | some t => (treeLeaves t).all fun ln => s.chain.any fun x => x == ln.leaf) &&
  decide s.chain.Nodup

theorem chainCoverB_spec {s : KVTreeState} (h : chainCoverB s = true) :
    (∀ lid ∈ s.chain, (∃ t, s.treeTop = some t ∧ ∃ ln ∈ treeLeaves t, ln.leaf = lid) ∨
      lid ∈ s.leavesPrealloc) ∧
    (∀ t, s.treeTop = some t → ∀ ln ∈ treeLeaves t, ln.leaf ∈ s.chain) ∧
    s.chain.Nodup := by
  unfold chainCoverB at h
  rw [Bool.and_eq_true, Bool.and_eq_true] at h
  obtain ⟨⟨h1, h2⟩, h3⟩ := h
  rw [List.all_eq_true] at h1
  refine ⟨fun lid hlid => ?_, fun t ht ln hln => ?_, of_decide_eq_true h3⟩
  · have ha := h1 lid hlid
    rw [Bool.or_eq_true] at ha
    rcases ha with ha | ha
    · rcases htop : s.treeTop with _ | t
      · rw [htop] at ha
        exact absurd ha (by simp)
      · rw [htop] at ha
        simp only at ha
        rw [List.any_eq_true] at ha
        obtain ⟨ln, hln, hleq⟩ := ha
        rw [beq_iff_eq] at hleq
        exact Or.inl ⟨t, rfl, ln, hln, hleq⟩
    · rw [List.any_eq_true] at ha
      obtain ⟨x, hx, hxeq⟩ := ha
      rw [beq_iff_eq] at hxeq
      rw [← hxeq]
      exact Or.inr hx
  · rw [ht] at h2
    simp only at h2
    rw [List.all_eq_true] at h2
    have := h2 ln hln
    rw [List.any_eq_true] at this
    obtain ⟨x, hx, hxeq⟩ := this
    rw [beq_iff_eq] at hxeq
    rw [hxeq] at hx
    exact hx

/-- Every token of the walk is the descriptor and `max_key` of some chain
leaf. -/
theorem recoverWalk_token_facts (heap : List KVLeaf) (chain : List Nat) :
    ∀ tok ∈ (recoverWalk heap chain).2, ∃ lid mk2,
      lid ∈ chain ∧ tok = (recoverLeafNode lid (heap.getD lid KVLeaf.empty), mk2) ∧
      recoverMaxKey (heap.getD lid KVLeaf.empty).slots LEAF_KEYS none = some mk2 := by
  intro tok htok
  rw [recoverWalk_spec] at htok
  simp only at htok
  obtain ⟨lid, hlid, heq⟩ := List.mem_map.1 htok
  have hmem := List.mem_of_mem_filter hlid
  have hpred := List.of_mem_filter hlid
  rcases hmk : recoverMaxKey (heap.getD lid KVLeaf.empty).slots LEAF_KEYS none with _ | mk2
  · rw [hmk] at hpred
    exact absurd hpred (by simp)
  · refine ⟨lid, mk2, hmem, ?_, hmk⟩
    rw [← heq]
    show (recoverLeafNode lid (heap.getD lid KVLeaf.empty),
      (recoverMaxKey (heap.getD lid KVLeaf.empty).slots LEAF_KEYS none).getD []) =
      (recoverLeafNode lid (heap.getD lid KVLeaf.empty), mk2)
    rw [hmk]
    rfl

/-- Every token's `max_key` is zero-free and dominates the token
descriptor's stored keys in `strcmp` order. -/
theorem token_own_facts (heap : List KVLeaf) (chain : List Nat) :
    ∀ tok ∈ (recoverWalk heap chain).2,
      cstr tok.2 = tok.2 ∧
      (∀ j, j < LEAF_KEYS → tok.1.hashes.getD j 0 ≠ 0 →
        cstrcmp (tok.1.keys.getD j []) tok.2 ≠ Ordering.gt) := by
  intro tok htok
  obtain ⟨lid, mk2, hlid, heqtok, hmk⟩ := recoverWalk_token_facts heap chain tok htok
  obtain ⟨c1, c2, _⟩ := recoverMaxKey_facts (heap.getD lid KVLeaf.empty).slots
    LEAF_KEYS none mk2 hmk
  rcases c2 with ⟨j0, hj0, hj0nz, hj0eq⟩ | hc
  · have hzf : cstr mk2 = mk2 := by
      rw [hj0eq]
      exact keyCStr_zero_free _
    subst heqtok
    refine ⟨hzf, fun j hj hnz => ?_⟩
    have hphj : ((heap.getD lid KVLeaf.empty).slots.getD j KVSlot.empty).hash ≠ 0 := by
      rw [← recoverLeafNode_hash lid _ hj]
      exact hnz
    have hle := c1 j hj hphj
    show cstrcmp ((recoverLeafNode lid (heap.getD lid KVLeaf.empty)).keys.getD j []) mk2 ≠
      Ordering.gt
    rw [recoverLeafNode_key lid _ hj hphj]
    have hcc : cstrcmp ((heap.getD lid KVLeaf.empty).slots.getD j KVSlot.empty).keyCStr mk2 =
        bytesCmp ((heap.getD lid KVLeaf.empty).slots.getD j KVSlot.empty).keyCStr mk2 := by
      unfold cstrcmp
      rw [keyCStr_zero_free, hzf]
    rw [hcc]
    exact hle
  · exact absurd hc (by simp)

/-- A nonempty chain leaf is (the backing leaf of) a tree descriptor. -/
theorem chain_nonempty_tree_leaf (s : KVTreeState) (t : KVNode)
    (ht : s.treeTop = some t) (hcover : chainCoverB s = true) (hpz : preallocZeroB s = true)
    (lid : Nat) (mk2 : Bytes) (hlid : lid ∈ s.chain)
    (hmk : recoverMaxKey (s.heap.getD lid KVLeaf.empty).slots LEAF_KEYS none = some mk2) :
    ∃ lnS, lnS ∈ treeLeaves t ∧ lnS.leaf = lid := by
  obtain ⟨hc1, _, _⟩ := chainCoverB_spec hcover
  rcases hc1 lid hlid with ⟨t2, ht2, lnS, hlnS, heq⟩ | hpre
  · rw [ht] at ht2
    have ht3 : t = t2 := Option.some.inj ht2
    rw [ht3]
    exact ⟨lnS, hlnS, heq⟩
  · exfalso
    have hz := preallocZeroB_spec hpz lid hpre
    have hnone : recoverMaxKey (s.heap.getD lid KVLeaf.empty).slots LEAF_KEYS none = none :=
      recoverMaxKey_all_zero _ _ _ (fun j hj => by rw [kvslot_hash]; exact hz j hj)
    rw [hnone] at hmk
    exact Option.noConfusion hmk

/-- Two distinct tokens sorted weakly ascending by `max_key` are strictly
separated: the earlier `max_key` is strictly smaller, and every key of the
later token lies strictly above the earlier `max_key`. -/
theorem token_pair_sep (s : KVTreeState) (t : KVNode)
    (ht : s.treeTop = some t) (hmir : stateMirrorB s = true)
    (hord : treeOrderedB none none t = true)
    (hcover : chainCoverB s = true) (hpz : preallocZeroB s = true) :
    ∀ tokA tokB, tokA ∈ (recoverWalk s.heap s.chain).2 →
    tokB ∈ (recoverWalk s.heap s.chain).2 →
    tokA.1.leaf ≠ tokB.1.leaf →
    (bytesCmp tokA.2 tokB.2 != Ordering.gt) = true →
    cstrcmp tokA.2 tokB.2 = Ordering.lt ∧
    (∀ j, j < LEAF_KEYS → tokB.1.hashes.getD j 0 ≠ 0 →
      cstrcmp (tokB.1.keys.getD j []) tokA.2 = Ordering.gt) := by
  intro tokA tokB hA hB hne hle
  obtain ⟨lidA, mkA, hlidA, heqA, hmkA⟩ := recoverWalk_token_facts s.heap s.chain tokA hA
  obtain ⟨lidB, mkB, hlidB, heqB, hmkB⟩ := recoverWalk_token_facts s.heap s.chain tokB hB
  subst heqA
  subst heqB
  have hne2 : lidA ≠ lidB := fun hq => hne (by rw [hq])
  have hle2 : (bytesCmp mkA mkB != Ordering.gt) = true := hle
  obtain ⟨cA1, cA2, _⟩ := recoverMaxKey_facts (s.heap.getD lidA KVLeaf.empty).slots
    LEAF_KEYS none mkA hmkA
  obtain ⟨cB1, cB2, _⟩ := recoverMaxKey_facts (s.heap.getD lidB KVLeaf.empty).slots
    LEAF_KEYS none mkB hmkB
  rcases cA2 with ⟨jA, hjA, hjAnz, hjAeq⟩ | hcA
  swap
  · exact absurd hcA (by simp)
  rcases cB2 with ⟨jB, hjB, hjBnz, hjBeq⟩ | hcB
  swap
  · exact absurd hcB (by simp)
  have hzfA : cstr mkA = mkA := by
    rw [hjAeq]
    exact keyCStr_zero_free _
  have hzfB : cstr mkB = mkB := by
    rw [hjBeq]
    exact keyCStr_zero_free _
  obtain ⟨lnSA, hlnSA, hleafA⟩ := chain_nonempty_tree_leaf s t ht hcover hpz lidA mkA
    hlidA hmkA
  obtain ⟨lnSB, hlnSB, hleafB⟩ := chain_nonempty_tree_leaf s t ht hcover hpz lidB mkB
    hlidB hmkB
  have hmirall : (treeLeaves t).all (leafMirrorB s.heap) = true := by
    unfold stateMirrorB at hmir
    rw [ht] at hmir
    exact hmir
  rw [List.all_eq_true] at hmirall
  have hmirA : pairMirror lnSA (s.heap.getD lidA KVLeaf.empty) := by
    have := leafMirrorB_iff.1 (hmirall lnSA hlnSA)
    rw [hleafA] at this
    exact this
  have hmirB : pairMirror lnSB (s.heap.getD lidB KVLeaf.empty) := by
    have := leafMirrorB_iff.1 (hmirall lnSB hlnSB)
    rw [hleafB] at this
    exact this
  have hnzA2 : lnSA.hashes.getD jA 0 ≠ 0 := by
    rw [(hmirA jA hjA).1]
    exact hjAnz
  have hnzB2 : lnSB.hashes.getD jB 0 ≠ 0 := by
    rw [(hmirB jB hjB).1]
    exact hjBnz
  have hclsA : cstr (lnSA.keys.getD jA []) = mkA := by
    rw [hjAeq]
    exact (hmirA jA hjA).2 hjAnz
  have hclsB : cstr (lnSB.keys.getD jB []) = mkB := by
    rw [hjBeq]
    exact (hmirB jB hjB).2 hjBnz
  obtain ⟨pA, hpA⟩ := List.get?_of_mem hlnSA
  obtain ⟨pB, hpB⟩ := List.get?_of_mem hlnSB
  rcases List.get?_eq_some.1 hpA with ⟨hpAlt, hpAe⟩
  rcases List.get?_eq_some.1 hpB with ⟨hpBlt, hpBe⟩
  have hpw := treeOrdered_leaves_sep t none none hord
  rcases Nat.lt_trichotomy pA pB with hpp | hpp | hpp
  · have hlt := List.pairwise_iff_get.1 hpw ⟨pA, hpAlt⟩ ⟨pB, hpBlt⟩ hpp
    rw [hpAe, hpBe] at hlt
    constructor
    · have hkk := hlt jA hjA hnzA2 jB hjB hnzB2
      have hred : cstrcmp mkA mkB =
          cstrcmp (lnSA.keys.getD jA []) (lnSB.keys.getD jB []) := by
        rw [← hclsA, ← hclsB, cstrcmp_cstr_left, cstrcmp_cstr_right]
      rw [hred]
      exact hkk
    · intro j hj hnzBj
      have hphj : ((s.heap.getD lidB KVLeaf.empty).slots.getD j KVSlot.empty).hash ≠ 0 := by
        rw [← recoverLeafNode_hash lidB _ hj]
        exact hnzBj
      have hmBj := hmirB j hj
      have hnzSj : lnSB.hashes.getD j 0 ≠ 0 := by
        rw [hmBj.1]
        exact hphj
      have hclsj : cstr (lnSB.keys.getD j []) =
          ((s.heap.getD lidB KVLeaf.empty).slots.getD j KVSlot.empty).keyCStr :=
        hmBj.2 hphj
      have hkk := hlt jA hjA hnzA2 j hj hnzSj
      show cstrcmp ((recoverLeafNode lidB (s.heap.getD lidB KVLeaf.empty)).keys.getD j [])
        mkA = Ordering.gt
      rw [recoverLeafNode_key lidB _ hj hphj]
      rw [← hclsj, cstrcmp_cstr_left, ← hclsA, cstrcmp_cstr_right]
      exact cstrcmp_gt_iff_lt.2 hkk
  · exfalso
    rw [hpp] at hpA
    rw [hpA] at hpB
    have heql : lnSA = lnSB := Option.some.inj hpB
    apply hne2
    rw [← hleafA, ← hleafB, heql]
  · exfalso
    have hlt := List.pairwise_iff_get.1 hpw ⟨pB, hpBlt⟩ ⟨pA, hpAlt⟩ hpp
    rw [hpAe, hpBe] at hlt
    have hkk := hlt jB hjB hnzB2 jA hjA hnzA2
    have hred : cstrcmp mkB mkA =
        cstrcmp (lnSB.keys.getD jB []) (lnSA.keys.getD jA []) := by
      rw [← hclsA, ← hclsB, cstrcmp_cstr_left, cstrcmp_cstr_right]
    rw [← hred] at hkk
    have hgt : cstrcmp mkA mkB = Ordering.gt := cstrcmp_gt_iff_lt.2 hkk
    unfold cstrcmp at hgt
    rw [hzfA, hzfB] at hgt
    rw [hgt] at hle2
    exact (by decide : ¬ ((Ordering.gt != Ordering.gt) = true)) hle2

/-- The chaining facts needed to link a token list onto a tree bounded by
`mk`: ascending `max_key`s, each zero-free, and each descriptor's keys lying
strictly above the predecessor's `max_key` and at or below its own. -/
def toksLinked : Bytes → List (KVLeafNode × Bytes) → Prop
  | _, [] => True
  | mk, (ln, mkh) :: rest => cstrcmp mk mkh = Ordering.lt ∧ cstr mkh = mkh ∧
      (∀ j, j < LEAF_KEYS → ln.hashes.getD j 0 ≠ 0 →
        cstrcmp (ln.keys.getD j []) mk = Ordering.gt ∧
        cstrcmp (ln.keys.getD j []) mkh ≠ Ordering.gt) ∧
      toksLinked mkh rest

/-- The sorted token list satisfies the chaining facts, starting from the
head token's `max_key`. -/
theorem toksLinked_build (s : KVTreeState) (t : KVNode)
    (ht : s.treeTop = some t) (hmir : stateMirrorB s = true)
    (hord : treeOrderedB none none t = true)
    (hcover : chainCoverB s = true) (hpz : preallocZeroB s = true) :
    ∀ (l : List (KVLeafNode × Bytes)) (prev : KVLeafNode × Bytes),
    (prev :: l).Pairwise (fun a b => (bytesCmp a.2 b.2 != Ordering.gt) = true) →
    ((prev :: l).map (fun tok => tok.1.leaf)).Nodup →
    (∀ tok ∈ prev :: l, tok ∈ (recoverWalk s.heap s.chain).2) →
    toksLinked prev.2 l := by
  intro l
  induction l with
  | nil => intro prev _ _ _; trivial
  | cons q rest ih =>
    intro prev hpw hnd hmem
    obtain ⟨qln, qmk⟩ := q
    rw [List.pairwise_cons] at hpw
    have hle := hpw.1 (qln, qmk) (List.mem_cons_self _ _)
    rw [List.map_cons, List.nodup_cons] at hnd
    have hneq : prev.1.leaf ≠ (qln, qmk).1.leaf := by
      intro hq
      apply hnd.1
      rw [List.map_cons, hq]
      exact List.mem_cons_self _ _
    have hsep := token_pair_sep s t ht hmir hord hcover hpz prev (qln, qmk)
      (hmem prev (List.mem_cons_self _ _))
      (hmem (qln, qmk) (List.mem_cons_of_mem _ (List.mem_cons_self _ _))) hneq hle
    have hown := token_own_facts s.heap s.chain (qln, qmk)
      (hmem (qln, qmk) (List.mem_cons_of_mem _ (List.mem_cons_self _ _)))
    exact ⟨hsep.1, hown.1,
      fun j hj hnz => ⟨hsep.2 j hj hnz, hown.2 j hj hnz⟩,
      ih (qln, qmk) hpw.2 hnd.2 (fun tok htok => hmem tok (List.mem_cons_of_mem _ htok))⟩

theorem leafn_ordered_trivial (ln : KVLeafNode) :
    treeOrderedB none none (KVNode.leafn ln) = true := by
  rw [treeOrderedB, List.all_eq_true]
  intro i _
  rw [Bool.or_eq_true]
  right
  rfl

/-- A leaf ordered above `lo` whose keys are bounded by `m` is ordered in
`(lo, m]`. -/
theorem leafn_ordered_of_bounded (ln : KVLeafNode) (lo hi2 : Option Bytes) (m : Bytes)
    (hord : treeOrderedB lo hi2 (KVNode.leafn ln) = true)
    (hbnd : treeBoundedB m (KVNode.leafn ln) = true) :
    treeOrderedB lo (some m) (KVNode.leafn ln) = true := by
  rw [treeOrderedB, List.all_eq_true] at hord ⊢
  rw [treeBoundedB, List.all_eq_true] at hbnd
  intro i hi
  have h1 := hord i hi
  have h2 := hbnd i hi
  rw [Bool.or_eq_true, Bool.and_eq_true] at h1 ⊢
  rw [Bool.or_eq_true] at h2
  rcases h1 with h1 | h1
  · exact Or.inl h1
  · rcases h2 with h2 | h2
    · exact Or.inl h2
    · exact Or.inr ⟨h1.1, h2⟩

/-- A leaf whose keys all lie strictly above `mk` is ordered in
`(mk, ∞)`. -/
theorem leafn_ordered_above (ln : KVLeafNode) (mk : Bytes)
    (h : ∀ j, j < LEAF_KEYS → ln.hashes.getD j 0 ≠ 0 →
      cstrcmp (ln.keys.getD j []) mk = Ordering.gt) :
    treeOrderedB (some mk) none (KVNode.leafn ln) = true := by
  rw [treeOrderedB, List.all_eq_true]
  intro i hi
  rw [Bool.or_eq_true, Bool.and_eq_true]
  by_cases hz : ln.hashes.getD i 0 = 0
  · exact Or.inl (beq_iff_eq.2 hz)
  · refine Or.inr ⟨?_, rfl⟩
    rw [sepLB, ordBeqEq]
    exact h i (List.mem_range.1 hi) hz

/-- A leaf whose keys lie at or below `m` is bounded by `m`. -/
theorem leafn_bounded_of (ln : KVLeafNode) (m : Bytes)
    (h : ∀ j, j < LEAF_KEYS → ln.hashes.getD j 0 ≠ 0 →
      cstrcmp (ln.keys.getD j []) m ≠ Ordering.gt) :
    treeBoundedB m (KVNode.leafn ln) = true := by
  rw [treeBoundedB, List.all_eq_true]
  intro i hi
  rw [Bool.or_eq_true]
  by_cases hz : ln.hashes.getD i 0 = 0
  · exact Or.inl (beq_iff_eq.2 hz)
  · right
    rw [keyUB, ordNeGt]
    exact h i (List.mem_range.1 hi) hz

/-- The recovery rebuild loop keeps the tree ordered and capacity-bounded
when the linked tokens satisfy the chaining facts. -/
theorem recoverBuild_ordered : ∀ (toks : List (KVLeafNode × Bytes)) (t : KVNode) (mk : Bytes),
    nodeShapeWF t = true → treeSizedB t = true →
    treeOrderedB none none t = true → treeBoundedB mk t = true →
    toksLinked mk toks →
    treeOrderedB none none (recoverBuild t mk toks) = true ∧
    treeSizedB (recoverBuild t mk toks) = true := by
  intro toks
  induction toks with
  | nil =>
    intro t mk _ hsz hord _ _
    rw [recoverBuild]
    exact ⟨hord, hsz⟩
  | cons tok rest ih =>
    intro t mk hwf hsz hord hbnd hlink
    obtain ⟨ln, mkh⟩ := tok
    obtain ⟨hlt, hzfh, hkeys, hrest⟩ := hlink
    obtain ⟨ln0, fs, hr1, hr2, hr3⟩ := rightmostPath_shape t hwf
    have hpr : rightmostPath t [] = (KVNode.leafn ln0, fs) := by
      have := hr1 []
      simpa using this
    have hrmA := rightmost_path_facts t [] mk hsz hord hbnd rfl rfl rfl rfl
    have hbndh : treeBoundedB mkh t = true :=
      treeBoundedB_widen t mk mkh (by rw [hlt]; intro hq; cases hq) hbnd
    have hrmB := rightmost_path_facts t [] mkh hsz hord hbndh rfl rfl rfl rfl
    simp only [hpr] at hrmA hrmB
    obtain ⟨hpo, hpsz, _, hb2, hlbmk, hordn, hbndn, _⟩ := hrmA
    obtain ⟨_, _, hpbh, _, _, _, hbndnh, _⟩ := hrmB
    rw [recoverBuild]
    rw [hpr]
    have hordered : treeOrderedB none none (innerUpdateAfterSplit (KVNode.leafn ln0)
        (KVNode.leafn ln) mk fs) = true := by
      refine innerUpdate_ordered fs _ _ mk hpo hlbmk ?_ ?_ ?_
      · rw [hb2]
        rfl
      · exact leafn_ordered_of_bounded ln0 (holeBounds fs).1 (holeBounds fs).2 mk hordn hbndn
      · rw [hb2]
        exact leafn_ordered_above ln mk (fun j hj hnz => (hkeys j hj hnz).1)
    have hsized : treeSizedB (innerUpdateAfterSplit (KVNode.leafn ln0)
        (KVNode.leafn ln) mk fs) = true :=
      innerUpdate_sized fs _ _ mk hpo hpsz rfl rfl
    have hshape2 : nodeShapeWF (innerUpdateAfterSplit (KVNode.leafn ln0)
        (KVNode.leafn ln) mk fs) = true :=
      innerUpdate_shape fs hr2 _ _ mk rfl rfl
    have hbounded : treeBoundedB mkh (innerUpdateAfterSplit (KVNode.leafn ln0)
        (KVNode.leafn ln) mk fs) = true := by
      refine innerUpdate_bounded mkh fs _ _ mk hpo hpbh ?_ ?_ ?_
      · exact hbndnh
      · exact leafn_bounded_of ln mkh (fun j hj hnz => (hkeys j hj hnz).2)
      · rw [sepUB, ordBeqEq]
        exact hlt
    exact ih _ mkh hshape2 hsized hordered hbounded hrest

theorem bytesCmp_total (a b : Bytes) :
    bytesCmp a b ≠ Ordering.gt ∨ bytesCmp b a ≠ Ordering.gt := by
  rcases hq : bytesCmp a b with _ | _ | _
  · left
    intro h
    cases h
  · left
    intro h
    cases h
  · right
    rw [bytesCmp_gt_iff_lt.1 hq]
    intro h
    cases h

/-- Recovery preserves the `Get` reading of every key: on a mirrored,
ordered, sized, class-unique state whose chain covers the tree leaves,
rebuilding the volatile tree from the persistent chain gives the same
`getStr` answer as the tree before the restart. -/
theorem recover_getStr_eq (s : KVTreeState)
    (hshape : stateShapeB s = true) (hmir : stateMirrorB s = true)
    (hord : stateOrderedB s = true) (hsz : stateSizedB s = true)
    (hcu : stateClassUniqB s = true) (hpz : preallocZeroB s = true)
    (hcover : chainCoverB s = true) (K : Bytes) :
    (KVTreeState.recover s.heap s.chain).getStr K = s.getStr K := by
  rcases hsorted : stableSort (fun a b => bytesCmp a.2 b.2 != Ordering.gt)
      (recoverWalk s.heap s.chain).2 with _ | ⟨⟨ln0, mk0⟩, rest⟩
  · -- no non-empty leaf: the recovered tree is empty and so is every lookup
    have hr : KVTreeState.recover s.heap s.chain =
        { heap := s.heap, chain := s.chain, treeTop := none,
          leavesPrealloc := (recoverWalk s.heap s.chain).1 } := by
      unfold KVTreeState.recover
      dsimp only
      rw [hsorted]
    have hwalk2 : (recoverWalk s.heap s.chain).2 = [] := by
      have hperm := stableSort_perm (fun a b => bytesCmp a.2 b.2 != Ordering.gt)
        (recoverWalk s.heap s.chain).2
      rw [hsorted] at hperm
      exact hperm.symm.eq_nil
    have hchz : ∀ lid ∈ s.chain,
        recoverMaxKey (s.heap.getD lid KVLeaf.empty).slots LEAF_KEYS none = none := by
      intro lid hlid
      rw [recoverWalk_spec] at hwalk2
      simp only at hwalk2
      have hfil := List.map_eq_nil_iff.1 hwalk2
      rcases hq : recoverMaxKey (s.heap.getD lid KVLeaf.empty).slots LEAF_KEYS none
        with _ | mk2
      · rfl
      · exfalso
        have hmem : lid ∈ List.filter (fun lid =>
            !(recoverMaxKey (s.heap.getD lid KVLeaf.empty).slots LEAF_KEYS none).isNone)
            s.chain := by
          refine List.mem_filter.2 ⟨hlid, ?_⟩
          show (!(recoverMaxKey (s.heap.getD lid KVLeaf.empty).slots
            LEAF_KEYS none).isNone) = true
          rw [hq]
          rfl
        rw [hfil] at hmem
        exact absurd hmem (List.not_mem_nil lid)
    rw [hr]
    have hlhs : (KVTreeState.mk s.heap s.chain none
        (recoverWalk s.heap s.chain).1).getStr K = (KVStatus.NOT_FOUND, []) := rfl
    rw [hlhs]
    rcases htop : s.treeTop with _ | t
    · unfold KVTreeState.getStr
      rw [htop]
    · obtain ⟨hheaplen, hprelt, htfacts⟩ := stateShapeB_spec hshape
      obtain ⟨hwfS, hlnfacts, hnodup⟩ := htfacts t htop
      obtain ⟨lnS, pS, hsearchS⟩ := leafSearch_total K t hwfS []
      have hlnSmem : lnS ∈ treeLeaves t := search_leaf_mem hsearchS
      have hscanS : slotMatchScan lnS.hashes lnS.keys (PearsonHash K) K LEAF_KEYS = none := by
        rcases hq : slotMatchScan lnS.hashes lnS.keys (PearsonHash K) K LEAF_KEYS with _ | j
        · rfl
        · exfalso
          obtain ⟨hjlt, hjh, _, _⟩ := slotMatchScan_some hq
          obtain ⟨_, hc2, _⟩ := chainCoverB_spec hcover
          have hlid := hc2 t htop lnS hlnSmem
          have hz := recoverMaxKey_none _ _ _ (hchz lnS.leaf hlid)
          have hz2 := hz.2 j hjlt
          rw [kvslot_hash] at hz2
          have hmirlnS : pairMirror lnS (s.heap.getD lnS.leaf KVLeaf.empty) := by
            have hmirS : (treeLeaves t).all (leafMirrorB s.heap) = true := by
              unfold stateMirrorB at hmir
              rw [htop] at hmir
              exact hmir
            exact leafMirrorB_iff.1 (List.all_eq_true.1 hmirS lnS hlnSmem)
          have hmj := (hmirlnS j hjlt).1
          rw [hjh, hz2] at hmj
          exact pearsonHash_ne_zero K hmj
      unfold KVTreeState.getStr
      simp only [htop, hsearchS, hscanS]
  · -- at least one non-empty leaf: the rebuilt tree answers like the old one
    have hr : KVTreeState.recover s.heap s.chain =
        { heap := s.heap, chain := s.chain,
          treeTop := some (recoverBuild (KVNode.leafn ln0) mk0 rest),
          leavesPrealloc := (recoverWalk s.heap s.chain).1 } := by
      unfold KVTreeState.recover
      dsimp only
      rw [hsorted]
    have hperm := stableSort_perm (fun a b => bytesCmp a.2 b.2 != Ordering.gt)
      (recoverWalk s.heap s.chain).2
    rw [hsorted] at hperm
    have hmem0 : (ln0, mk0) ∈ (recoverWalk s.heap s.chain).2 :=
      hperm.mem_iff.1 (List.mem_cons_self _ _)
    rcases htop : s.treeTop with _ | t
    · exfalso
      obtain ⟨lid, mk2, hlid, heqtok, hmk⟩ := recoverWalk_token_facts _ _ _ hmem0
      obtain ⟨hc1, _, _⟩ := chainCoverB_spec hcover
      rcases hc1 lid hlid with ⟨t2, ht2, _⟩ | hpre
      · rw [htop] at ht2
        exact Option.noConfusion ht2
      · have hz := preallocZeroB_spec hpz lid hpre
        have hnone := recoverMaxKey_all_zero (s.heap.getD lid KVLeaf.empty).slots
          LEAF_KEYS none (fun j hj => by rw [kvslot_hash]; exact hz j hj)
        rw [hnone] at hmk
        exact Option.noConfusion hmk
    · obtain ⟨hheaplen, hprelt, htfacts⟩ := stateShapeB_spec hshape
      obtain ⟨hwfS, hlnfacts, hnodup⟩ := htfacts t htop
      have hordS : treeOrderedB none none t = true := by
        unfold stateOrderedB at hord
        rw [htop] at hord
        exact hord
      have hszS : treeSizedB t = true := by
        unfold stateSizedB at hsz
        rw [htop] at hsz
        exact hsz
      have hcuS : (treeLeaves t).all leafClassUniqB = true := by
        unfold stateClassUniqB at hcu
        rw [htop] at hcu
        exact hcu
      have hmirS : (treeLeaves t).all (leafMirrorB s.heap) = true := by
        unfold stateMirrorB at hmir
        rw [htop] at hmir
        exact hmir
      obtain ⟨hc1, hc2, hc3⟩ := chainCoverB_spec hcover
      have hmemsorted : ∀ tok ∈ (ln0, mk0) :: rest,
          tok ∈ (recoverWalk s.heap s.chain).2 := fun tok htok => hperm.mem_iff.1 htok
      have htrans : ∀ (a b c : KVLeafNode × Bytes),
          (bytesCmp a.2 b.2 != Ordering.gt) = true →
          (bytesCmp b.2 c.2 != Ordering.gt) = true →
          (bytesCmp a.2 c.2 != Ordering.gt) = true := by
        intro a b c hab hbc
        rw [ordNeGt] at hab hbc ⊢
        exact bytesCmp_le_trans hab hbc
      have htotal : ∀ (a b : KVLeafNode × Bytes),
          (bytesCmp a.2 b.2 != Ordering.gt) = true ∨
          (bytesCmp b.2 a.2 != Ordering.gt) = true := by
        intro a b
        rcases bytesCmp_total a.2 b.2 with h | h
        · left
          rw [ordNeGt]
          exact h
        · right
          rw [ordNeGt]
          exact h
      have hpwsorted : ((ln0, mk0) :: rest).Pairwise
          (fun a b => (bytesCmp a.2 b.2 != Ordering.gt) = true) := by
        have := pairwise_stableSort htrans htotal (recoverWalk s.heap s.chain).2
        rw [hsorted] at this
        exact this
      have hwn : ((recoverWalk s.heap s.chain).2.map (fun tok => tok.1.leaf)).Nodup := by
        rw [recoverWalk_spec]
        simp only
        rw [List.map_map]
        have h1 : ((fun tok : KVLeafNode × Bytes => tok.1.leaf) ∘ (fun lid =>
            (recoverLeafNode lid (s.heap.getD lid KVLeaf.empty),
             (recoverMaxKey (s.heap.getD lid KVLeaf.empty).slots
               LEAF_KEYS none).getD []))) = fun lid => lid := by
          funext lid
          rfl
        rw [h1]
        have h2 : (fun lid : Nat => lid) = id := rfl
        rw [h2, List.map_id]
        exact hc3.filter _
      have hnodups : (((ln0, mk0) :: rest).map (fun tok => tok.1.leaf)).Nodup := by
        have hmapperm := hperm.map (fun tok => tok.1.leaf)
        exact (List.Perm.nodup_iff hmapperm).2 hwn
      have hlink : toksLinked mk0 rest :=
        toksLinked_build s t htop hmir hordS hcover hpz rest (ln0, mk0)
          hpwsorted hnodups hmemsorted
      have hown0 := token_own_facts s.heap s.chain (ln0, mk0)
        (hmemsorted _ (List.mem_cons_self _ _))
      have hbnd0 : treeBoundedB mk0 (KVNode.leafn ln0) = true :=
        leafn_bounded_of ln0 mk0 (fun j hj hnz => hown0.2 j hj hnz)
      obtain ⟨hrord, hrsz⟩ := recoverBuild_ordered rest (KVNode.leafn ln0) mk0
        rfl rfl (leafn_ordered_trivial ln0) hbnd0 hlink
      obtain ⟨hrwf, hrperm⟩ := recoverBuild_props rest (KVNode.leafn ln0) mk0 rfl
      obtain ⟨lnS, pS, hsearchS⟩ := leafSearch_total K t hwfS []
      have hlnSmem : lnS ∈ treeLeaves t := search_leaf_mem hsearchS
      have hmirlnS : pairMirror lnS (s.heap.getD lnS.leaf KVLeaf.empty) :=
        leafMirrorB_iff.1 (List.all_eq_true.1 hmirS lnS hlnSmem)
      obtain ⟨lnR, pR, hsearchR⟩ :=
        leafSearch_total K (recoverBuild (KVNode.leafn ln0) mk0 rest) hrwf []
      have hlnRmem : lnR ∈ treeLeaves (recoverBuild (KVNode.leafn ln0) mk0 rest) :=
        search_leaf_mem hsearchR
      -- descriptors of the rebuilt tree are walk tokens
      have hleafTok : ∀ ln2, ln2 ∈ treeLeaves (recoverBuild (KVNode.leafn ln0) mk0 rest) →
          ∃ mk2, (ln2, mk2) ∈ (recoverWalk s.heap s.chain).2 := by
        intro ln2 hln2
        have hmem2 := hrperm.mem_iff.1 hln2
        rw [treeLeaves] at hmem2
        rcases List.mem_append.1 hmem2 with h2 | h2
        · rcases List.mem_singleton.1 h2 with rfl
          exact ⟨mk0, hmem0⟩
        · obtain ⟨tok, htok2, htokeq⟩ := List.mem_map.1 h2
          obtain ⟨lnx, mkx⟩ := tok
          cases htokeq
          exact ⟨mkx, hmemsorted _ (List.mem_cons_of_mem _ htok2)⟩
      rcases hscanS : slotMatchScan lnS.hashes lnS.keys (PearsonHash K) K LEAF_KEYS
        with _ | slot
      · -- the old tree finds nothing: neither does the rebuilt one
        have hscanR : slotMatchScan lnR.hashes lnR.keys (PearsonHash K) K LEAF_KEYS
            = none := by
          rcases hq : slotMatchScan lnR.hashes lnR.keys (PearsonHash K) K LEAF_KEYS
            with _ | j
          · rfl
          · exfalso
            obtain ⟨hjlt, hjh, hjcls, _⟩ := slotMatchScan_some hq
            obtain ⟨mk2, htokmem⟩ := hleafTok lnR hlnRmem
            obtain ⟨lid, mk3, hlid, heqtok, hmk⟩ := recoverWalk_token_facts _ _ _ htokmem
            have hlnReq : lnR = recoverLeafNode lid (s.heap.getD lid KVLeaf.empty) :=
              congrArg Prod.fst heqtok
            have hphj : ((s.heap.getD lid KVLeaf.empty).slots.getD j KVSlot.empty).hash
                ≠ 0 := by
              rw [← recoverLeafNode_hash lid _ hjlt, ← hlnReq, hjh]
              exact pearsonHash_ne_zero K
            obtain ⟨lnS2, hlnS2, hleaf2⟩ := chain_nonempty_tree_leaf s t htop hcover hpz
              lid mk3 hlid hmk
            have hmir2 : pairMirror lnS2 (s.heap.getD lid KVLeaf.empty) := by
              have := leafMirrorB_iff.1 (List.all_eq_true.1 hmirS lnS2 hlnS2)
              rw [hleaf2] at this
              exact this
            have hnz2 : lnS2.hashes.getD j 0 ≠ 0 := by
              rw [(hmir2 j hjlt).1]
              exact hphj
            have hcls2 : cstrcmp (lnS2.keys.getD j []) K = Ordering.eq := by
              have hq1 : cstr (lnS2.keys.getD j []) =
                  ((s.heap.getD lid KVLeaf.empty).slots.getD j KVSlot.empty).keyCStr :=
                (hmir2 j hjlt).2 hphj
              have hq2 : (recoverLeafNode lid (s.heap.getD lid KVLeaf.empty)).keys.getD
                  j [] = ((s.heap.getD lid KVLeaf.empty).slots.getD j KVSlot.empty).keyCStr :=
                recoverLeafNode_key lid _ hjlt hphj
              rw [← cstrcmp_cstr_left, hq1, ← hq2, ← hlnReq]
              exact hjcls
            have heqleaf : lnS2 = lnS := ordered_search_class t none none K [] lnS pS
              hordS hsearchS lnS2 hlnS2 j hjlt hnz2 hcls2
            have hh2 : lnS2.hashes.getD j 0 = PearsonHash K := by
              rw [(hmir2 j hjlt).1, ← kvslot_hash, ← recoverLeafNode_hash lid _ hjlt,
                ← hlnReq]
              exact hjh
            apply slotMatchScan_none hscanS j hjlt
            rw [← heqleaf]
            exact ⟨hh2, hcls2⟩
        have hlhs : (KVTreeState.recover s.heap s.chain).getStr K
            = (KVStatus.NOT_FOUND, []) := by
          rw [hr]
          unfold KVTreeState.getStr
          simp only [hsearchR, hscanR]
        have hrhs : s.getStr K = (KVStatus.NOT_FOUND, []) := by
          unfold KVTreeState.getStr
          simp only [htop, hsearchS, hscanS]
        rw [hlhs, hrhs]
      · -- the old tree finds a slot: the rebuilt tree reads the same slot
        obtain ⟨hsltlt, hslth, hsltcls, _⟩ := slotMatchScan_some hscanS
        have hphS : ((s.heap.getD lnS.leaf KVLeaf.empty).slots.getD slot KVSlot.empty).hash
            ≠ 0 := by
          rw [kvslot_hash, ← (hmirlnS slot hsltlt).1, hslth]
          exact pearsonHash_ne_zero K
        have hlidchain : lnS.leaf ∈ s.chain := hc2 t htop lnS hlnSmem
        have hmksome : ∃ mk2, recoverMaxKey (s.heap.getD lnS.leaf KVLeaf.empty).slots
            LEAF_KEYS none = some mk2 := by
          rcases hmkq : recoverMaxKey (s.heap.getD lnS.leaf KVLeaf.empty).slots
            LEAF_KEYS none with _ | mk2
          · exfalso
            have hz := recoverMaxKey_none _ _ _ hmkq
            have := hz.2 slot hsltlt
            exact hphS this
          · exact ⟨mk2, rfl⟩
        obtain ⟨mk2, hmk2⟩ := hmksome
        have htokmem : (recoverLeafNode lnS.leaf (s.heap.getD lnS.leaf KVLeaf.empty), mk2)
            ∈ (recoverWalk s.heap s.chain).2 := by
          rw [recoverWalk_spec]
          simp only
          refine List.mem_map.2 ⟨lnS.leaf, ?_, ?_⟩
          · refine List.mem_filter.2 ⟨hlidchain, ?_⟩
            show (!(recoverMaxKey (s.heap.getD lnS.leaf KVLeaf.empty).slots
              LEAF_KEYS none).isNone) = true
            rw [hmk2]
            rfl
          · show (recoverLeafNode lnS.leaf (s.heap.getD lnS.leaf KVLeaf.empty),
              (recoverMaxKey (s.heap.getD lnS.leaf KVLeaf.empty).slots
                LEAF_KEYS none).getD []) = _
            rw [hmk2]
            rfl
        have hrlnmem : recoverLeafNode lnS.leaf (s.heap.getD lnS.leaf KVLeaf.empty)
            ∈ treeLeaves (recoverBuild (KVNode.leafn ln0) mk0 rest) := by
          apply hrperm.mem_iff.2
          have htoksorted : (recoverLeafNode lnS.leaf (s.heap.getD lnS.leaf KVLeaf.empty),
              mk2) ∈ (ln0, mk0) :: rest := hperm.mem_iff.2 htokmem
          rw [treeLeaves]
          rcases List.mem_cons.1 htoksorted with heq | hmem2
          · have h1 : recoverLeafNode lnS.leaf (s.heap.getD lnS.leaf KVLeaf.empty) = ln0 :=
              congrArg Prod.fst heq
            rw [h1]
            exact List.mem_append.2 (Or.inl (List.mem_singleton.2 rfl))
          · exact List.mem_append.2 (Or.inr (List.mem_map.2 ⟨_, hmem2, rfl⟩))
        have hRhash : (recoverLeafNode lnS.leaf
            (s.heap.getD lnS.leaf KVLeaf.empty)).hashes.getD slot 0 = PearsonHash K := by
          rw [recoverLeafNode_hash _ _ hsltlt, kvslot_hash, ← (hmirlnS slot hsltlt).1]
          exact hslth
        have hRcls : cstrcmp ((recoverLeafNode lnS.leaf
            (s.heap.getD lnS.leaf KVLeaf.empty)).keys.getD slot []) K = Ordering.eq := by
          rw [recoverLeafNode_key _ _ hsltlt hphS,
            ← (hmirlnS slot hsltlt).2 (by rw [← kvslot_hash]; exact hphS),
            cstrcmp_cstr_left]
          exact hsltcls
        have hRe : recoverLeafNode lnS.leaf (s.heap.getD lnS.leaf KVLeaf.empty) = lnR :=
          ordered_search_class (recoverBuild (KVNode.leafn ln0) mk0 rest) none none K []
            lnR pR hrord hsearchR _ hrlnmem slot hsltlt
            (by rw [hRhash]; exact pearsonHash_ne_zero K) hRcls
        have huniqS := leafClassUniqB_spec (List.all_eq_true.1 hcuS lnS hlnSmem)
        have huniqR : ∀ j, j ≠ slot → j < LEAF_KEYS →
            ¬(lnR.hashes.getD j 0 = PearsonHash K ∧
              cstrcmp (lnR.keys.getD j []) K = Ordering.eq) := by
          intro j hjne hjlt hcon
          have hphj : ((s.heap.getD lnS.leaf KVLeaf.empty).slots.getD j KVSlot.empty).hash
              ≠ 0 := by
            rw [← recoverLeafNode_hash lnS.leaf _ hjlt, hRe, hcon.1]
            exact pearsonHash_ne_zero K
          have hnzSj : lnS.hashes.getD j 0 ≠ 0 := by
            rw [(hmirlnS j hjlt).1, ← kvslot_hash]
            exact hphj
          have hclsSj : cstrcmp (lnS.keys.getD j []) K = Ordering.eq := by
            rw [← cstrcmp_cstr_left, (hmirlnS j hjlt).2 (by rw [← kvslot_hash]; exact hphj),
              ← recoverLeafNode_key lnS.leaf _ hjlt hphj, hRe]
            exact hcon.2
          have hnzSslot : lnS.hashes.getD slot 0 ≠ 0 := by
            rw [hslth]
            exact pearsonHash_ne_zero K
          apply huniqS j slot hjlt hsltlt hjne hnzSj hnzSslot
          rw [cstrcmp_eq_iff.1 hclsSj, cstrcmp_eq_iff.1 hsltcls]
        have hscanR : slotMatchScan lnR.hashes lnR.keys (PearsonHash K) K LEAF_KEYS
            = some slot := by
          apply slotMatchScan_found hsltlt
          · rw [← hRe]
            exact hRhash
          · rw [← hRe]
            exact hRcls
          · intro j hjne hjlt
            exact huniqR j hjne hjlt
        have hleafeq : lnR.leaf = lnS.leaf := by
          rw [← hRe]
          exact recoverLeafNode_leaf _ _
        have hlhs : (KVTreeState.recover s.heap s.chain).getStr K = (KVStatus.OK,
            cstr ((s.heap.getD lnS.leaf KVLeaf.empty).slots.getD slot
              KVSlot.empty).valRegion) := by
          rw [hr]
          unfold KVTreeState.getStr
          simp only [hsearchR, hscanR, hleafeq]
        have hrhs : s.getStr K = (KVStatus.OK,
            cstr ((s.heap.getD lnS.leaf KVLeaf.empty).slots.getD slot
              KVSlot.empty).valRegion) := by
          unfold KVTreeState.getStr
          simp only [htop, hsearchS, hscanS]
        rw [hlhs, hrhs]

/-- The free list built by recovery is exactly the set of fully empty
persistent leaves, in chain order. -/
theorem recover_prealloc (heap : List KVLeaf) (chain : List Nat)
    (hlen : ∀ pl ∈ heap, pl.slots.length = LEAF_KEYS) :
    (KVTreeState.recover heap chain).leavesPrealloc =
      chain.filter (fun lid =>
        (heap.getD lid KVLeaf.empty).slots.all fun sl => sl.ph == 0) := by
  have hpre : (KVTreeState.recover heap chain).leavesPrealloc =
      (recoverWalk heap chain).1 := by
    rcases hs : stableSort (fun a b => bytesCmp a.2 b.2 != Ordering.gt)
      (recoverWalk heap chain).2 with _ | ⟨⟨ln0, mk0⟩, rest⟩
    · unfold KVTreeState.recover
      dsimp only
      rw [hs]
    · unfold KVTreeState.recover
      dsimp only
      rw [hs]
  rw [hpre, recoverWalk_spec]
  simp only
  apply List.filter_congr
  intro lid hlid
  have hslen : (heap.getD lid KVLeaf.empty).slots.length = LEAF_KEYS := by
    by_cases hq : lid < heap.length
    · exact hlen _ (getD_mem hq)
    · rw [List.getD_eq_default _ _ (Nat.le_of_not_lt hq)]
      show (List.replicate LEAF_KEYS KVSlot.empty).length = LEAF_KEYS
      rw [List.length_replicate]
  show (recoverMaxKey (heap.getD lid KVLeaf.empty).slots LEAF_KEYS none).isNone =
    ((heap.getD lid KVLeaf.empty).slots.all fun sl => sl.ph == 0)
  rcases hq : recoverMaxKey (heap.getD lid KVLeaf.empty).slots LEAF_KEYS none with _ | mk2
  · have hz := (recoverMaxKey_none _ _ _ hq).2
    have hall : ((heap.getD lid KVLeaf.empty).slots.all fun sl => sl.ph == 0) = true := by
      rw [List.all_eq_true]
      intro sl hsl
      obtain ⟨j, hjget⟩ := List.get?_of_mem hsl
      rcases List.get?_eq_some.1 hjget with ⟨hjlt, hje⟩
      have hz2 := hz j (by rw [← hslen]; exact hjlt)
      rw [kvslot_hash] at hz2
      have hgd : (heap.getD lid KVLeaf.empty).slots.getD j KVSlot.empty = sl := by
        rw [List.getD_eq_getElem _ _ hjlt]
        exact hje
      rw [hgd] at hz2
      exact beq_iff_eq.2 hz2
    rw [hall]
    rfl
  · obtain ⟨_, c2, _⟩ := recoverMaxKey_facts _ LEAF_KEYS none mk2 hq
    rcases c2 with ⟨j0, hj0, hj0nz, _⟩ | hc
    · have hfalse : ((heap.getD lid KVLeaf.empty).slots.all fun sl => sl.ph == 0)
          = false := by
        rcases hq2 : (heap.getD lid KVLeaf.empty).slots.all fun sl => sl.ph == 0 with _ | _
        · rfl
        · exfalso
          rw [List.all_eq_true] at hq2
          have hmem := @getD_mem KVSlot (heap.getD lid KVLeaf.empty).slots j0
            KVSlot.empty (by rw [hslen]; exact hj0)
          have := hq2 _ hmem
          rw [beq_iff_eq] at this
          rw [kvslot_hash] at hj0nz
          exact hj0nz this
      rw [hfalse]
      rfl
    · exact absurd hc (by simp)

/-- The recovered-leaf tokens, after the sort of `KVTree::Recover`, are
pairwise weakly ascending by `max_key`. -/
theorem recover_tokens_sorted (heap : List KVLeaf) (chain : List Nat) :
    (stableSort (fun a b => bytesCmp a.2 b.2 != Ordering.gt)
      (recoverWalk heap chain).2).Pairwise
      (fun a b => bytesCmp a.2 b.2 ≠ Ordering.gt) := by
  have htrans : ∀ (a b c : KVLeafNode × Bytes),
      (bytesCmp a.2 b.2 != Ordering.gt) = true →
      (bytesCmp b.2 c.2 != Ordering.gt) = true →
      (bytesCmp a.2 c.2 != Ordering.gt) = true := by
    intro a b c hab hbc
    rw [ordNeGt] at hab hbc ⊢
    exact bytesCmp_le_trans hab hbc
  have htotal : ∀ (a b : KVLeafNode × Bytes),
      (bytesCmp a.2 b.2 != Ordering.gt) = true ∨
      (bytesCmp b.2 a.2 != Ordering.gt) = true := by
    intro a b
    rcases bytesCmp_total a.2 b.2 with h | h
    · left
      rw [ordNeGt]
      exact h
    · right
      rw [ordNeGt]
      exact h
  have h := pairwise_stableSort htrans htotal (recoverWalk heap chain).2
  exact h.imp (fun hab => ordNeGt.1 hab)

/-- A persistent image with two one-record leaves: leaf `0` stores the key
`[97, 0, 98]` (embedded zero byte), leaf `1` the key `[98]`; recovery is run
on the chain `[0, 1]`. -/
def c4Recovered : KVTreeState := KVTreeState.recover
  [⟨(List.replicate LEAF_KEYS KVSlot.empty).set 0
      (KVSlot.empty.set (PearsonHash [97, 0, 98]) [97, 0, 98] [5])⟩,
   ⟨(List.replicate LEAF_KEYS KVSlot.empty).set 0
      (KVSlot.empty.set (PearsonHash [98]) [98] [7])⟩]
  [0, 1]

set_option maxRecDepth 40000 in
/-- C4 counterexample to the literal reading: recovery sorts and links the
leaves by the `max_key` computed from `slot.key()` — the stored key read as
a zero-terminated C string — not by the byte-lexicographically largest
stored key.  Recovering a leaf whose only record has key `[97, 0, 98]`
produces the separator `[97]` in the rebuilt inner node, although the
lexicographically largest (indeed only) stored key of that leaf is
`[97, 0, 98]`, which sorts strictly above `[97]` byte-wise; the rebuilt
tree still answers `get` for both stored keys. -/
theorem C4_counterexample :
    topInnerKeys c4Recovered = [[97]] ∧
    (((c4Recovered.heap.getD 0 KVLeaf.empty).slots.getD 0 KVSlot.empty).kv.getD []).take
      ((c4Recovered.heap.getD 0 KVLeaf.empty).slots.getD 0 KVSlot.empty).ks = [97, 0, 98] ∧
    ((List.range LEAF_KEYS).all fun i => (i == 0) ||
      (((c4Recovered.heap.getD 0 KVLeaf.empty).slots.getD i KVSlot.empty).ph == 0)) = true ∧
    bytesCmp [97] [97, 0, 98] = Ordering.lt ∧
    c4Recovered.getStr [97, 0, 98] = (KVStatus.OK, [5]) ∧
    c4Recovered.getStr [98] = (KVStatus.OK, [7]) := by
  exact ⟨by decide, by decide, by decide, by decide, by decide, by decide⟩

/-- C4 (amended): on every engine state satisfying the volatile invariants
(structurally well-formed, mirror-exact, `strcmp`-ordered, capacity-bounded,
per-leaf class-unique, all-zero free list, duplicate-free chain covering
exactly the tree leaves and the free list), reopening the pool walks
`root.head` and pushes exactly the fully empty leaves onto the free list in
chain order; builds descriptors (with C-string-truncated key mirrors) for
the non-empty leaves and sorts them ascending by `max_key` — the
`strcmp`-largest C-string form of the stored keys, not the
byte-lexicographically largest key — and links them with
`InnerUpdateAfterSplit` using each predecessor's `max_key` as the
separator; and the resulting tree gives the same `Get` answer as the
pre-close tree for every key. -/
theorem C4_recovery_refinement (s : KVTreeState) (K : Bytes)
    (hshape : stateShapeB s = true) (hmir : stateMirrorB s = true)
    (hord : stateOrderedB s = true) (hsz : stateSizedB s = true)
    (hcu : stateClassUniqB s = true) (hpz : preallocZeroB s = true)
    (hcover : chainCoverB s = true) :
    (KVTreeState.recover s.heap s.chain).leavesPrealloc =
      s.chain.filter (fun lid =>
        (s.heap.getD lid KVLeaf.empty).slots.all fun sl => sl.ph == 0) ∧
    (stableSort (fun a b => bytesCmp a.2 b.2 != Ordering.gt)
      (recoverWalk s.heap s.chain).2).Pairwise
      (fun a b => bytesCmp a.2 b.2 ≠ Ordering.gt) ∧
    (KVTreeState.recover s.heap s.chain).getStr K = s.getStr K :=
  ⟨recover_prealloc s.heap s.chain (stateShapeB_spec hshape).1,
   recover_tokens_sorted s.heap s.chain,
   recover_getStr_eq s hshape hmir hord hsz hcu hpz hcover K⟩

set_option maxRecDepth 40000 in
/-- Witness for C4: every invariant hypothesis holds (by evaluation) on the
state reached by one `put` on a fresh pool, and the amended recovery theorem
applies there. -/
theorem C4_witness :
    stateShapeB (KVTreeState.fresh.put [97] [5] false).2 = true ∧
    stateMirrorB (KVTreeState.fresh.put [97] [5] false).2 = true ∧
    stateOrderedB (KVTreeState.fresh.put [97] [5] false).2 = true ∧
    stateSizedB (KVTreeState.fresh.put [97] [5] false).2 = true ∧
    stateClassUniqB (KVTreeState.fresh.put [97] [5] false).2 = true ∧
    preallocZeroB (KVTreeState.fresh.put [97] [5] false).2 = true ∧
    chainCoverB (KVTreeState.fresh.put [97] [5] false).2 = true ∧
    ((KVTreeState.recover ((KVTreeState.fresh.put [97] [5] false).2).heap
        ((KVTreeState.fresh.put [97] [5] false).2).chain).leavesPrealloc =
      ((KVTreeState.fresh.put [97] [5] false).2).chain.filter (fun lid =>
        ((((KVTreeState.fresh.put [97] [5] false).2).heap.getD lid
          KVLeaf.empty).slots.all fun sl => sl.ph == 0)) ∧
     (stableSort (fun a b => bytesCmp a.2 b.2 != Ordering.gt)
        (recoverWalk ((KVTreeState.fresh.put [97] [5] false).2).heap
          ((KVTreeState.fresh.put [97] [5] false).2).chain).2).Pairwise
        (fun a b => bytesCmp a.2 b.2 ≠ Ordering.gt) ∧
     (KVTreeState.recover ((KVTreeState.fresh.put [97] [5] false).2).heap
        ((KVTreeState.fresh.put [97] [5] false).2).chain).getStr [97] =
      ((KVTreeState.fresh.put [97] [5] false).2).getStr [97]) :=
  ⟨by decide, by decide, by decide, by decide, by decide, by decide, by decide,
    C4_recovery_refinement (KVTreeState.fresh.put [97] [5] false).2 [97]
      (by decide) (by decide) (by decide) (by decide) (by decide) (by decide) (by decide)⟩
